import Mathlib

/-! The query engine `querify`: an in-memory relational query engine.

A shallow embedding of `querify.go`.  Go interfaces are function types, Go
slices are lists (a slice is taken to own its elements: its capacity is its
length, so `append` allocates; the left join is also given on slices with
their capacity in a memory of backing arrays), Go maps are association lists,
a stage's `Err` slot is an `Option Error`, and a run-time panic is the error
side of `Except Panic`.
-/

namespace Querify

/-! ## Values and their canonical text -/

/-- A dynamically typed Go value as the engine meets it: the JSON kinds, plus
the Go struct `Literal` (which `Literal.Select` stores in a column).  Numbers
are the integers; their canonical text is the decimal numeral. -/
inductive Value where
  | null
  | bool (b : Bool)
  | num (n : Int)
  | str (s : String)
  | arr (vs : List Value)
  | obj (kvs : List (String × Value))
  | literal (v : Value)

instance : Inhabited Value := ⟨Value.null⟩

mutual
/-- Structural equality test on values. -/
def Value.beq : Value → Value → Bool
  | .null, .null => true
  | .bool a, .bool b => a == b
  | .num a, .num b => a == b
  | .str a, .str b => a == b
  | .arr a, .arr b => Value.beqList a b
  | .obj a, .obj b => Value.beqFields a b
  | .literal a, .literal b => Value.beq a b
  | _, _ => false
/-- Structural equality test on lists of values. -/
def Value.beqList : List Value → List Value → Bool
  | [], [] => true
  | a :: as, b :: bs => Value.beq a b && Value.beqList as bs
  | _, _ => false
/-- Structural equality test on the fields of objects. -/
def Value.beqFields : List (String × Value) → List (String × Value) → Bool
  | [], [] => true
  | (k, a) :: as, (l, b) :: bs => k == l && Value.beq a b && Value.beqFields as bs
  | _, _ => false
end

mutual
theorem Value.beq_eq : ∀ a b : Value, Value.beq a b = true → a = b
  | .null, b => by cases b <;> simp [Value.beq]
  | .bool a, b => by cases b <;> simp [Value.beq]
  | .num a, b => by cases b <;> simp [Value.beq]
  | .str a, b => by cases b <;> simp [Value.beq]
  | .arr a, b => by
    cases b <;> simp [Value.beq]
    exact Value.beqList_eq a _
  | .obj a, b => by
    cases b <;> simp [Value.beq]
    exact Value.beqFields_eq a _
  | .literal a, b => by
    cases b <;> simp [Value.beq]
    exact Value.beq_eq a _
theorem Value.beqList_eq : ∀ a b : List Value, Value.beqList a b = true → a = b
  | [], b => by cases b <;> simp [Value.beqList]
  | a :: as, b => by
    cases b <;> simp [Value.beqList]
    intro h1 h2
    exact ⟨Value.beq_eq a _ h1, Value.beqList_eq as _ h2⟩
theorem Value.beqFields_eq :
    ∀ a b : List (String × Value), Value.beqFields a b = true → a = b
  | [], b => by cases b <;> simp [Value.beqFields]
  | (k, a) :: as, b => by
    cases b with
    | nil => simp [Value.beqFields]
    | cons hd tl =>
      obtain ⟨l, b⟩ := hd
      simp [Value.beqFields]
      intro h0 h1 h2
      exact ⟨⟨h0, Value.beq_eq a _ h1⟩, Value.beqFields_eq as _ h2⟩
end

mutual
theorem Value.beq_refl : ∀ a : Value, Value.beq a a = true
  | .null => by simp [Value.beq]
  | .bool a => by simp [Value.beq]
  | .num a => by simp [Value.beq]
  | .str a => by simp [Value.beq]
  | .arr a => by simp [Value.beq]; exact Value.beqList_refl a
  | .obj a => by simp [Value.beq]; exact Value.beqFields_refl a
  | .literal a => by simp [Value.beq]; exact Value.beq_refl a
theorem Value.beqList_refl : ∀ a : List Value, Value.beqList a a = true
  | [] => by simp [Value.beqList]
  | a :: as => by simp [Value.beqList]; exact ⟨Value.beq_refl a, Value.beqList_refl as⟩
theorem Value.beqFields_refl : ∀ a : List (String × Value), Value.beqFields a a = true
  | [] => by simp [Value.beqFields]
  | (k, a) :: as => by
    simp [Value.beqFields]; exact ⟨Value.beq_refl a, Value.beqFields_refl as⟩
end

instance : DecidableEq Value := fun a b =>
  if h : Value.beq a b = true then isTrue (Value.beq_eq a b h)
  else isFalse (fun e => h (e ▸ Value.beq_refl a))

deriving instance DecidableEq for Except

/-- A row of a table: `[]Value`. -/
abbrev Row := List Value

/-- The type tag of a `gjson.Result`, in the order of the library's
constants (`Null < False < Number < String < True < JSON`). -/
inductive GjsonType where
  | Null | False | Number | String | True | JSON
  deriving DecidableEq, Repr

/-- The Go `error` values the engine creates, one constructor per message
format, `invalidSyntax` for the `ErrSyntax` of `strconv`, and `other` for an
error made by a caller's own expression. -/
inductive Error where
  | identAmbiguous (ident : String)
  | identNotFound (ident : String)
  | columnNotFound (column : String)
  | noRows
  | cannotCompare (t0 t1 : GjsonType)
  | invalidSyntax
  | other (msg : String)
  deriving DecidableEq, Repr

/-- A Go run-time panic. -/
inductive Panic where
  | indexOutOfRange
  | sliceBoundsOutOfRange
  | makesliceLenOutOfRange
  deriving DecidableEq, Repr

/-- Hexadecimal digit of a number below sixteen. -/
def hexDigit (n : Nat) : Char :=
  if n < 10 then Char.ofNat (48 + n) else Char.ofNat (87 + n)

/-- The text `encoding/json` writes for one character of a string. -/
def escapeChar (c : Char) : String :=
  if c.toNat = 34 then "\x5c\x22"
  else if c.toNat = 92 then "\x5c\x5c"
  else if c.toNat = 8 then "\x5cb"
  else if c.toNat = 12 then "\x5cf"
  else if c.toNat = 10 then "\x5cn"
  else if c.toNat = 13 then "\x5cr"
  else if c.toNat = 9 then "\x5ct"
  else if c.toNat < 32 ∨ c.toNat = 60 ∨ c.toNat = 62 ∨ c.toNat = 38 then
    "\x5cu00" ++ String.mk [hexDigit (c.toNat / 16), hexDigit (c.toNat % 16)]
  else if c.toNat = 8232 then "\x5cu2028"
  else if c.toNat = 8233 then "\x5cu2029"
  else String.mk [c]

/-- A quoted JSON string. -/
def quote (s : String) : String :=
  "\x22" ++ String.join (s.data.map escapeChar) ++ "\x22"

/-- Insertion of a rendered field into a list kept sorted by key. -/
def insertField (f : String × String) : List (String × String) → List (String × String)
  | [] => [f]
  | g :: gs => if f.1.data < g.1.data then f :: g :: gs else g :: insertField f gs

/-- The rendered fields of an object, sorted by key as `json.Marshal` sorts
the keys of a map. -/
def sortFields (fs : List (String × String)) : List (String × String) :=
  fs.foldr insertField []

/-- The text of the rendered fields of an object. -/
def joinFields (fs : List (String × String)) : String :=
  String.intercalate "," (fs.map fun f => quote f.1 ++ ":" ++ f.2)

mutual
/-- The canonical text of a value: `json.Marshal`. -/
def marshal : Value → String
  | .null => "null"
  | .bool true => "true"
  | .bool false => "false"
  | .num n => toString n
  | .str s => quote s
  | .arr vs => "[" ++ String.intercalate "," (marshalList vs) ++ "]"
  | .obj kvs => "\x7b" ++ joinFields (sortFields (marshalFields kvs)) ++ "\x7d"
  | .literal v => "\x7b" ++ quote "Value" ++ ":" ++ marshal v ++ "\x7d"
/-- The canonical texts of the elements of an array. -/
def marshalList : List Value → List String
  | [] => []
  | v :: vs => marshal v :: marshalList vs
/-- The rendered fields of an object, in the order given. -/
def marshalFields : List (String × Value) → List (String × String)
  | [] => []
  | (k, v) :: kvs => (k, marshal v) :: marshalFields kvs
end

/-- The canonical text of a row, `json.Marshal` on a `[]Value`. -/
def marshalRow (d : Row) : String :=
  marshal (.arr d)

/-- The constant `null` of the source: the canonical text of a nil value. -/
def null : String := "null"

/-- The type `gjson` reads off the first character of a JSON text. -/
def gjsonType (raw : String) : GjsonType :=
  match raw.data with
  | [] => .Null
  | c :: _ =>
    if c.toNat = 123 ∨ c.toNat = 91 then .JSON
    else if c.toNat = 34 then .String
    else if c.toNat = 116 then .True
    else if c.toNat = 102 then .False
    else if c.toNat = 110 then .Null
    else .Number

/-- The spacing of the `float64` numbers at the natural number `n`: the
least power of two `u` for which `n / u` is below `2^53`, found by doubling
from `u`. -/
def ulpFrom : Nat → Nat → Nat → Nat
  | 0, _, u => u
  | fuel + 1, n, u => if n / u < 2 ^ 53 then u else ulpFrom fuel n (2 * u)

/-- The number `2^1024`, above every `float64`. -/
def floatBound : Nat :=
  2 ^ 256 * 2 ^ 256 * 2 ^ 256 * 2 ^ 256

/-- The `float64` nearest to the natural number `n`, ties to the even
mantissa, as the number it holds; `floatBound` stands for the infinity that
a number beyond the range of `float64` reads as (no Go integer is that
large). -/
def float64Nat (n : Nat) : Nat :=
  if n < 2 ^ 53 then n
  else
    let u := ulpFrom n n 1
    let q := n / u
    let r := n % u
    let m := if u < 2 * r ∨ (2 * r = u ∧ q % 2 = 1) then q + 1 else q
    if floatBound ≤ m * u then floatBound else m * u

/-- The number `strconv.ParseFloat` reads off the decimal numeral of an
integer: the nearest `float64`.  It is the integer itself up to `2^53` in
size, and above that the nearest multiple of the spacing. -/
def float64 (n : Int) : Int :=
  if n < 0 then -(float64Nat n.natAbs : Int) else (float64Nat n.natAbs : Int)

/-- A `gjson.Result`: type, raw text, string content and number, the
number being a `float64`. -/
structure Result where
  type : GjsonType
  raw : String
  str : String
  num : Int

/-- The result of `gjson.ParseBytes` on the canonical text of `v`. -/
def gjsonParse (v : Value) : Result :=
  { type := gjsonType (marshal v)
    raw := marshal v
    str := match v with
      | .str s => s
      | _ => ""
    num := match v with
      | .num n => float64 n
      | _ => 0 }

/-- Rank of a type tag, the numeric value of the library's constant. -/
def GjsonType.rank : GjsonType → Nat
  | .Null => 0 | .False => 1 | .Number => 2 | .String => 3 | .True => 4 | .JSON => 5

/-- The method `Result.Less(token, true)` of gjson; Go compares strings
byte by byte, which on valid text is the order of the character lists, and
gjson compares numbers as the `float64` read off the text. -/
def Result.Less (t token : Result) : Bool :=
  if t.type.rank < token.type.rank then true
  else if t.type.rank > token.type.rank then false
  else if t.type = .String then decide (t.str.data < token.str.data)
  else if t.type = .Number then decide (t.num < token.num)
  else decide (t.raw.data < token.raw.data)

mutual
/-- The value `Copy` returns: the generic JSON value read back from the
canonical text (`gjson.ParseBytes(b).Value()`), in which a number has become
the nearest `float64` and a `Literal` struct an object. -/
def Copy : Value → Value
  | .null => .null
  | .bool b => .bool b
  | .num n => .num (float64 n)
  | .str s => .str s
  | .arr vs => .arr (CopyList vs)
  | .obj kvs => .obj (CopyFields kvs)
  | .literal v => .obj [("Value", Copy v)]
/-- The copies of the elements of an array. -/
def CopyList : List Value → List Value
  | [] => []
  | v :: vs => Copy v :: CopyList vs
/-- The copies of the fields of an object. -/
def CopyFields : List (String × Value) → List (String × Value)
  | [] => []
  | (k, v) :: kvs => (k, Copy v) :: CopyFields kvs
end

/-! ## Stages -/

/-- A row with its columns and an error slot. -/
structure Record where
  Err : Option Error := none
  Columns : List String := []
  Values : Row := []
  deriving DecidableEq

/-- Columns and rows, with an error slot. -/
structure Table where
  Err : Option Error := none
  Columns : List String := []
  Data : List Row := []
  deriving DecidableEq

/-- A key row with its bucket. -/
structure GroupedRecord where
  Err : Option Error := none
  Source : Record := {}
  Grouped : Table := {}
  deriving DecidableEq

/-- Key rows with their buckets. -/
structure GroupedTable where
  Err : Option Error := none
  Source : Table := {}
  Grouped : List Table := []
  deriving DecidableEq

/-- A projected row with its source row and bucket. -/
structure SelectedRecord where
  Err : Option Error := none
  Source : Record := {}
  Grouped : Table := {}
  Selected : Record := {}
  deriving DecidableEq

/-- A projection with its source and buckets. -/
structure SelectedTable where
  Err : Option Error := none
  Source : Table := {}
  Grouped : List Table := []
  Selected : Table := {}
  deriving DecidableEq

instance : Inhabited Record := ⟨{}⟩

instance : Inhabited Table := ⟨{}⟩

instance : Inhabited SelectedRecord := ⟨{}⟩

/-- Grouping sets: `[][]string`. -/
abbrev GroupingSets := List (List String)

/-! ## The interfaces of `interface.go`, as function types -/

/-- Interface `Condition`. -/
abbrev Condition := GroupedRecord → Except Error Bool

/-- Interface `Variable`. -/
abbrev Variable := SelectedRecord → Except Error Value

/-- Interface `Select`. -/
abbrev Select := SelectedTable → Except Error (String × List Value)

/-- Interface `OrderBy`. -/
abbrev OrderBy := SelectedRecord → SelectedRecord → Except Error Int

/-- Interface `GroupBy`: the method takes no argument. -/
abbrev GroupBy := Except Error GroupingSets

/-- Interface `Join`, applied to the table `left.Query()`. -/
abbrev Join := Table → Table

/-! ## Slices and strings -/

/-- Read of `s[i]` where the source has checked `i < len(s)`. -/
def index (s : List α) [Inhabited α] (i : Nat) : α :=
  s.getD i default

/-- Scan of `strings.LastIndex(c, ".")`: the position of the last dot seen,
`last` when there is none.  Positions count characters; a dot is one byte
long, so the slices cut at it are the same as by bytes. -/
def lastIndexFrom : List Char → Nat → Int → Int
  | [], _, last => last
  | ch :: rest, pos, last =>
    lastIndexFrom rest (pos + 1) (if ch.toNat = 46 then (pos : Int) else last)

/-- The call `strings.LastIndex(c, ".")`, which is `-1` without a dot. -/
def lastIndexDot (c : String) : Int :=
  lastIndexFrom c.data 0 (-1)

/-- The slice `c[:strings.LastIndex(c, ".")+1]`. -/
def uptoLastDot (c : String) : String :=
  String.mk (c.data.take (lastIndexDot c + 1).toNat)

/-- The slice `c[strings.LastIndex(c, ".")+1:]`. -/
def afterLastDot (c : String) : String :=
  String.mk (c.data.drop (lastIndexDot c + 1).toNat)

/-! ## Ingestion -/

/-- The inner loop of `Table.UnmarshalJSON` over one decoded object, whose
entries come in the order the map iteration yields them. -/
def unmarshalEach : List (String × Value) → List (String × Nat) → List String → Row →
    Except Panic (List (String × Nat) × List String × Row)
  | [], columnMap, columns, row => .ok (columnMap, columns, row)
  | (c, v) :: rest, columnMap, columns, row =>
    match columnMap.lookup c with
    | some pos =>
      if pos < row.length then unmarshalEach rest columnMap columns (row.set pos v)
      else .error .indexOutOfRange
    | none =>
      if columns.length < row.length then
        unmarshalEach rest ((c, columns.length) :: columnMap) (columns ++ [c])
          (row.set columns.length v)
      else .error .indexOutOfRange

/-- The outer loop of `Table.UnmarshalJSON`. -/
def unmarshalLoop : List (List (String × Value)) → List (String × Nat) → List String →
    List Row → Except Panic Table
  | [], _, columns, data => .ok { Columns := columns, Data := data }
  | each :: rest, columnMap, columns, data =>
    let l := if columnMap.length > each.length then columnMap.length else each.length
    match unmarshalEach each columnMap columns (List.replicate l Value.null) with
    | .error p => .error p
    | .ok (columnMap, columns, row) => unmarshalLoop rest columnMap columns (data ++ [row])

/-- The function `From` on a host value that serializes to the array `arr`
of objects: `Table.UnmarshalJSON` on that array. -/
def From (arr : List (List (String × Value))) : Except Panic Table :=
  unmarshalLoop arr [] [] []

/-! ## Identifiers -/

/-- The test of `Ident`: `c == i || c[:strings.LastIndex(c, ".")+1] == i`. -/
def identMatch (i c : String) : Bool :=
  c == i || uptoLastDot c == i

/-- The loop of `Ident` over a column list, from position `j` with the
index found so far (`-1` for none). -/
def identScan (i : String) : List String → Nat → Int → Except Error Int
  | [], _, idx => .ok idx
  | c :: cs, j, idx =>
    if identMatch i c then
      if idx ≠ -1 then .error (.identAmbiguous i) else identScan i cs (j + 1) (j : Int)
    else identScan i cs (j + 1) idx

/-- The read that ends `Ident.Variable`. -/
def readValue (values : Row) (idx : Int) : Value :=
  if idx < (values.length : Int) then index values idx.toNat else Value.null

/-- Method `Ident.Variable`. -/
def Ident.Variable (i : String) : Variable := fun record =>
  match identScan i record.Source.Columns 0 (-1) with
  | .error e => .error e
  | .ok idx =>
    if idx < 0 then
      match identScan i record.Selected.Columns 0 idx with
      | .error e => .error e
      | .ok idx =>
        if idx < 0 then .error (.identNotFound i)
        else .ok (readValue record.Selected.Values idx)
    else .ok (readValue record.Source.Values idx)

/-- The column `Ident.Select` reads out of the rows. -/
def readColumn (data : List Row) (idx : Int) : List Value :=
  data.map fun d => readValue d idx

/-- Method `Ident.Select`. -/
def Ident.Select (i : String) : Select := fun table =>
  match identScan i table.Source.Columns 0 (-1) with
  | .error e => .error e
  | .ok idx =>
    if idx < 0 then
      match identScan i table.Selected.Columns 0 idx with
      | .error e => .error e
      | .ok idx =>
        if idx < 0 then .error (.identNotFound i)
        else .ok (index table.Selected.Columns idx.toNat, readColumn table.Selected.Data idx)
    else .ok (index table.Source.Columns idx.toNat, readColumn table.Source.Data idx)

/-- Method `Ident.GroupBy`. -/
def Ident.GroupBy (i : String) : GroupBy :=
  .ok [[i]]

/-! ## Table operations -/

/-- Method `Table.As`. -/
def Table.As (t : Table) (name : String) : Table :=
  match t.Err with
  | some e => { Err := some e }
  | none =>
    { t with Columns := t.Columns.map fun c =>
        if name = "" then c else name ++ "." ++ afterLastDot c }

/-- The loop of `Table.Where`: `k` rows are still to visit, the next one at
position `i` of the backing array `data`, of which the first `n` places hold
the rows kept so far. -/
def whereLoop (condition : Condition) (columns : List String) :
    Nat → Nat → List Row → Nat → Except Error (List Row × Nat)
  | 0, _, data, n => .ok (data, n)
  | k + 1, i, data, n =>
    let d := index data i
    match condition { Source := { Columns := columns, Values := d } } with
    | .error e => .error e
    | .ok keep =>
      if keep then whereLoop condition columns k (i + 1) (data.set n d) (n + 1)
      else whereLoop condition columns k (i + 1) data n

/-- Method `Table.Where`. -/
def Table.Where (t : Table) (condition : Condition) : Table :=
  match t.Err with
  | some e => { Err := some e }
  | none =>
    match whereLoop condition t.Columns t.Data.length 0 t.Data 0 with
    | .error e => { Err := some e }
    | .ok (data, n) => { t with Data := data.take n }

/-- The three statements that delete position `i` of the slice made of the
first `len` places of the backing array `arr`: the copy down, the nil in
the last place, the shorter length.  The two slice expressions panic when
`i + 1` is beyond the length. -/
def deleteAt (arr : List Row) (len i : Nat) : Except Panic (List Row × Nat) :=
  if len < i + 1 then .error .sliceBoundsOutOfRange
  else
    .ok (arr.take i ++ (arr.drop (i + 1)).take (len - (i + 1)) ++ [[]] ++ arr.drop len,
      len - 1)

/-- The loop of `Table.Delete`: the range runs over the length the slice had
at the start (`k` places are still to visit, the next at `i`), reading the
backing array `arr`, while `len` is the current length of `t.Data`. -/
def deleteLoop (cond : Condition) (columns : List String) :
    Nat → Nat → List Row → Nat → Except Panic (Except Error (List Row × Nat))
  | 0, _, arr, len => .ok (.ok (arr, len))
  | k + 1, i, arr, len =>
    let d := index arr i
    match cond { Source := { Columns := columns, Values := d } } with
    | .error e => .ok (.error e)
    | .ok del =>
      if del then
        match deleteAt arr len i with
        | .error p => .error p
        | .ok (arr, len) => deleteLoop cond columns k (i + 1) arr len
      else deleteLoop cond columns k (i + 1) arr len

/-- Method `Table.Delete`. -/
def Table.Delete (t : Table) (cond : Condition) : Except Panic Table :=
  match t.Err with
  | some e => .ok { Err := some e }
  | none =>
    match deleteLoop cond t.Columns t.Data.length 0 t.Data t.Data.length with
    | .error p => .error p
    | .ok (.error e) => .ok { Err := some e }
    | .ok (.ok (arr, len)) => .ok { t with Data := arr.take len }

/-! ## Joins -/

/-- A left join: the table `Right.Query()` and the condition `On`. -/
structure LeftJoin where
  Right : Table
  On : Condition

/-- The inner loop of `LeftJoin.Join` over the right rows, for one left row
`dl`: the rows emitted so far in `data`, and the flag `found`.  Rows are
lists here: this is the loop for a left row without spare capacity, where
both calls of `append(dl, dr...)` make a new array; `joinInnerMem` is the loop
on slices with their capacity, and the two emit the same rows on such tables
(`joinOuter_spec`, `joinMem_rows`). -/
def joinInner (onCond : Condition) (columns : List String) (dl : Row) :
    List Row → List Row → Bool → Except Error (List Row × Bool)
  | [], data, found => .ok (data, found)
  | dr :: rest, data, found =>
    match onCond { Source := { Columns := columns, Values := dl ++ dr } } with
    | .error e => .error e
    | .ok ok =>
      if ok then joinInner onCond columns dl rest (data ++ [dl ++ dr]) true
      else joinInner onCond columns dl rest data found

/-- The outer loop of `LeftJoin.Join` over the left rows. -/
def joinOuter (onCond : Condition) (columns : List String) (r : Table) :
    List Row → List Row → Except Error (List Row)
  | [], data => .ok data
  | dl :: rest, data =>
    match joinInner onCond columns dl r.Data data false with
    | .error e => .error e
    | .ok (data, found) =>
      if !found then
        joinOuter onCond columns r rest (data ++ [dl ++ List.replicate r.Columns.length Value.null])
      else joinOuter onCond columns r rest data

/-- Method `LeftJoin.Join`. -/
def LeftJoin.Join (lj : LeftJoin) : Join := fun l =>
  match l.Err with
  | some e => { Err := some e }
  | none =>
    match lj.Right.Err with
    | some e => { Err := some e }
    | none =>
      if lj.Right.Columns.length = 0 then l
      else
        let columns := l.Columns ++ lj.Right.Columns
        match joinOuter lj.On columns lj.Right l.Data [] with
        | .error e => { Err := some e }
        | .ok data => { Columns := columns, Data := data }

/-- The loop of `Table.Join`. -/
def joinLoop : List Join → Table → Table
  | [], t => t
  | j :: joins, t =>
    let t := j t
    match t.Err with
    | some e => { Err := some e }
    | none => joinLoop joins t

/-- Method `Table.Join`. -/
def Table.Join (t : Table) (joins : List Join) : Table :=
  match t.Err with
  | some _ => t
  | none => joinLoop joins t

/-! ## Conditions -/

/-- Method `Equals.Condition`. -/
def Equals (e0 e1 : Variable) : Condition := fun record =>
  match e0 { Source := record.Source, Grouped := record.Grouped } with
  | .error e => .error e
  | .ok v0 =>
    match e1 { Source := record.Source, Grouped := record.Grouped } with
    | .error e => .error e
    | .ok v1 => .ok (marshal v0 == marshal v1)

/-- Method `Literal.Variable`. -/
def Literal.Variable (value : Value) : Variable := fun _ =>
  .ok value

/-! ## Copies -/

/-- The inner loop of `Table.Copy`: the copy of `v` goes to place `j` of the
new row, which is as long as the column list. -/
def copyRowLoop : List Value → Nat → Row → Except Panic Row
  | [], _, row => .ok row
  | v :: vs, j, row =>
    if j < row.length then copyRowLoop vs (j + 1) (row.set j (Copy v))
    else .error .indexOutOfRange

/-- The outer loop of `Table.Copy`. -/
def copyLoop (columns : List String) : List Row → List Row → Except Panic (List Row)
  | [], data => .ok data
  | d :: rest, data =>
    match copyRowLoop d 0 (List.replicate columns.length Value.null) with
    | .error p => .error p
    | .ok row => copyLoop columns rest (data ++ [row])

/-- Method `Table.Copy`. -/
def Table.Copy (t : Table) : Except Panic Table :=
  match t.Err with
  | some e => .ok { Err := some e }
  | none =>
    match copyLoop t.Columns t.Data [] with
    | .error p => .error p
    | .ok data => .ok { Columns := t.Columns, Data := data }

/-! ## Grouping -/

/-- The key loop of `groupByColumns`: the values of the columns in one
row. -/
def uniqueLoop (table : Table) (d : Row) : List String → Row → Except Error Row
  | [], unique => .ok unique
  | c :: cs, unique =>
    match Ident.Variable c { Source := { Columns := table.Columns, Values := d } } with
    | .error e => .error e
    | .ok v => uniqueLoop table d cs (unique ++ [v])

/-- The statement `out.Grouped[position].Data = append(..., d)`. -/
def appendToBucket (grouped : List Table) (position : Nat) (d : Row) : List Table :=
  grouped.set position
    { index grouped position with Data := (index grouped position).Data ++ [d] }

/-- The row loop of `groupByColumns`, with the map `m` from key text to
position. -/
def groupLoop (table : Table) (columns : List String) :
    List Row → GroupedTable → List (String × Nat) → GroupedTable
  | [], out, _ => out
  | d :: rest, out, m =>
    match uniqueLoop table d columns [] with
    | .error e => { Err := some e }
    | .ok unique =>
      let b := marshalRow unique
      match m.lookup b with
      | none =>
        groupLoop table columns rest
          { out with
            Source := { out.Source with Data := out.Source.Data ++ [unique] }
            Grouped := out.Grouped ++ [{ Columns := table.Columns, Data := [d] }] }
          ((b, out.Source.Data.length) :: m)
      | some position =>
        groupLoop table columns rest
          { out with Grouped := appendToBucket out.Grouped position d } m

/-- Function `groupByColumns`. -/
def groupByColumns (table : Table) (columns : List String) : GroupedTable :=
  if columns.length = 0 then
    { Source := { Data := [[]] }
      Grouped := [{ Columns := table.Columns, Data := table.Data }] }
  else
    groupLoop table columns table.Data
      { Source := { Columns := columns, Data := [] }, Grouped := [] } []

/-- Method `GroupingSets.GroupBy`. -/
def GroupingSets.GroupBy (gs : GroupingSets) : GroupBy :=
  .ok gs

/-- Method `GroupingSets.Cart`. -/
def GroupingSets.Cart (gs bb : GroupingSets) : GroupingSets :=
  gs.flatMap fun a => bb.map fun b => a ++ b

/-- Reduction of an integer to the range of a 64-bit `int`. -/
def wrapInt (n : Int) : Int :=
  (n + 2 ^ 63) % 2 ^ 64 - 2 ^ 63

/-- The inner loop of `Cube.GroupBy` over the objects, from position
`object`: an object is taken when `(subsetBits>>object)&1 == 1`. -/
def cubeSubset (subsetBits : Int) : List String → Nat → List String → List String
  | [], _, subset => subset
  | x :: xs, object, subset =>
    cubeSubset subsetBits xs (object + 1)
      (if (subsetBits / 2 ^ object) % 2 = 1 then subset ++ [x] else subset)

/-- The outer loop of `Cube.GroupBy`, at most `fuel` more rounds: it goes
on while `subsetBits < bound`, where `bound` is `1 << length`. -/
def cubeLoop (c : List String) (bound : Int) : Nat → Int → GroupingSets → GroupingSets
  | 0, _, subsets => subsets
  | fuel + 1, subsetBits, subsets =>
    if subsetBits < bound then
      cubeLoop c bound fuel (subsetBits + 1) (subsets ++ [cubeSubset subsetBits c 0 []])
    else subsets

/-- Method `Cube.GroupBy`, for a 64-bit `int`: the shift `1 << length` wraps.
The loop gets as many rounds as there are numbers from one up to the
bound. -/
def Cube.GroupBy (c : List String) : GroupBy :=
  let bound := wrapInt (2 ^ c.length)
  .ok (cubeLoop c bound (bound - 1).toNat 1 [] ++ [[]])

/-- The first loops of `GroupedTable.UnionAll`: the map from column to
position, later entries first. -/
def columnMapOf : List String → Nat → List (String × Nat) → List (String × Nat)
  | [], _, columnMap => columnMap
  | c :: cs, i, columnMap => columnMapOf cs (i + 1) ((c, i) :: columnMap)

/-- The second loop of `GroupedTable.UnionAll`: new columns are appended
and `transform` maps the positions of the other table. -/
def transformLoop : List String → Nat → List (String × Nat) → List String →
    List (Nat × Nat) → List String × List (Nat × Nat)
  | [], _, _, columns, transform => (columns, transform)
  | c :: cs, i, columnMap, columns, transform =>
    match columnMap.lookup c with
    | some pos => transformLoop cs (i + 1) columnMap columns ((i, pos) :: transform)
    | none =>
      transformLoop cs (i + 1) ((c, columns.length) :: columnMap) (columns ++ [c])
        ((i, columns.length) :: transform)

/-- The loop of `GroupedTable.UnionAll` that moves one row of the other
table to the positions of the union. -/
def transformRow (transform : List (Nat × Nat)) : List Value → Nat → Row → Row
  | [], _, values => values
  | v :: vs, j, values =>
    match transform.lookup j with
    | some pos => transformRow transform vs (j + 1) (values.set pos v)
    | none => transformRow transform vs (j + 1) values

/-- Method `GroupedTable.UnionAll`. -/
def GroupedTable.UnionAll (t table : GroupedTable) : Except Panic GroupedTable :=
  match t.Err with
  | some e => .ok { Err := some e }
  | none =>
    let columnMap := columnMapOf t.Source.Columns 0 []
    let (columns, transform) :=
      transformLoop table.Source.Columns 0 columnMap t.Source.Columns []
    if t.Grouped.length ≠ t.Source.Data.length ∧ t.Source.Data.length < t.Grouped.length then
      .error .makesliceLenOutOfRange
    else
      let grouped := t.Grouped ++
        List.replicate (t.Source.Data.length - t.Grouped.length) ({} : Table)
      let data := t.Source.Data ++
        table.Source.Data.map fun d =>
          transformRow transform d 0 (List.replicate columns.length Value.null)
      .ok { Source := { t.Source with Columns := columns, Data := data }
            Grouped := grouped ++ table.Grouped }

/-- The first loop of `Table.GroupBy`: the grouping sets of the specs,
combined by `Cart`. -/
def groupingSetsLoop : List GroupBy → Nat → GroupingSets → Except Error GroupingSets
  | [], _, groupingSets => .ok groupingSets
  | g :: groups, i, groupingSets =>
    match g with
    | .error e => .error e
    | .ok gs =>
      if i = 0 then groupingSetsLoop groups (i + 1) gs
      else groupingSetsLoop groups (i + 1) (groupingSets.Cart gs)

/-- The second loop of `Table.GroupBy`: the union of the groupings of a
copy of the table by each set. -/
def unionLoop (t : Table) : List (List String) → Nat → GroupedTable →
    Except Panic GroupedTable
  | [], _, union => .ok union
  | s :: sets, i, union =>
    match t.Copy with
    | .error p => .error p
    | .ok copy =>
      let gt := groupByColumns copy s
      match gt.Err with
      | some e => .ok { Err := some e }
      | none =>
        if i = 0 then unionLoop t sets (i + 1) gt
        else
          match union.UnionAll gt with
          | .error p => .error p
          | .ok union =>
            match union.Err with
            | some e => .ok { Err := some e }
            | none => unionLoop t sets (i + 1) union

/-- Method `Table.GroupBy`. -/
def Table.GroupBy (t : Table) (groups : List GroupBy) : Except Panic GroupedTable :=
  match t.Err with
  | some e => .ok { Err := some e }
  | none =>
    match groupingSetsLoop groups 0 [] with
    | .error e => .ok { Err := some e }
    | .ok groupingSets =>
      match unionLoop t groupingSets 0 {} with
      | .error p => .error p
      | .ok union =>
        match union.Err with
        | some e => .ok { Err := some e }
        | none => .ok { Source := union.Source, Grouped := union.Grouped }

/-! ## Projection -/

/-- The loop of `GroupedTable.Select` that stores the values of spec `i` in
the rows: `data[j]` is made when it is still empty, then `data[j][i] = v`. -/
def storeValues (n i : Nat) : List Value → Nat → List Row → Except Panic (List Row)
  | [], _, data => .ok data
  | v :: vs, j, data =>
    if j < data.length then
      let row := if (index data j).length = 0 then List.replicate n Value.null
        else index data j
      if i < row.length then storeValues n i vs (j + 1) (data.set j (row.set i v))
      else .error .indexOutOfRange
    else .error .indexOutOfRange

/-- The loop of `GroupedTable.Select` over the specs. -/
def selectLoop (t : GroupedTable) (n : Nat) : List Select → Nat → List String →
    List Row → Except Panic SelectedTable
  | [], _, cols, data =>
    .ok { Source := t.Source, Grouped := t.Grouped
          Selected := { Columns := cols, Data := data } }
  | s :: selects, i, cols, data =>
    match s { Source := t.Source, Grouped := t.Grouped } with
    | .error e => .ok { Err := some e }
    | .ok (col, values) =>
      match storeValues n i values 0 data with
      | .error p => .error p
      | .ok data => selectLoop t n selects (i + 1) (cols.set i col) data

/-- Method `GroupedTable.Select`. -/
def GroupedTable.Select (t : GroupedTable) (selects : List Select) :
    Except Panic SelectedTable :=
  match t.Err with
  | some e => .ok { Err := some e }
  | none =>
    if selects.length = 0 then
      .ok { Source := t.Source, Grouped := t.Grouped, Selected := t.Source }
    else
      let t : GroupedTable :=
        if selects.length = 1 ∧ t.Grouped.length = 0 then { t with Grouped := [t.Source] }
        else t
      selectLoop t selects.length selects 0 (List.replicate selects.length "")
        (List.replicate t.Source.Data.length [])

/-- Method `Table.Select`. -/
def Table.Select (t : Table) (selects : List Select) : Except Panic SelectedTable :=
  GroupedTable.Select { Err := t.Err, Source := t } selects

/-- Method `SelectedTable.Record`. -/
def SelectedTable.Record (t : SelectedTable) (i : Nat) : SelectedRecord :=
  { Err := t.Err
    Source :=
      { Columns := t.Source.Columns
        Values := if i < t.Source.Data.length then index t.Source.Data i else [] }
    Selected :=
      { Columns := t.Selected.Columns
        Values := if i < t.Selected.Data.length then index t.Selected.Data i else [] }
    Grouped := if i < t.Grouped.length then index t.Grouped i else {} }

/-- Method `CountAll.Variable`. -/
def CountAll.Variable : Variable := fun record =>
  .ok (.num record.Grouped.Data.length)

/-- Method `CountAll.Select`. -/
def CountAll.Select : Select := fun table =>
  .ok ("count", table.Grouped.map fun g => Value.num g.Data.length)

/-- The values of `ArrayAgg` without repetition of a canonical text.  Go
leaves the order of the result open (it ranges over a map); the order of
first occurrence is taken here. -/
def uniqueValues : List Value → List String → List Value → List Value
  | [], _, out => out
  | v :: vs, seen, out =>
    if marshal v ∈ seen then uniqueValues vs seen out
    else uniqueValues vs (marshal v :: seen) (out ++ [v])

/-- Method `ArrayAgg.Variable`. -/
def ArrayAgg.Variable (distinct : Bool) (expression : Select) : Variable := fun record =>
  match expression { Source := record.Grouped } with
  | .error e => .error e
  | .ok (_, values) =>
    if values.length = 0 then .ok .null
    else if distinct then .ok (.arr (uniqueValues values [] []))
    else .ok (.arr values)

/-- The loop of `ArrayAgg.Select` over the buckets. -/
def arrayAggLoop (distinct : Bool) (expression : Select) :
    List Table → List Value → Except Error (List Value)
  | [], values => .ok values
  | g :: rest, values =>
    match ArrayAgg.Variable distinct expression { Grouped := g } with
    | .error e => .error e
    | .ok value => arrayAggLoop distinct expression rest (values ++ [value])

/-- Method `ArrayAgg.Select`. -/
def ArrayAgg.Select (distinct : Bool) (expression : Select) : Select := fun table =>
  match arrayAggLoop distinct expression table.Grouped [] with
  | .error e => .error e
  | .ok values => .ok ("array_agg", values)

/-- Method `As.Select`. -/
def As.Select (name : String) (expression : Select) : Select := fun table =>
  match expression table with
  | .error e => .error e
  | .ok (_, values) => .ok (name, values)

/-! ## Ordering -/

/-- Method `Asc.OrderBy`. -/
def Asc.OrderBy (expression : Variable) (nullsLast : Bool) : OrderBy := fun i j =>
  match expression i with
  | .error e => .error e
  | .ok vi =>
    match expression j with
    | .error e => .error e
    | .ok vj =>
      if marshal vi = null then
        if marshal vj = null then .ok 0
        else if nullsLast then .ok 1
        else .ok (-1)
      else if marshal vj = null then
        if nullsLast then .ok (-1) else .ok 1
      else
        let ri := gjsonParse vi
        let rj := gjsonParse vj
        if ri.type ≠ rj.type then .error (.cannotCompare ri.type rj.type)
        else if ri.Less rj then .ok (-1)
        else .ok 1

/-- The array being sorted and the captured variable `err` of the closure
that `SelectedTable.OrderBy` hands to `sort.Slice`. -/
structure SortState where
  arr : List SelectedRecord
  err : Option Error

/-- The loop of the closure over the orders. -/
def lessLoop (a b : SelectedRecord) : List OrderBy → Bool × Option Error
  | [] => (false, none)
  | o :: orders =>
    match o a b with
    | .error e => (false, some e)
    | .ok comp => if comp = 0 then lessLoop a b orders else (decide (comp < 0), none)

/-- The closure `func(i, j int) bool` of `SelectedTable.OrderBy`. -/
def less (orders : List OrderBy) (st : SortState) (i j : Nat) : Bool × SortState :=
  match st.err with
  | some _ => (false, st)
  | none =>
    let r := lessLoop (index st.arr i) (index st.arr j) orders
    (r.1, { st with err := r.2 })

/-- The swap of two places of the array. -/
def swap (st : SortState) (i j : Nat) : SortState :=
  { st with arr := (st.arr.set i (index st.arr j)).set j (index st.arr i) }

/-- The inner loop of the insertion sort: the element at `j` moves down
while it is less than the one before it. -/
def insertDown (orders : List OrderBy) : Nat → SortState → SortState
  | 0, st => st
  | j + 1, st =>
    let r := less orders st (j + 1) j
    if r.1 then insertDown orders j (swap r.2 (j + 1) j) else r.2

/-- The outer loop of the insertion sort, `k` more places from `i` on. -/
def insertionSort (orders : List OrderBy) : Nat → Nat → SortState → SortState
  | 0, _, st => st
  | k + 1, i, st => insertionSort orders k (i + 1) (insertDown orders i st)

/-- A sort routine of the library as the closure and the array see it: from
the orders and the state of the array and of the captured `err` to the state
after the sort. -/
abbrev Sorter := List OrderBy → SortState → SortState

/-- The call `sort.Slice(arr, less)`.  The library sorts a slice of at most
twelve elements by insertion, from the second element on, and a longer one by
pattern-defeating quicksort; that routine is not part of this repository and
is the parameter `pdqsort`. -/
def sortSlice (pdqsort : Sorter) (orders : List OrderBy) (st : SortState) : SortState :=
  if st.arr.length ≤ 12 then insertionSort orders (st.arr.length - 1) 1 st
  else pdqsort orders st

/-- Method `SelectedTable.OrderBy`. -/
def SelectedTable.OrderBy (t : SelectedTable) (pdqsort : Sorter) (orders : List OrderBy) :
    SelectedTable :=
  match t.Err with
  | some e => { Err := some e }
  | none =>
    let qt : SelectedTable := { Source := t.Source, Selected := t.Selected, Grouped := t.Grouped }
    let arr := (List.range t.Selected.Data.length).map qt.Record
    let st := sortSlice pdqsort orders { arr := arr, err := none }
    match st.err with
    | some e => { Err := some e }
    | none =>
      { Selected := { Columns := t.Selected.Columns
                      Data := st.arr.map fun r => r.Selected.Values } }

/-- Conversion `int(u)` of a `uint64`. -/
def toInt (u : Nat) : Int :=
  wrapInt (u % 2 ^ 64)

/-- Method `SelectedTable.Limit`. -/
def SelectedTable.Limit (t : SelectedTable) (limit : Nat) : Except Panic SelectedTable :=
  match t.Err with
  | some e => .ok { Err := some e }
  | none =>
    let t : SelectedTable := { t with Source := {}, Grouped := [] }
    if toInt limit > t.Selected.Data.length then .ok t
    else if limit % 2 ^ 64 ≤ t.Selected.Data.length then
      .ok { t with Selected := { t.Selected with Data := t.Selected.Data.take (limit % 2 ^ 64) } }
    else .error .sliceBoundsOutOfRange

/-- Method `SelectedTable.Offset`. -/
def SelectedTable.Offset (t : SelectedTable) (offset : Nat) : Except Panic SelectedTable :=
  match t.Err with
  | some e => .ok { Err := some e }
  | none =>
    let t : SelectedTable := { t with Source := {}, Grouped := [] }
    if toInt offset > t.Selected.Data.length then
      .ok { Selected := { Columns := t.Selected.Columns } }
    else if offset % 2 ^ 64 ≤ t.Selected.Data.length then
      .ok { t with Selected := { t.Selected with Data := t.Selected.Data.drop (offset % 2 ^ 64) } }
    else .error .sliceBoundsOutOfRange

/-! ## Egress -/

/-- The Go statement `m[c] = v` on a map kept as an association list. -/
def mapSet (m : List (String × Value)) (c : String) (v : Value) : List (String × Value) :=
  if m.any (fun e => e.1 == c) then m.map fun e => if e.1 == c then (c, v) else e
  else m ++ [(c, v)]

/-- The loop of `Record.MarshalJSON` that fills the map. -/
def recordMap : List String → Nat → Row → List (String × Value) → List (String × Value)
  | [], _, _, m => m
  | c :: cs, i, values, m =>
    if i < values.length then recordMap cs (i + 1) values (mapSet m c (index values i))
    else recordMap cs (i + 1) values m

/-- Method `Record.MarshalJSON`. -/
def Record.MarshalJSON (r : Record) : Except Error String :=
  match r.Err with
  | some e => .error e
  | none => .ok (marshal (.obj (recordMap r.Columns 0 r.Values [])))

/-- Method `Table.MarshalJSON`, whose records carry no error. -/
def Table.MarshalJSON (t : Table) : Except Error String :=
  match t.Err with
  | some e => .error e
  | none =>
    .ok ("[" ++ String.intercalate ","
      (t.Data.map fun d => marshal (.obj (recordMap t.Columns 0 d []))) ++ "]")

/-- The text `SelectedTable.Scan` hands to `json.Unmarshal`. -/
def SelectedTable.Scan (t : SelectedTable) : Except Error String :=
  match t.Err with
  | some e => .error e
  | none => t.Selected.MarshalJSON

/-- The table `usersTable` of the test, each object in some iteration order. -/
def usersTable : List (List (String × Value)) :=
  [[("id", .num 1), ("name", .str "Max")],
   [("id", .num 2), ("name", .str "Tom")],
   [("id", .num 3), ("name", .str "Alex")]]

/-- The table `userHobbiesTable` of the test. -/
def userHobbiesTable : List (List (String × Value)) :=
  [[("user_id", .num 1), ("hobby_id", .num 1)],
   [("user_id", .num 1), ("hobby_id", .num 2)],
   [("user_id", .num 2), ("hobby_id", .num 3)],
   [("user_id", .num 3), ("hobby_id", .num 1)]]

/-- The table `hobbiesTable` of the test. -/
def hobbiesTable : List (List (String × Value)) :=
  [[("id", .num 1), ("name", .str "Football")],
   [("id", .num 2), ("name", .str "Basketball")],
   [("id", .num 3), ("name", .str "Hockey")]]

/-- The pipeline of the test on the three ingested tables. -/
def testQuery (pdqsort : Sorter) (users userHobbies hobbies : Table) :
    Except Panic SelectedTable :=
  let joined := (users.As "users").Join
    [LeftJoin.Join
      { Right := userHobbies.As "user_hobbies"
        On := Equals (Ident.Variable "users.id") (Ident.Variable "user_hobbies.user_id") },
     LeftJoin.Join
      { Right := hobbies.As "hobbies"
        On := Equals (Ident.Variable "hobbies.id") (Ident.Variable "user_hobbies.hobby_id") }]
  match joined.GroupBy [Ident.GroupBy "users.name"] with
  | .error p => .error p
  | .ok grouped =>
    match grouped.Select
        [As.Select "name" (Ident.Select "users.name"),
         As.Select "hobbies" (ArrayAgg.Select false (Ident.Select "hobbies.name"))] with
    | .error p => .error p
    | .ok selected =>
      match (selected.OrderBy pdqsort
          [Asc.OrderBy (Ident.Variable "users.name") false]).Offset 1 with
      | .error p => .error p
      | .ok rest => rest.Limit 1

/-- The function `Test` up to the call of `Scan`, from the host tables. -/
def Test (pdqsort : Sorter) (u uh h : List (List (String × Value))) :
    Except Panic SelectedTable :=
  match From u with
  | .error p => .error p
  | .ok users =>
    match From uh with
    | .error p => .error p
    | .ok userHobbies =>
      match From h with
      | .error p => .error p
      | .ok hobbies => testQuery pdqsort users userHobbies hobbies



/-- The record `Table.Where`, `Table.Delete` and `Table.Update` show to the
condition for the row `d`. -/
def rowRecord (columns : List String) (d : Row) : GroupedRecord :=
  { Source := { Columns := columns, Values := d } }



/-- The right rows the loop finds matching the left row `dl`: those on whose
candidate row `dl ++ dr`, as the code builds it, the condition is true, in
the order of the right table.  For a left row as long as the left columns
these are the matching right rows (`matchingRows_pairs`). -/
def matchingRows (onCond : Condition) (columns : List String) (dl : Row)
    (rdata : List Row) : List Row :=
  rdata.filter fun dr => decide (onCond (rowRecord columns (dl ++ dr)) = .ok true)

/-- The rows the loop emits for the left row `dl`: its concatenation with
each right row it finds matching, or, when there is none, `dl` followed by
one null for every right column. -/
def rowsFor (onCond : Condition) (columns : List String) (r : Table) (dl : Row) : List Row :=
  if (matchingRows onCond columns dl r.Data).length = 0 then
    [dl ++ List.replicate r.Columns.length Value.null]
  else (matchingRows onCond columns dl r.Data).map fun dr => dl ++ dr



/-- The positions, counted from `j`, of the columns that match the
identifier `i`. -/
def matchPositions (i : String) : List String → Nat → List Nat
  | [], _ => []
  | c :: cs, j =>
    if identMatch i c then j :: matchPositions i cs (j + 1) else matchPositions i cs (j + 1)

/-- The set `M` of the matching columns of a column list, as positions. -/
def matching (i : String) (columns : List String) : List Nat :=
  matchPositions i columns 0



/-- The index positions below `n` whose bit is set in the mask `k`, in
ascending order. -/
def maskIndices (n k : Nat) : List Nat :=
  (List.range' 0 n).filter fun i => k.testBit i

/-- The subset of `c` that the mask `k` selects: `c[i]` for the bits `i` set
in `k`, in index order. -/
def maskSubset (c : List String) (k : Nat) : List String :=
  (maskIndices c.length k).map fun i => index c i



/-- The pipeline `t.GroupBy(g).Select(CountAll)`. -/
def countByGroup (t : Table) (g : GroupBy) : Except Panic SelectedTable :=
  match t.GroupBy [g] with
  | .error p => .error p
  | .ok grouped => grouped.Select [CountAll.Select]



/-- The key tuple of the row `d` for the grouping columns: the value read at
the one position each column matches. -/
def keyRow (t : Table) (cols : List String) (d : Row) : Row :=
  cols.map fun c => readValue d (((matching c t.Columns).headD 0 : Nat) : Int)

/-- The canonical text of the key tuple of a row. -/
def keyText (t : Table) (cols : List String) (d : Row) : String :=
  marshalRow (keyRow t cols d)

/-- The rows that are the first with their key, in their order. -/
def firstRows (key : Row → String) : List Row → List Row
  | [] => []
  | d :: ds => d :: (firstRows key ds).filter fun e => decide (key e ≠ key d)

/-- The bucket of the key of the row `f` among `rows`: the rows with that
key, in their order, under the full columns. -/
def bucketOf (t : Table) (cols : List String) (rows : List Row) (f : Row) : Table :=
  { Columns := t.Columns
    Data := rows.filter fun e => decide (keyText t cols e = keyText t cols f) }

/-- The grouping of `rows` by key: one key row for each first row, and its
bucket. -/
def groupedOf (t : Table) (cols : List String) (rows : List Row) : GroupedTable :=
  { Source := { Columns := cols
                Data := (firstRows (keyText t cols) rows).map (keyRow t cols) }
    Grouped := (firstRows (keyText t cols) rows).map (bucketOf t cols rows) }



/-! ## Mutation -/

/-- The loop of `Record.Set` over the columns of the record: every column
with the name gets the value, the values being extended with nils up to it
when they are shorter. -/
def setLoop (column : String) (value : Value) : List String → Nat → Row → Bool → Row × Bool
  | [], _, values, found => (values, found)
  | c :: cs, i, values, found =>
    if c = column then
      let values :=
        if values.length ≤ i then values ++ List.replicate (i - values.length + 1) Value.null
        else values
      setLoop column value cs (i + 1) (values.set i value) true
    else setLoop column value cs (i + 1) values found

/-- Method `Record.Set`. -/
def Record.Set (r : Record) (column : String) (value : Value) : Record :=
  match r.Err with
  | some e => { Err := some e }
  | none =>
    let res := setLoop column value r.Columns 0 r.Values false
    if !res.2 then { Err := some (.columnNotFound column) }
    else { r with Values := res.1 }

/-- Method `Table.Record`, for an index that is not negative. -/
def Table.Record (t : Table) (i : Nat) : Querify.Record :=
  match t.Err with
  | some e => { Err := some e }
  | none =>
    { Columns := t.Columns
      Values := if i < t.Data.length then index t.Data i else [] }

/-- The loop of `Table.Insert` and `Table.Update` over the columns of the
given record: a column with a value at its position is set in `n`. -/
def setColumns (record : Record) : List String → Nat → Record → Record
  | [], _, n => n
  | c :: cs, i, n =>
    if i < record.Values.length then
      setColumns record cs (i + 1) (n.Set c (index record.Values i))
    else setColumns record cs (i + 1) n

/-- Method `Table.Insert`. -/
def Table.Insert (t : Table) (record : Querify.Record) : Table :=
  match t.Err with
  | some e => { Err := some e }
  | none =>
    let n := setColumns record record.Columns 0
      { Columns := t.Columns, Values := List.replicate t.Columns.length Value.null }
    match n.Err with
    | some e => { Err := some e }
    | none => { t with Data := t.Data ++ [n.Values] }

/-- The loop of `Table.Update`: `k` rows are still to visit, the next one at
position `i` of `data`. -/
def updateLoop (columns : List String) (record : Record) (cond : Condition) :
    Nat → Nat → List Row → Except Error (List Row)
  | 0, _, data => .ok data
  | k + 1, i, data =>
    let d := index data i
    match cond { Source := { Columns := columns, Values := d } } with
    | .error e => .error e
    | .ok upd =>
      if upd then
        let r := setColumns record record.Columns 0
          (Table.Record { Columns := columns, Data := data } i)
        match r.Err with
        | some e => .error e
        | none => updateLoop columns record cond k (i + 1) (data.set i r.Values)
      else updateLoop columns record cond k (i + 1) data

/-- Method `Table.Update`. -/
def Table.Update (t : Table) (record : Querify.Record) (cond : Condition) : Table :=
  match t.Err with
  | some e => { Err := some e }
  | none =>
    match updateLoop t.Columns record cond t.Data.length 0 t.Data with
    | .error e => { Err := some e }
    | .ok data => { t with Data := data }

/-! ## Comparisons -/

/-- Method `Less.Condition`. -/
def Less (e0 e1 : Variable) : Condition := fun record =>
  match e0 { Source := record.Source, Grouped := record.Grouped } with
  | .error e => .error e
  | .ok v0 =>
    match e1 { Source := record.Source, Grouped := record.Grouped } with
    | .error e => .error e
    | .ok v1 =>
      if marshal v0 = null ∨ marshal v1 = null then .ok false
      else
        let r0 := gjsonParse v0
        let r1 := gjsonParse v1
        if r0.type ≠ r1.type then .error (.cannotCompare r0.type r1.type)
        else .ok (r0.Less r1)

/-- Method `Greater.Condition`. -/
def Greater (e0 e1 : Variable) : Condition := fun record =>
  match e0 { Source := record.Source, Grouped := record.Grouped } with
  | .error e => .error e
  | .ok v0 =>
    match e1 { Source := record.Source, Grouped := record.Grouped } with
    | .error e => .error e
    | .ok v1 =>
      if marshal v0 = null ∨ marshal v1 = null then .ok false
      else
        let r0 := gjsonParse v0
        let r1 := gjsonParse v1
        if r0.type ≠ r1.type then .ok false
        else .ok (r1.Less r0)

/-- The type gjson gives a value: the type of its canonical text. -/
def valueType : Value → GjsonType
  | .null => .Null
  | .bool true => .True
  | .bool false => .False
  | .num _ => .Number
  | .str _ => .String
  | .arr _ => .JSON
  | .obj _ => .JSON
  | .literal _ => .JSON



/-- A character list that starts with a decimal digit. -/
def startsWithDigit (l : List Char) : Prop :=
  ∃ c rest, l = c :: rest ∧ 48 ≤ c.toNat ∧ c.toNat ≤ 57



/-- The order within a type: numbers by the `float64` nearest to them,
strings by their characters, everything else by canonical text. -/
def valueLess (a b : Value) : Bool :=
  match a, b with
  | .num n, .num m => decide (float64 n < float64 m)
  | .str s, .str t => decide (s.data < t.data)
  | _, _ => decide ((marshal a).data < (marshal b).data)

/-- The pipeline `t.GroupBy().Select()`, without grouping specs and without
select specs. -/
def groupThenSelect (t : Table) : Except Panic SelectedTable :=
  match t.GroupBy [] with
  | .error p => .error p
  | .ok grouped => grouped.Select []

/-- The pipeline `t.Select(CountAll)` on an ungrouped table. -/
def countAll (t : Table) : Except Panic SelectedTable :=
  t.Select [CountAll.Select]

/-- The pipeline `t.Select(As{"n", CountAll}, As{"m", CountAll})`. -/
def countTwice (t : Table) : Except Panic SelectedTable :=
  t.Select [As.Select "n" CountAll.Select, As.Select "m" CountAll.Select]

/-- The pipeline `s.Offset(a).Offset(b)`. -/
def offsetTwice (s : SelectedTable) (a b : Nat) : Except Panic SelectedTable :=
  match s.Offset a with
  | .error p => .error p
  | .ok s1 => s1.Offset b

/-- The columns a record names with a value: those at a position below the
number of its values. -/
def valued (record : Record) : List String :=
  record.Columns.take record.Values.length

/-- The value the entries give the column `c`, the last one when several
entries name it, and `acc` when none does. -/
def assignedFrom (c : String) : List (String × Value) → Option Value → Option Value
  | [], acc => acc
  | (k, v) :: es, acc => assignedFrom c es (if k = c then some v else acc)

/-- The value a record gives a column: that of the last position, among the
positions with a value, where the record names the column. -/
def assigned (record : Record) (c : String) : Option Value :=
  assignedFrom c (record.Columns.zip record.Values) none

/-- The row `Update` writes for the row `d`. -/
def updatedRow (columns : List String) (record : Record) (d : Row) : Row :=
  (setColumns record record.Columns 0 { Columns := columns, Values := d }).Values

/-- What `Update` leaves at the place of the row `d`. -/
def updateRow (columns : List String) (record : Record) (cond : Condition) (d : Row) : Row :=
  if cond (rowRecord columns d) = .ok true then updatedRow columns record d else d

/-- The closure of `OrderBy` has put `a` before `b`: asked whether `b` is
less than `a` it has answered no, or asked whether `a` is less than `b` it
has answered yes, without error. -/
def inOrder (orders : List OrderBy) (a b : SelectedRecord) : Prop :=
  lessLoop b a orders = (false, none) ∨ lessLoop a b orders = (true, none)

/-- The records `OrderBy` sorts: one for each projected row. -/
def recordsOf (s : SelectedTable) : List SelectedRecord :=
  (List.range s.Selected.Data.length).map
    (SelectedTable.Record { Source := s.Source, Selected := s.Selected, Grouped := s.Grouped })

/-- Two records whose sort keys are in ascending order: when `Ident(c)`
resolves to a value on both, neither null and both of one type, the key of
the second is not less than the key of the first. -/
def keyOrdered (c : String) (a b : SelectedRecord) : Prop :=
  ∀ va vb, Ident.Variable c a = .ok va → Ident.Variable c b = .ok vb →
    va ≠ Value.null → vb ≠ Value.null → valueType va = valueType vb →
    valueLess vb va = false

/-- Two rows whose values at the place `p` are in ascending order, when
neither is null and both are of one type. -/
def placeOrdered (p : Nat) (d e : Row) : Prop :=
  readValue d p ≠ Value.null → readValue e p ≠ Value.null →
    valueType (readValue d p) = valueType (readValue e p) →
    valueLess (readValue e p) (readValue d p) = false

/-- The table of the rows `(a, b) = (2, 1), (1, 2)`. -/
def shadowSource : Table :=
  { Columns := ["a", "b"], Data := [[.num 2, .num 1], [.num 1, .num 2]] }

/-- The projection `Select(As\x7b"a", Ident("b")\x7d)` of `shadowSource`: its
one output column `a` holds the values of the source column `b`. -/
def shadowSelected : SelectedTable :=
  { Source := shadowSource
    Grouped := [shadowSource]
    Selected := { Columns := ["a"], Data := [[.num 1], [.num 2]] } }

/-- A selected table of three rows whose output column `v` is no source
column. -/
def sortedSample : SelectedTable :=
  { Source := { Columns := ["x"], Data := [[.num 3], [.num 1], [.num 2]] }
    Selected := { Columns := ["v"], Data := [[.num 3], [.num 1], [.num 2]] } }

/-- The table with the column `id` and the row `[1]`. -/
def idTable : Table :=
  { Columns := ["id"], Data := [[.num 1]] }

/-- Method `Literal.Select`: every place of the column is given `l`, the
`Literal` itself. -/
def Literal.Select (value : Value) : Select := fun table =>
  .ok ("literal", List.replicate table.Source.Data.length (Value.literal value))

/-- The inner loop of `GroupingSets.Cart` on the array `p` of slots: the
concatenation of `a` and `b` goes to the slot `i`, and `i` moves on. -/
def cartInner (a : List String) :
    List (List String) → Nat → List (List String) → Except Panic (List (List String) × Nat)
  | [], i, p => .ok (p, i)
  | b :: bb, i, p =>
    if i < p.length then cartInner a bb (i + 1) (p.set i (a ++ b))
    else .error .indexOutOfRange

/-- The outer loop of `GroupingSets.Cart`. -/
def cartOuter (bb : List (List String)) :
    List (List String) → Nat → List (List String) → Except Panic (List (List String))
  | [], _, p => .ok p
  | a :: gs, i, p =>
    match cartInner a bb i p with
    | .error e => .error e
    | .ok (p, i) => cartOuter bb gs i p

/-- Method `GroupingSets.Cart` slot by slot, as the source runs it: `make`
of `len(gs)*len(bb)` slots, a product of two `int`, and the stores at the
counter `i`. -/
def GroupingSets.cartSlots (gs bb : GroupingSets) : Except Panic GroupingSets :=
  let n := wrapInt ((gs.length : Int) * (bb.length : Int))
  if n < 0 then .error .makesliceLenOutOfRange
  else cartOuter bb gs 0 (List.replicate n.toNat [])

/-- Method `Table.UnionAll`: the columns of the other table that are new
are appended, and its rows follow, moved to the positions of the union.  The
error slot of neither table is looked at. -/
def Table.UnionAll (t table : Table) : Table :=
  let columnMap := columnMapOf t.Columns 0 []
  let (columns, transform) := transformLoop table.Columns 0 columnMap t.Columns []
  { t with
    Columns := columns
    Data := t.Data ++
      table.Data.map fun d =>
        transformRow transform d 0 (List.replicate columns.length Value.null) }

/-- The loop of `GroupedTable.Having`: `k` key rows are still to visit, the
next one at position `i` of the backing arrays, of which the first `n`
places hold the key rows and buckets kept so far. -/
def havingLoop (condition : Condition) (columns : List String) :
    Nat → Nat → List Row → List Table → Nat → Except Error (List Row × List Table × Nat)
  | 0, _, data, grouped, n => .ok (data, grouped, n)
  | k + 1, i, data, grouped, n =>
    let d := index data i
    let g : Table := if i < grouped.length then index grouped i else {}
    match condition { Source := { Columns := columns, Values := d }, Grouped := g } with
    | .error e => .error e
    | .ok keep =>
      if keep then
        havingLoop condition columns k (i + 1) (data.set n d)
          (if n < grouped.length then grouped.set n g else grouped) (n + 1)
      else havingLoop condition columns k (i + 1) data grouped n

/-- Method `GroupedTable.Having`. -/
def GroupedTable.Having (t : GroupedTable) (condition : Condition) : GroupedTable :=
  match t.Err with
  | some e => { Err := some e }
  | none =>
    match havingLoop condition t.Source.Columns t.Source.Data.length 0 t.Source.Data
        t.Grouped 0 with
    | .error e => { Err := some e }
    | .ok (data, grouped, n) =>
      { t with
        Source := { t.Source with Data := data.take n }
        Grouped := if n < grouped.length then grouped.take n else grouped }

/-- The first loop of `SelectedTable.Distinct`: the map from the canonical
text of a row to the first row of that text, as an association list. -/
def distinctLoop : List Row → List (String × Row) → List (String × Row)
  | [], distinct => distinct
  | d :: ds, distinct =>
    if distinct.any (fun e => e.1 == marshalRow d) then distinctLoop ds distinct
    else distinctLoop ds (distinct ++ [(marshalRow d, d)])

/-- The second loop of `SelectedTable.Distinct`: the rows of the map go to
the first places of the data. -/
def storeDistinct : List (String × Row) → Nat → List Row → List Row × Nat
  | [], n, data => (data, n)
  | e :: rest, n, data =>
    storeDistinct rest (n + 1) (if n < data.length then data.set n e.2 else data)

/-- Method `SelectedTable.Distinct`.  Go leaves open the order in which
`range` yields the entries of a map: `rangeOrder` is that order. -/
def SelectedTable.Distinct (t : SelectedTable)
    (rangeOrder : List (String × Row) → List (String × Row)) : SelectedTable :=
  match t.Err with
  | some e => { Err := some e }
  | none =>
    let distinct := distinctLoop t.Selected.Data []
    let r := storeDistinct (rangeOrder distinct) 0 t.Selected.Data
    { t with
      Selected :=
        { t.Selected with Data := if r.2 < r.1.length then r.1.take r.2 else r.1 } }

/-- A table whose error slot is set and that has no column and no row, as
the engine returns it after a failure. -/
def failedTable : Table :=
  { Err := some (.identNotFound "x") }

/-- The value of a hexadecimal digit: `unhex` of `strconv`. -/
def unhex (c : Char) : Option Nat :=
  if 48 ≤ c.toNat ∧ c.toNat ≤ 57 then some (c.toNat - 48)
  else if 97 ≤ c.toNat ∧ c.toNat ≤ 102 then some (c.toNat - 97 + 10)
  else if 65 ≤ c.toNat ∧ c.toNat ≤ 70 then some (c.toNat - 65 + 10)
  else none

/-- The value of the next `n` hexadecimal digits, and the text after them. -/
def hexRun : Nat → List Char → Nat → Option (Nat × List Char)
  | 0, s, v => some (v, s)
  | _ + 1, [], _ => none
  | n + 1, c :: s, v =>
    match unhex c with
    | none => none
    | some x => hexRun n s (v * 16 + x)

/-- The value of the next `n` octal digits, and the text after them. -/
def octalRun : Nat → List Char → Nat → Option (Nat × List Char)
  | 0, s, v => some (v, s)
  | _ + 1, [], _ => none
  | n + 1, c :: s, v =>
    if 48 ≤ c.toNat ∧ c.toNat ≤ 55 then octalRun n s (v * 8 + (c.toNat - 48)) else none

/-- A code point that is a character: `utf8.ValidRune`. -/
def validRune (v : Nat) : Bool :=
  v < 55296 || (57343 < v && v ≤ 1114111)

/-- The function `strconv.UnquoteChar`: the first character or escape
sequence of a text, and the text after it.  A byte escape (`\x5cx`, octal)
stands for the character of its number. -/
def unquoteChar (quote : Char) : List Char → Option (Char × List Char)
  | [] => none
  | c :: s =>
    if c = quote ∧ (quote.toNat = 39 ∨ quote.toNat = 34) then none
    else if c.toNat ≠ 92 then some (c, s)
    else
      match s with
      | [] => none
      | c :: s =>
        if c.toNat = 97 then some (Char.ofNat 7, s)
        else if c.toNat = 98 then some (Char.ofNat 8, s)
        else if c.toNat = 102 then some (Char.ofNat 12, s)
        else if c.toNat = 110 then some (Char.ofNat 10, s)
        else if c.toNat = 114 then some (Char.ofNat 13, s)
        else if c.toNat = 116 then some (Char.ofNat 9, s)
        else if c.toNat = 118 then some (Char.ofNat 11, s)
        else if c.toNat = 120 then
          match hexRun 2 s 0 with
          | none => none
          | some (v, s) => some (Char.ofNat v, s)
        else if c.toNat = 117 then
          match hexRun 4 s 0 with
          | none => none
          | some (v, s) => if validRune v then some (Char.ofNat v, s) else none
        else if c.toNat = 85 then
          match hexRun 8 s 0 with
          | none => none
          | some (v, s) => if validRune v then some (Char.ofNat v, s) else none
        else if 48 ≤ c.toNat ∧ c.toNat ≤ 55 then
          match octalRun 2 s (c.toNat - 48) with
          | none => none
          | some (v, s) => if v > 255 then none else some (Char.ofNat v, s)
        else if c.toNat = 92 then some (c, s)
        else if c.toNat = 39 ∨ c.toNat = 34 then
          if c ≠ quote then none else some (c, s)
        else none

/-- The loop of `strconv.Unquote` over a text in double quotes, after the
opening quote: characters and escape sequences go to `buf` up to the closing
quote, after which nothing may follow; a bare newline is refused.  Every
round takes at least one character, so a fuel above the length of the text
is never used up. -/
def unquoteLoop : Nat → List Char → List Char → Except Error String
  | 0, _, _ => .error .invalidSyntax
  | _ + 1, [], _ => .error .invalidSyntax
  | fuel + 1, c :: s, buf =>
    if c.toNat = 34 then
      if s = [] then .ok (String.mk buf) else .error .invalidSyntax
    else if c.toNat = 10 then .error .invalidSyntax
    else
      match unquoteChar (Char.ofNat 34) (c :: s) with
      | none => .error .invalidSyntax
      | some (r, rem) => unquoteLoop fuel rem (buf ++ [r])

/-- The function `strconv.Unquote` on a canonical text: a text that does not
start with a quote character is a syntax error, and a text in double quotes
is read by the loop.  Go knows two more forms, in single quotes and in back
quotes; no canonical text starts with either (`marshal_head`), and the model
has them as a syntax error. -/
def Unquote (s : String) : Except Error String :=
  match s.data with
  | [] => .error .invalidSyntax
  | q :: rest =>
    if q.toNat = 34 then unquoteLoop (rest.length + 1) rest []
    else .error .invalidSyntax

/-- The loop of `Concat.Variable`: the builder `b` takes the unquoted
canonical text of each operand. -/
def concatLoop (record : SelectedRecord) : List Variable → String → Except Error Value
  | [], b => .ok (.str b)
  | v :: c, b =>
    match v record with
    | .error e => .error e
    | .ok value =>
      match Unquote (marshal value) with
      | .error e => .error e
      | .ok s => concatLoop record c (b ++ s)

/-- Method `Concat.Variable`. -/
def Concat.Variable (c : List Variable) : Variable := fun record =>
  concatLoop record c ""


/-- The texts of a list of values that are all strings. -/
def textsOf : List Value → Option (List String)
  | [] => some []
  | .str s :: vs =>
    match textsOf vs with
    | some ss => some (s :: ss)
    | none => none
  | _ :: _ => none

/-- The record whose one selected column `v` holds the value `x`. -/
def valueRecord (x : Value) : SelectedRecord :=
  { Selected := { Columns := ["v"], Values := [x] } }

/-- The second half of the matching rule as the claim words it: the text
`s` is the prefix of the column `c` up to and including its last dot, which
is the empty text when `c` has no dot.  With a dot in `c`, that is: `s` is a
prefix of `c`, ends with a dot, and no dot follows it in `c`. -/
def claimPrefix (s c : String) : Bool :=
  if c.data.all (fun ch => ch != '.') then s.data.isEmpty
  else
    s.data.getLast? == some '.' && s.data.isPrefixOf c.data &&
      (c.data.drop s.data.length).all (fun ch => ch != '.')

/-- The matching rule as the claim words it: the column equals the
identifier, or its prefix up to and including its last dot does. -/
def claimMatch (s c : String) : Bool :=
  c == s || claimPrefix s c

/-- The set `M` of the claim: the positions of the columns that match. -/
def claimMatching (s : String) (columns : List String) : List Nat :=
  (List.range columns.length).filter fun j => claimMatch s (columns.getD j "")

/-- A Go slice of values: the part of a backing array that starts at `off`,
`len` places of which are its elements and `cap` places of which it may
grow into.  The array is named by its place in the memory. -/
structure Slice where
  arr : Nat
  off : Nat
  len : Nat
  cap : Nat
  deriving DecidableEq

/-- The memory: the backing arrays. -/
abbrev Memory := List (List Value)

/-- The elements of a slice. -/
def Slice.values (m : Memory) (s : Slice) : Row :=
  ((m.getD s.arr []).drop s.off).take s.len

/-- The stores `a[pos] = v`, `a[pos+1] = ...` of the values. -/
def writeAt (a : List Value) (pos : Nat) : List Value → List Value
  | [] => a
  | v :: vs => writeAt (a.set pos v) (pos + 1) vs

/-- The built-in `append(s, vals...)`: when the capacity of `s` holds the
values they are stored behind its elements, in its own backing array, and the
result shares that array; otherwise a new array is made, with the elements,
the values and the spare places the run time adds (`spare`, from the old
capacity and the length needed). -/
def goAppend (spare : Nat → Nat → Nat) (m : Memory) (s : Slice) (vals : Row) :
    Memory × Slice :=
  if s.len + vals.length ≤ s.cap then
    (m.set s.arr (writeAt (m.getD s.arr []) (s.off + s.len) vals),
      { s with len := s.len + vals.length })
  else
    (m ++ [s.values m ++ vals ++
        List.replicate (spare s.cap (s.len + vals.length)) Value.null],
      { arr := m.length, off := 0, len := s.len + vals.length,
        cap := s.len + vals.length + spare s.cap (s.len + vals.length) })

/-- A table whose rows are slices in the memory. -/
structure SliceTable where
  Err : Option Error := none
  Columns : List String := []
  Data : List Slice := []

/-- The table a table of slices reads as. -/
def SliceTable.table (m : Memory) (t : SliceTable) : Table :=
  { Err := t.Err, Columns := t.Columns, Data := t.Data.map fun d => d.values m }

/-- The inner loop of `LeftJoin.Join` on slices, for the left row `dl`: both
calls of `append(dl, dr...)`, the one for the condition and the one for the
row that is emitted, store into the backing array of `dl` when it has the
capacity. -/
def joinInnerMem (spare : Nat → Nat → Nat) (onCond : Condition) (columns : List String)
    (dl : Slice) :
    List Slice → Memory → List Slice → Bool → Except Error (Memory × List Slice × Bool)
  | [], m, data, found => .ok (m, data, found)
  | dr :: rest, m, data, found =>
    let c := goAppend spare m dl (dr.values m)
    match onCond { Source := { Columns := columns, Values := c.2.values c.1 } } with
    | .error e => .error e
    | .ok ok =>
      if ok then
        let e := goAppend spare c.1 dl (dr.values c.1)
        joinInnerMem spare onCond columns dl rest e.1 (data ++ [e.2]) true
      else joinInnerMem spare onCond columns dl rest c.1 data found

/-- The outer loop of `LeftJoin.Join` on slices. -/
def joinOuterMem (spare : Nat → Nat → Nat) (onCond : Condition) (columns : List String)
    (r : SliceTable) :
    List Slice → Memory → List Slice → Except Error (Memory × List Slice)
  | [], m, data => .ok (m, data)
  | dl :: rest, m, data =>
    match joinInnerMem spare onCond columns dl r.Data m data false with
    | .error e => .error e
    | .ok (m, data, found) =>
      if !found then
        let e := goAppend spare m dl (List.replicate r.Columns.length Value.null)
        joinOuterMem spare onCond columns r rest e.1 (data ++ [e.2])
      else joinOuterMem spare onCond columns r rest m data

/-- Method `LeftJoin.Join` on tables whose rows are slices in the memory:
the memory after the call and the table returned. -/
def LeftJoin.joinMem (spare : Nat → Nat → Nat) (onCond : Condition) (m : Memory)
    (l r : SliceTable) : Memory × SliceTable :=
  match l.Err with
  | some e => (m, { Err := some e })
  | none =>
    match r.Err with
    | some e => (m, { Err := some e })
    | none =>
      if r.Columns.length = 0 then (m, l)
      else
        let columns := l.Columns ++ r.Columns
        match joinOuterMem spare onCond columns r l.Data m [] with
        | .error e => (m, { Err := some e })
        | .ok (m, data) => (m, { Columns := columns, Data := data })

/-- The pair of a left row and a right row as it reads through the columns:
at each left column the value of `dl` there (null where `dl` is shorter),
then the values of `dr`. -/
def alignedPair (lcols rcols : List String) (dl dr : Row) : GroupedRecord :=
  rowRecord (lcols ++ rcols)
    ((List.range lcols.length).map (fun (j : Nat) => readValue dl (j : Int)) ++ dr)

/-- The right rows that match the left row `dl`: those on whose pair with
`dl` the condition is true. -/
def matchingPairs (onCond : Condition) (lcols rcols : List String) (dl : Row)
    (rdata : List Row) : List Row :=
  rdata.filter fun dr => decide (onCond (alignedPair lcols rcols dl dr) = .ok true)

/-- The rows a left join owes to the left row `dl`: `dl` followed by each
matching right row, in the order of the right table, or, when there is none,
`dl` followed by one null for every right column. -/
def owedRows (onCond : Condition) (lcols rcols : List String) (rdata : List Row)
    (dl : Row) : List Row :=
  if (matchingPairs onCond lcols rcols dl rdata).length = 0 then
    [dl ++ List.replicate rcols.length Value.null]
  else (matchingPairs onCond lcols rcols dl rdata).map fun dr => dl ++ dr

/-- A memory of three arrays: the element `1` with one spare place behind
it, the element `5`, the element `6`. -/
def spareMemory : Memory :=
  [[.num 1, .null], [.num 5], [.num 6]]

/-- The slice of the first `len` places of the array `arr`, with `cap`
places to grow into. -/
def sliceOf (arr len cap : Nat) : Slice :=
  { arr := arr, off := 0, len := len, cap := cap }

/-- The condition `Equals(1, 1)`, true on every record. -/
def always : Condition :=
  Equals (Literal.Variable (.num 1)) (Literal.Variable (.num 1))

/-- The condition `Equals(1, 2)`, false on every record. -/
def never : Condition :=
  Equals (Literal.Variable (.num 1)) (Literal.Variable (.num 2))

/-- A slice that lies within its backing array. -/
abbrev Slice.whole (m : Memory) (s : Slice) : Prop :=
  (s.values m).length = s.len

/-- The table `LeftJoin.Join` returns, as it reads in the memory after the
call. -/
def joinResult (spare : Nat → Nat → Nat) (onCond : Condition) (m : Memory)
    (l r : SliceTable) : Table :=
  (LeftJoin.joinMem spare onCond m l r).2.table (LeftJoin.joinMem spare onCond m l r).1

/-! # Properties -/

/-- A list that is a permutation of a pair is the pair or its swap. -/
theorem perm_pair {α : Type} {a b : α} {l : List α} (h : List.Perm l [a, b]) :
    l = [a, b] ∨ l = [b, a] := by
  have hl := h.length_eq
  match l, hl with
  | [x, y], _ =>
    have hx : x ∈ [a, b] := h.subset (by simp)
    simp only [List.mem_cons, List.mem_singleton, List.not_mem_nil, or_false] at hx
    rcases hx with rfl | rfl
    · left
      have := (List.perm_cons x).1 h
      rw [List.perm_singleton.1 this]
    · right
      have h2 : List.Perm [x, y] [x, a] := h.trans (List.Perm.swap x a [])
      have := (List.perm_cons x).1 h2
      rw [List.perm_singleton.1 this]

/-- The table `From` reads from `usersTable`, whatever the iteration order of
the objects: the first object decides the column order. -/
theorem From_usersTable (u : List (List (String × Value)))
    (hu : List.Forall₂ List.Perm u usersTable) :
    From u = .ok { Columns := ["id", "name"],
                   Data := [[.num 1, .str "Max"], [.num 2, .str "Tom"], [.num 3, .str "Alex"]] } ∨
    From u = .ok { Columns := ["name", "id"],
                   Data := [[.str "Max", .num 1], [.str "Tom", .num 2], [.str "Alex", .num 3]] } := by
  unfold usersTable at hu
  cases hu with
  | cons h1 hu =>
    cases hu with
    | cons h2 hu =>
      cases hu with
      | cons h3 hu =>
        cases hu
        rcases perm_pair h1 with rfl | rfl <;> rcases perm_pair h2 with rfl | rfl <;>
          rcases perm_pair h3 with rfl | rfl <;> decide

/-- The table `From` reads from `userHobbiesTable`. -/
theorem From_userHobbiesTable (uh : List (List (String × Value)))
    (hu : List.Forall₂ List.Perm uh userHobbiesTable) :
    From uh = .ok { Columns := ["user_id", "hobby_id"],
                    Data := [[.num 1, .num 1], [.num 1, .num 2], [.num 2, .num 3],
                             [.num 3, .num 1]] } ∨
    From uh = .ok { Columns := ["hobby_id", "user_id"],
                    Data := [[.num 1, .num 1], [.num 2, .num 1], [.num 3, .num 2],
                             [.num 1, .num 3]] } := by
  unfold userHobbiesTable at hu
  cases hu with
  | cons h1 hu =>
    cases hu with
    | cons h2 hu =>
      cases hu with
      | cons h3 hu =>
        cases hu with
        | cons h4 hu =>
          cases hu
          rcases perm_pair h1 with rfl | rfl <;> rcases perm_pair h2 with rfl | rfl <;>
            rcases perm_pair h3 with rfl | rfl <;> rcases perm_pair h4 with rfl | rfl <;>
            decide

/-- The table `From` reads from `hobbiesTable`. -/
theorem From_hobbiesTable (h : List (List (String × Value)))
    (hh : List.Forall₂ List.Perm h hobbiesTable) :
    From h = .ok { Columns := ["id", "name"],
                   Data := [[.num 1, .str "Football"], [.num 2, .str "Basketball"],
                            [.num 3, .str "Hockey"]] } ∨
    From h = .ok { Columns := ["name", "id"],
                   Data := [[.str "Football", .num 1], [.str "Basketball", .num 2],
                            [.str "Hockey", .num 3]] } := by
  unfold hobbiesTable at hh
  cases hh with
  | cons h1 hh =>
    cases hh with
    | cons h2 hh =>
      cases hh with
      | cons h3 hh =>
        cases hh
        rcases perm_pair h1 with rfl | rfl <;> rcases perm_pair h2 with rfl | rfl <;>
          rcases perm_pair h3 with rfl | rfl <;> decide

/-- C1: on the tables of the test, in whatever order the ingestion meets the
keys of each object, the pipeline (two left joins, `GroupBy`, `Select` with
`ArrayAgg`, `OrderBy`, `Offset(1)`, `Limit(1)`) ends without panic and without
error with exactly one row, whose `name` is `"Max"` (and whose hobbies are
Football and Basketball), and `Scan` serializes that row. -/
theorem Test_yields_Max (pdqsort : Sorter) (u uh h : List (List (String × Value)))
    (hu : List.Forall₂ List.Perm u usersTable)
    (huh : List.Forall₂ List.Perm uh userHobbiesTable)
    (hh : List.Forall₂ List.Perm h hobbiesTable) :
    Test pdqsort u uh h = .ok
      { Selected :=
          { Columns := ["name", "hobbies"]
            Data := [[.str "Max", .arr [.str "Football", .str "Basketball"]]] } } ∧
    (∀ s, Test pdqsort u uh h = .ok s →
      s.Err = none ∧ s.Selected.Data.length = 1 ∧
      Ident.Variable "name" { Source := { Columns := s.Selected.Columns,
                                          Values := index s.Selected.Data 0 } } =
        .ok (.str "Max") ∧
      s.Scan = .ok
        "[\x7b\x22hobbies\x22:[\x22Football\x22,\x22Basketball\x22],\x22name\x22:\x22Max\x22\x7d]") := by
  have key : Test pdqsort u uh h = .ok
      { Selected :=
          { Columns := ["name", "hobbies"]
            Data := [[.str "Max", .arr [.str "Football", .str "Basketball"]]] } } := by
    unfold Test
    rcases From_usersTable u hu with e1 | e1 <;>
      rcases From_userHobbiesTable uh huh with e2 | e2 <;>
      rcases From_hobbiesTable h hh with e3 | e3 <;>
      rw [e1, e2, e3] <;> exact of_decide_eq_true rfl
  refine ⟨key, ?_⟩
  intro s hs
  rw [key] at hs
  cases hs
  decide

/-- C1 at the tables as the test writes them. -/
theorem Test_yields_Max_witness :
    Test (fun _ st => st) usersTable userHobbiesTable hobbiesTable = .ok
      { Selected :=
          { Columns := ["name", "hobbies"]
            Data := [[.str "Max", .arr [.str "Football", .str "Basketball"]]] } } :=
  (Test_yields_Max (fun _ st => st) usersTable userHobbiesTable hobbiesTable
    (by unfold usersTable; repeat constructor)
    (by unfold userHobbiesTable; repeat constructor)
    (by unfold hobbiesTable; repeat constructor)).1

/-- The first `n + 1` places after a write at place `n`. -/
theorem take_succ_set {α : Type} (l : List α) (n : Nat) (a : α) (h : n < l.length) :
    (l.set n a).take (n + 1) = l.take n ++ [a] := by
  induction l generalizing n with
  | nil => simp at h
  | cons x xs ih =>
    cases n with
    | zero => simp
    | succ m =>
      simp only [List.length_cons, Nat.add_lt_add_iff_right] at h
      simp [ih m h]

/-- The element a loop reads at position `i`, and what is left after it. -/
theorem index_eq_of_drop {α : Type} [Inhabited α] (l : List α) (i : Nat) (x : α) (xs : List α)
    (h : l.drop i = x :: xs) : index l i = x ∧ l.drop (i + 1) = xs ∧ i < l.length := by
  have hi : i < l.length := by
    by_contra hc
    rw [List.drop_of_length_le (by omega)] at h
    cases h
  have h2 := List.drop_eq_getElem_cons hi
  rw [h2] at h
  injection h with h3 h4
  refine ⟨?_, h4, hi⟩
  unfold index
  rw [List.getD_eq_getElem l default hi]
  exact h3

/-- The loop of `Where` keeps, in the first places of the array, the rows it
has passed on which the condition is true. -/
theorem whereLoop_spec (condition : Condition) (columns : List String) :
    ∀ (k i : Nat) (data : List Row) (n : Nat),
      i + k = data.length → n ≤ i →
      (∀ d ∈ data.drop i, ∃ b, condition (rowRecord columns d) = .ok b) →
      ∃ data' n', whereLoop condition columns k i data n = .ok (data', n') ∧
        data'.take n' = data.take n ++
          (data.drop i).filter (fun d => decide (condition (rowRecord columns d) = .ok true)) := by
  intro k
  induction k with
  | zero =>
    intro i data n hik _ _
    refine ⟨data, n, rfl, ?_⟩
    rw [List.drop_of_length_le (by omega)]
    simp
  | succ k ih =>
    intro i data n hik hn hc
    have hi : i < data.length := by omega
    have hd : data.drop i = data[i] :: data.drop (i + 1) := List.drop_eq_getElem_cons hi
    obtain ⟨hidx, -, -⟩ := index_eq_of_drop data i _ _ hd
    have hmem : data[i] ∈ data.drop i := by
      rw [hd]
      exact List.mem_cons_self _ _
    obtain ⟨b, hb⟩ := hc data[i] hmem
    unfold whereLoop
    simp only [hidx]
    have hb' : condition { Source := { Columns := columns, Values := data[i] } } = .ok b := hb
    rw [hb']
    cases b with
    | true =>
      simp only [if_true]
      have hdrop : (data.set n data[i]).drop (i + 1) = data.drop (i + 1) :=
        List.drop_set_of_lt _ _ (by omega)
      obtain ⟨data', n', h1, h2⟩ := ih (i + 1) (data.set n data[i]) (n + 1)
        (by simp; omega) (by omega)
        (by
          rw [hdrop]
          intro d hdm
          exact hc d (by rw [hd]; exact List.mem_cons_of_mem _ hdm))
      refine ⟨data', n', h1, ?_⟩
      have : decide (condition (rowRecord columns data[i]) = .ok true) = true := by
        simp [hb]
      rw [h2, hdrop, take_succ_set _ _ _ (by omega), hd, List.filter_cons, this]
      simp only [if_true, List.append_assoc, List.singleton_append]
    | false =>
      simp only [Bool.false_eq_true, if_false]
      obtain ⟨data', n', h1, h2⟩ := ih (i + 1) data n (by omega) (by omega)
        (by
          intro d hdm
          exact hc d (by rw [hd]; exact List.mem_cons_of_mem _ hdm))
      refine ⟨data', n', h1, ?_⟩
      have : decide (condition (rowRecord columns data[i]) = .ok true) = false := by
        simp [hb]
      rw [h2, hd, List.filter_cons, this]
      simp only [Bool.false_eq_true, if_false]

/-- C2: on an error-free table and a condition that raises no error on its
rows, `Where` keeps the columns and returns exactly the rows on which the
condition is true, in their order; an always-true condition returns the
table and an always-false one returns no rows with the same columns. -/
theorem Where_filter (t : Table) (condition : Condition) (ht : t.Err = none)
    (hc : ∀ d ∈ t.Data, ∃ b, condition (rowRecord t.Columns d) = .ok b) :
    t.Where condition =
        { Err := none, Columns := t.Columns,
          Data := t.Data.filter fun d =>
            decide (condition (rowRecord t.Columns d) = .ok true) } ∧
      ((∀ d ∈ t.Data, condition (rowRecord t.Columns d) = .ok true) →
        t.Where condition = t) ∧
      ((∀ d ∈ t.Data, condition (rowRecord t.Columns d) = .ok false) →
        (t.Where condition).Err = none ∧ (t.Where condition).Columns = t.Columns ∧
        (t.Where condition).Data = []) := by
  obtain ⟨data', n', h1, h2⟩ :=
    whereLoop_spec condition t.Columns t.Data.length 0 t.Data 0 (by simp) (le_refl 0)
      (by simpa using hc)
  have key : t.Where condition =
      { Err := none, Columns := t.Columns,
        Data := t.Data.filter fun d =>
          decide (condition (rowRecord t.Columns d) = .ok true) } := by
    unfold Table.Where
    rw [ht]
    simp only [h1, h2]
    simp
  refine ⟨key, ?_, ?_⟩
  · intro hall
    rw [key]
    have : t.Data.filter (fun d => decide (condition (rowRecord t.Columns d) = .ok true))
        = t.Data := by
      rw [List.filter_eq_self]
      intro d hd
      simp [hall d hd]
    rw [this]
    cases t
    simp_all
  · intro hall
    rw [key]
    refine ⟨rfl, rfl, ?_⟩
    simp only
    rw [List.filter_eq_nil_iff]
    intro d hd
    simp [hall d hd]

/-- C2 at a table of two rows and the condition `id = 1`. -/
theorem Where_filter_witness :
    (Table.Where { Columns := ["id"], Data := [[.num 1], [.num 2]] }
        (Equals (Ident.Variable "id") (Literal.Variable (.num 1)))).Data = [[.num 1]] := by
  have h := (Where_filter { Columns := ["id"], Data := [[.num 1], [.num 2]] }
    (Equals (Ident.Variable "id") (Literal.Variable (.num 1))) rfl
    (by decide)).1
  rw [h]
  decide



/-- C3: `Delete` with the condition `id = 1` on the two adjacent matching
rows `[1]`, `[1]` leaves one of them: after the first is removed the second
sits at the place the loop has passed, and the place it goes to next holds
the nil row (two matching rows that are not adjacent are both removed).  With
a condition that is true on every row, the nil row matches too and the slice
expression of the removal panics. -/
theorem Delete_adjacent_matches :
    Table.Delete { Columns := ["id"], Data := [[.num 1], [.num 1]] }
        (Equals (Ident.Variable "id") (Literal.Variable (.num 1))) =
      .ok { Columns := ["id"], Data := [[.num 1]] } ∧
    Table.Delete { Columns := ["id"], Data := [[.num 1], [.num 2], [.num 1]] }
        (Equals (Ident.Variable "id") (Literal.Variable (.num 1))) =
      .ok { Columns := ["id"], Data := [[.num 2]] } ∧
    Table.Delete { Columns := ["id"], Data := [[.num 1], [.num 2]] }
        (Equals (Literal.Variable (.num 1)) (Literal.Variable (.num 1))) =
      .error .sliceBoundsOutOfRange := by
  decide

/-- C5: a left row shorter than the left columns is not aligned.  The left
table has the columns `a`, `b` and the row `[1]` (as `From` builds it when a
later object brings the key `b`), the right table the column `c` and the row
`[9]`, and the condition is always true: the emitted row is `[1, 9]`, which
reads `9` at the left column `b` and null at the right column `c`. -/
theorem LeftJoin_short_left_row :
    LeftJoin.Join
        { Right := { Columns := ["c"], Data := [[.num 9]] }
          On := Equals (Literal.Variable (.num 1)) (Literal.Variable (.num 1)) }
        { Columns := ["a", "b"], Data := [[.num 1], [.num 2, .num 3]] } =
      { Columns := ["a", "b", "c"]
        Data := [[.num 1, .num 9], [.num 2, .num 3, .num 9]] } ∧
    Ident.Variable "b"
        { Source := { Columns := ["a", "b", "c"], Values := [.num 1, .num 9] } } =
      .ok (.num 9) ∧
    Ident.Variable "c"
        { Source := { Columns := ["a", "b", "c"], Values := [.num 1, .num 9] } } =
      .ok .null ∧
    Ident.Variable "b" { Source := { Columns := ["a", "b"], Values := [.num 1] } } =
      .ok .null ∧
    From [[("a", .num 1)], [("a", .num 2), ("b", .num 3)]] =
      .ok { Columns := ["a", "b"], Data := [[.num 1], [.num 2, .num 3]] } := by
  decide

/-- C7, as stated, fails: on the columns `users.name` and `accounts.name` the
identifier `name` does not give the ambiguous-identifier error, neither as
a variable nor as a select. -/
theorem Ident_name_not_ambiguous :
    Ident.Variable "name"
        { Source := { Columns := ["users.name", "accounts.name"],
                      Values := [.str "u", .str "a"] } } ≠
      .error (.identAmbiguous "name") ∧
    Ident.Select "name"
        { Source := { Columns := ["users.name", "accounts.name"],
                      Data := [[.str "u", .str "a"]] } } ≠
      .error (.identAmbiguous "name") := by
  decide

/-- C7, amended: on the columns `users.name` and `accounts.name`, whatever
the values, the identifier `name` equals no column and is the prefix up to
the last dot of none, so its resolution fails with the not-found error, as a
variable and as a select. -/
theorem Ident_name_not_found (values : Row) (data : List Row) :
    Ident.Variable "name"
        { Source := { Columns := ["users.name", "accounts.name"], Values := values } } =
      .error (.identNotFound "name") ∧
    Ident.Select "name"
        { Source := { Columns := ["users.name", "accounts.name"], Data := data } } =
      .error (.identNotFound "name") := by
  constructor <;> rfl

/-- C8, as stated, fails: on a record whose only source column is
`users.name` the identifier `users` does not resolve. -/
theorem Ident_users_fails :
    Ident.Variable "users" { Source := { Columns := ["users.name"], Values := [.str "Max"] } } ≠
      .ok (.str "Max") := by
  decide

/-- C8, amended: on a record whose only source column is `users.name`, with
the value `v`, the identifier `users.` (the prefix with its dot) and the
identifier `users.name` both return `v`, and the identifier `users` is not
found. -/
theorem Ident_prefix_with_dot (v : Value) :
    Ident.Variable "users." { Source := { Columns := ["users.name"], Values := [v] } } = .ok v ∧
    Ident.Variable "users.name" { Source := { Columns := ["users.name"], Values := [v] } } =
      .ok v ∧
    Ident.Variable "users" { Source := { Columns := ["users.name"], Values := [v] } } =
      .error (.identNotFound "users") := by
  refine ⟨rfl, rfl, rfl⟩

/-- The read of a row at a position: the value there, or null beyond the end. -/
theorem readValue_natCast (values : Row) (j : Nat) :
    readValue values (j : Int) = values.getD j Value.null := by
  unfold readValue index
  by_cases h : j < values.length
  · simp [h]
  · simp only [Nat.cast_lt, h, if_false]
    rw [List.getD_eq_default _ _ (by omega)]

/-- The inner loop of the left join appends the candidates of the matching
right rows and raises the flag when there is one. -/
theorem joinInner_spec (onCond : Condition) (columns : List String) (dl : Row) :
    ∀ (rs data : List Row) (found : Bool),
      (∀ dr ∈ rs, ∃ b, onCond (rowRecord columns (dl ++ dr)) = .ok b) →
      joinInner onCond columns dl rs data found =
        .ok (data ++ (matchingRows onCond columns dl rs).map (fun dr => dl ++ dr),
             found || decide ((matchingRows onCond columns dl rs).length ≠ 0)) := by
  intro rs
  induction rs with
  | nil =>
    intro data found _
    simp [joinInner, matchingRows]
  | cons dr rest ih =>
    intro data found hc
    obtain ⟨b, hb⟩ := hc dr (List.mem_cons_self _ _)
    have hrest : ∀ dr ∈ rest, ∃ b, onCond (rowRecord columns (dl ++ dr)) = .ok b :=
      fun d hd => hc d (List.mem_cons_of_mem _ hd)
    have hb' : onCond { Source := { Columns := columns, Values := dl ++ dr } } = .ok b := hb
    unfold joinInner
    rw [hb']
    cases b with
    | true =>
      simp only [if_true]
      rw [ih _ _ hrest]
      have : decide (onCond (rowRecord columns (dl ++ dr)) = .ok true) = true := by simp [hb]
      simp [matchingRows, List.filter_cons, this]
    | false =>
      simp only [Bool.false_eq_true, if_false]
      rw [ih _ _ hrest]
      have : decide (onCond (rowRecord columns (dl ++ dr)) = .ok true) = false := by simp [hb]
      simp [matchingRows, List.filter_cons, this]

/-- The outer loop of the left join appends, for each left row, the rows it
is owed. -/
theorem joinOuter_spec (onCond : Condition) (columns : List String) (r : Table) :
    ∀ (ls data : List Row),
      (∀ dl ∈ ls, ∀ dr ∈ r.Data, ∃ b, onCond (rowRecord columns (dl ++ dr)) = .ok b) →
      joinOuter onCond columns r ls data =
        .ok (data ++ ls.flatMap (rowsFor onCond columns r)) := by
  intro ls
  induction ls with
  | nil =>
    intro data _
    simp [joinOuter]
  | cons dl rest ih =>
    intro data hc
    have hrest : ∀ dl ∈ rest, ∀ dr ∈ r.Data,
        ∃ b, onCond (rowRecord columns (dl ++ dr)) = .ok b :=
      fun d hd => hc d (List.mem_cons_of_mem _ hd)
    unfold joinOuter
    rw [joinInner_spec onCond columns dl r.Data data false (hc dl (List.mem_cons_self _ _))]
    simp only [Bool.false_or]
    by_cases hm : (matchingRows onCond columns dl r.Data).length = 0
    · have hnil : matchingRows onCond columns dl r.Data = [] := List.length_eq_zero.1 hm
      simp only [hm, ne_eq, not_true_eq_false, decide_False, Bool.not_false, if_true]
      rw [ih _ hrest]
      simp [rowsFor, hnil]
    · simp only [hm, ne_eq, not_false_eq_true, decide_True, Bool.not_true, Bool.false_eq_true,
        if_false]
      rw [ih _ hrest]
      simp [rowsFor, hm]

/-- A left row is owed one row, or as many as it has matching right rows. -/
theorem length_rowsFor (onCond : Condition) (columns : List String) (r : Table) (dl : Row) :
    (rowsFor onCond columns r dl).length =
      max 1 (matchingRows onCond columns dl r.Data).length := by
  unfold rowsFor
  by_cases hm : (matchingRows onCond columns dl r.Data).length = 0
  · simp [hm]
  · simp only [hm, if_false, List.length_map]
    omega

/-- Without a dot the scan returns the position it was given. -/
theorem lastIndexFrom_no_dot (l : List Char) (pos : Nat) (last : Int)
    (h : ∀ ch ∈ l, ch.toNat ≠ 46) : lastIndexFrom l pos last = last := by
  induction l generalizing pos last with
  | nil => rfl
  | cons ch rest ih =>
    unfold lastIndexFrom
    rw [if_neg (h ch (List.mem_cons_self _ _))]
    exact ih _ _ (fun c hc => h c (List.mem_cons_of_mem _ hc))

/-- The scan returns the position of the dot after which there is none. -/
theorem lastIndexFrom_dot (a b : List Char) (dot : Char) (hdot : dot.toNat = 46)
    (hb : ∀ ch ∈ b, ch.toNat ≠ 46) (pos : Nat) (last : Int) :
    lastIndexFrom (a ++ dot :: b) pos last = ((pos + a.length : Nat) : Int) := by
  induction a generalizing pos last with
  | nil =>
    simp only [List.nil_append, List.length_nil, Nat.add_zero]
    unfold lastIndexFrom
    rw [if_pos hdot]
    exact lastIndexFrom_no_dot b _ _ hb
  | cons x xs ih =>
    simp only [List.cons_append, List.length_cons]
    unfold lastIndexFrom
    rw [ih]
    congr 1
    omega

/-- The slice `c[:strings.LastIndex(c, ".")+1]` is empty when `c` has no dot,
and is the text up to and including the last dot when it has one. -/
theorem uptoLastDot_spec :
    (∀ c : String, (∀ ch ∈ c.data, ch.toNat ≠ 46) → uptoLastDot c = "") ∧
    (∀ (a b : List Char) (dot : Char), dot.toNat = 46 → (∀ ch ∈ b, ch.toNat ≠ 46) →
      uptoLastDot (String.mk (a ++ dot :: b)) = String.mk (a ++ [dot])) := by
  constructor
  · intro c h
    unfold uptoLastDot lastIndexDot
    rw [lastIndexFrom_no_dot _ _ _ h]
    rfl
  · intro a b dot hdot hb
    unfold uptoLastDot lastIndexDot
    rw [lastIndexFrom_dot a b dot hdot hb, Nat.zero_add]
    have : (((a.length : Nat) : Int) + 1).toNat = a.length + 1 := by omega
    rw [this]
    congr 1
    rw [List.take_append_eq_append_take]
    simp

/-- The loop of `Ident` in terms of the matching positions. -/
theorem identScan_spec (i : String) :
    ∀ (cols : List String) (j : Nat) (idx : Int),
      identScan i cols j idx =
        match matchPositions i cols j with
        | [] => .ok idx
        | [p] => if idx ≠ -1 then .error (.identAmbiguous i) else .ok (p : Int)
        | _ :: _ :: _ => .error (.identAmbiguous i) := by
  intro cols
  induction cols with
  | nil => intro j idx; rfl
  | cons c cs ih =>
    intro j idx
    unfold identScan matchPositions
    by_cases hm : identMatch i c = true
    · simp only [hm, if_true]
      by_cases hidx : idx ≠ -1
      · rw [if_pos hidx]
        cases matchPositions i cs (j + 1) with
        | nil => simp only [if_pos hidx]
        | cons p ps => rfl
      · rw [if_neg hidx, ih]
        have hj : ((j : Nat) : Int) ≠ -1 := by omega
        cases matchPositions i cs (j + 1) with
        | nil => simp only [if_neg hidx]
        | cons p ps =>
          cases ps with
          | nil => simp only [if_pos hj]
          | cons q qs => rfl
    · simp only [hm, if_false]
      exact ih _ _

/-- The resolution of `Ident(s).Variable` in terms of the positions the loop
of the code meets a match at, in the source columns first and in the selected
columns when the source has none. -/
theorem Ident_Variable_matching (s : String) (record : SelectedRecord) :
    (1 < (matching s record.Source.Columns).length →
      Ident.Variable s record = .error (.identAmbiguous s)) ∧
    (∀ j, matching s record.Source.Columns = [j] →
      Ident.Variable s record = .ok (record.Source.Values.getD j Value.null)) ∧
    (matching s record.Source.Columns = [] →
      (1 < (matching s record.Selected.Columns).length →
        Ident.Variable s record = .error (.identAmbiguous s)) ∧
      (∀ j, matching s record.Selected.Columns = [j] →
        Ident.Variable s record = .ok (record.Selected.Values.getD j Value.null)) ∧
      (matching s record.Selected.Columns = [] →
        Ident.Variable s record = .error (.identNotFound s))) := by
  unfold matching
  refine ⟨?_, ?_, ?_⟩
  · intro h
    unfold Ident.Variable
    rw [identScan_spec]
    match hM : matchPositions s record.Source.Columns 0, h with
    | _ :: _ :: _, _ => rfl
  · intro j h
    unfold Ident.Variable
    rw [identScan_spec, h]
    have hj : ¬ ((j : Nat) : Int) < 0 := by omega
    simp only [ne_eq, not_true_eq_false, if_false, hj]
    rw [readValue_natCast]
  · intro h
    have hsrc : identScan s record.Source.Columns 0 (-1) = .ok (-1) := by
      rw [identScan_spec, h]
    refine ⟨?_, ?_, ?_⟩
    · intro h2
      unfold Ident.Variable
      rw [hsrc]
      simp only [Int.reduceNeg, Left.neg_neg_iff, zero_lt_one, if_true]
      rw [identScan_spec]
      match hM : matchPositions s record.Selected.Columns 0, h2 with
      | _ :: _ :: _, _ => rfl
    · intro j h2
      unfold Ident.Variable
      rw [hsrc]
      simp only [Int.reduceNeg, Left.neg_neg_iff, zero_lt_one, if_true]
      rw [identScan_spec, h2]
      have hj : ¬ ((j : Nat) : Int) < 0 := by omega
      simp only [ne_eq, not_true_eq_false, if_false, hj]
      rw [readValue_natCast]
    · intro h2
      unfold Ident.Variable
      rw [hsrc]
      simp only [Int.reduceNeg, Left.neg_neg_iff, zero_lt_one, if_true]
      rw [identScan_spec, h2]
      simp

/-- The test `(subsetBits>>object)&1 == 1` on a mask that is not negative. -/
theorem bit_test (k object : Nat) :
    (((k : Int) / 2 ^ object) % 2 = 1) ↔ k.testBit object = true := by
  rw [Nat.testBit_to_div_mod]
  simp only [decide_eq_true_eq]
  constructor
  · intro h
    have : ((k / 2 ^ object % 2 : Nat) : Int) = 1 := by
      push_cast
      exact h
    exact_mod_cast this
  · intro h
    have : ((k / 2 ^ object % 2 : Nat) : Int) = 1 := by
      rw [h]
      rfl
    push_cast at this
    exact this

/-- The inner loop of `Cube.GroupBy` appends the objects whose bit is set. -/
theorem cubeSubset_spec (k : Nat) (c : List String) :
    ∀ (xs : List String) (object : Nat) (subset : List String),
      c.drop object = xs →
      cubeSubset (k : Int) xs object subset =
        subset ++ ((List.range' object xs.length).filter fun i => k.testBit i).map
          fun i => index c i := by
  intro xs
  induction xs with
  | nil =>
    intro object subset _
    simp [cubeSubset]
  | cons x rest ih =>
    intro object subset hd
    obtain ⟨hx, hrest, -⟩ := index_eq_of_drop c object x rest hd
    unfold cubeSubset
    rw [ih (object + 1) _ hrest]
    simp only [List.length_cons, List.range'_succ, List.filter_cons]
    by_cases hb : k.testBit object = true
    · rw [if_pos ((bit_test k object).2 hb), if_pos hb]
      simp [hx]
    · rw [if_neg (fun h => hb ((bit_test k object).1 h)), if_neg hb]

/-- The subset the inner loop of `Cube.GroupBy` builds for the mask `k`. -/
theorem cubeSubset_mask (k : Nat) (c : List String) :
    cubeSubset (k : Int) c 0 [] = maskSubset c k := by
  rw [cubeSubset_spec k c c 0 [] rfl]
  simp [maskSubset, maskIndices]

/-- The outer loop of `Cube.GroupBy` appends the subsets of the masks up to the
bound. -/
theorem cubeLoop_spec (c : List String) (B : Nat) :
    ∀ (fuel k : Nat) (subsets : GroupingSets), k + fuel = B →
      cubeLoop c (B : Int) fuel (k : Int) subsets =
        subsets ++ (List.range' k fuel).map (maskSubset c) := by
  intro fuel
  induction fuel with
  | zero =>
    intro k subsets _
    simp [cubeLoop]
  | succ fuel ih =>
    intro k subsets hk
    unfold cubeLoop
    have hlt : (k : Int) < (B : Int) := by omega
    rw [if_pos hlt, cubeSubset_mask]
    have := ih (k + 1) (subsets ++ [maskSubset c k]) (by omega)
    push_cast at this
    rw [this]
    simp [List.range'_succ]

/-- The shift `1 << n` does not wrap for `n` up to sixty-two. -/
theorem wrapInt_two_pow (n : Nat) (hn : n ≤ 62) : wrapInt (2 ^ n) = ((2 ^ n : Nat) : Int) := by
  have h1 : (2 : Nat) ^ n ≤ 2 ^ 62 := Nat.pow_le_pow_right (by decide) hn
  have h2 : ((2 ^ n : Nat) : Int) ≤ 2 ^ 62 := by exact_mod_cast h1
  have h3 : (0 : Int) ≤ ((2 ^ n : Nat) : Int) := Int.natCast_nonneg _
  unfold wrapInt
  push_cast at h2 h3 ⊢
  omega

/-- The shift `1 << n` wraps to a number that is not positive from sixty-three
on. -/
theorem wrapInt_two_pow_large (n : Nat) (hn : 63 ≤ n) : wrapInt (2 ^ n) ≤ 0 := by
  unfold wrapInt
  rcases Nat.eq_or_lt_of_le hn with h | h
  · subst h
    decide
  · obtain ⟨m, rfl⟩ : ∃ m, n = 64 + m := ⟨n - 64, by omega⟩
    have : ((2 : Int) ^ (64 + m) + 2 ^ 63) % 2 ^ 64 = 2 ^ 63 := by
      rw [pow_add, Int.add_comm, Int.add_mul_emod_self_left]
      decide
    rw [this]
    decide

/-- The result of `Cube.GroupBy` for at most sixty-two columns. -/
theorem Cube_GroupBy_eq (c : List String) (hc : c.length ≤ 62) :
    Cube.GroupBy c =
      .ok ((List.range' 1 (2 ^ c.length - 1)).map (maskSubset c) ++ [[]]) := by
  unfold Cube.GroupBy
  simp only
  rw [wrapInt_two_pow _ hc]
  have hpos : 1 ≤ 2 ^ c.length := Nat.one_le_two_pow
  have hfuel : (((2 ^ c.length : Nat) : Int) - 1).toNat = 2 ^ c.length - 1 := by omega
  rw [hfuel]
  have := cubeLoop_spec c (2 ^ c.length) (2 ^ c.length - 1) 1 [] (by omega)
  simp only [Nat.cast_one, List.nil_append] at this
  rw [this]

/-- The mask zero selects nothing. -/
theorem maskIndices_zero (n : Nat) : maskIndices n 0 = [] := by
  simp [maskIndices]

/-- Every choice of positions below `n` is the bit set of a mask below `2 ^ n`. -/
theorem mask_exists (n : Nat) (p : Nat → Bool) :
    ∃ k, k < 2 ^ n ∧ ∀ i, i < n → k.testBit i = p i := by
  induction n with
  | zero => exact ⟨0, by simp, fun i hi => absurd hi (Nat.not_lt_zero _)⟩
  | succ n ih =>
    obtain ⟨k, hk, hbits⟩ := ih
    by_cases hp : p n = true
    · refine ⟨2 ^ n + k, by rw [Nat.pow_succ]; omega, ?_⟩
      intro i hi
      rcases Nat.eq_or_lt_of_le (Nat.lt_succ_iff.1 hi) with h | h
      · subst h
        rw [Nat.testBit_two_pow_add_eq, Nat.testBit_lt_two_pow hk, hp]
        rfl
      · rw [Nat.testBit_two_pow_add_gt h, hbits i h]
    · refine ⟨k, by rw [Nat.pow_succ]; omega, ?_⟩
      intro i hi
      rcases Nat.eq_or_lt_of_le (Nat.lt_succ_iff.1 hi) with h | h
      · subst h
        rw [Nat.testBit_lt_two_pow hk]
        simpa using hp
      · exact hbits i h

/-- The index set of a mask is a given choice of positions when the bits agree
with it. -/
theorem maskIndices_eq_iff (n k : Nat) (p : Nat → Bool) :
    maskIndices n k = (List.range' 0 n).filter p ↔ ∀ i, i < n → k.testBit i = p i := by
  unfold maskIndices
  constructor
  · intro h i hi
    have hmem : i ∈ List.range' 0 n := by simp [List.mem_range']; omega
    have h1 : i ∈ (List.range' 0 n).filter (fun i => k.testBit i) ↔
        i ∈ (List.range' 0 n).filter p := by rw [h]
    simp only [List.mem_filter, hmem, true_and] at h1
    cases hk : k.testBit i <;> cases hpi : p i <;> simp_all
  · intro h
    apply List.filter_congr
    intro i hi
    have : i < n := by
      simp [List.mem_range'] at hi
      omega
    exact h i this

/-- Two masks below `2 ^ n` with the same bits below `n` are equal. -/
theorem mask_unique (n k k' : Nat) (hk : k < 2 ^ n) (hk' : k' < 2 ^ n)
    (h : ∀ i, i < n → k.testBit i = k'.testBit i) : k = k' := by
  apply Nat.eq_of_testBit_eq
  intro i
  by_cases hi : i < n
  · exact h i hi
  · have hle : 2 ^ n ≤ 2 ^ i := Nat.pow_le_pow_right (by decide) (by omega)
    rw [Nat.testBit_lt_two_pow (by omega), Nat.testBit_lt_two_pow (by omega)]

/-- C9, as stated, fails: with sixty-three columns the bound `1 << length` of
the loop wraps to a negative number, the loop does not run, and `GroupBy`
returns the empty set alone, not `2 ^ 63` sets. -/
theorem Cube_sixty_three_columns :
    Cube.GroupBy ((List.range 63).map fun i => String.mk [Char.ofNat (48 + i)]) = .ok [[]] ∧
    ((List.range 63).map fun i => String.mk [Char.ofNat (48 + i)]).length = 63 ∧
    ([[]] : GroupingSets).length ≠ 2 ^ 63 := by
  decide

/-- C9, amended: for at most sixty-two columns (so that `1 << length` fits
the 64-bit `int`), `Cube(cols).GroupBy()` returns without error exactly
`2 ^ |cols|` grouping sets: the set at position `k - 1`, for `k` from one to
`2 ^ |cols| - 1`, holds `cols[i]` for exactly the bits `i` set in `k`, in
index order, and the empty set comes last; every subset of the index
positions is the index set of exactly one position.  With sixty-three
columns or more the result is the empty set alone. -/
theorem Cube_GroupBy_subsets (c : List String) :
    (c.length ≤ 62 →
      ∃ sets, Cube.GroupBy c = .ok sets ∧ sets.length = 2 ^ c.length ∧
        (∀ k, 1 ≤ k → k < 2 ^ c.length → sets[k - 1]? = some (maskSubset c k)) ∧
        sets[2 ^ c.length - 1]? = some [] ∧
        (∀ pos, pos < 2 ^ c.length →
          sets[pos]? = some (maskSubset c ((pos + 1) % 2 ^ c.length))) ∧
        (∀ p : Nat → Bool, ∃! pos, pos < 2 ^ c.length ∧
          maskIndices c.length ((pos + 1) % 2 ^ c.length) =
            (List.range' 0 c.length).filter p)) ∧
    (63 ≤ c.length → Cube.GroupBy c = .ok [[]]) := by
  constructor
  · intro hc
    have hpos : 1 ≤ 2 ^ c.length := Nat.one_le_two_pow
    have hlen : ((List.range' 1 (2 ^ c.length - 1)).map (maskSubset c)).length =
        2 ^ c.length - 1 := by simp
    have hfront : ∀ k, 1 ≤ k → k < 2 ^ c.length →
        ((List.range' 1 (2 ^ c.length - 1)).map (maskSubset c) ++ [[]])[k - 1]? =
          some (maskSubset c k) := by
      intro k h1 h2
      rw [List.getElem?_append_left (by rw [hlen]; omega)]
      rw [List.getElem?_map, List.getElem?_range' _ _ (by omega)]
      simp only [Nat.one_mul, Option.map_some']
      congr 2
      omega
    have hlast : ((List.range' 1 (2 ^ c.length - 1)).map (maskSubset c) ++ [[]])[
        2 ^ c.length - 1]? = some [] := by
      rw [List.getElem?_append_right (by rw [hlen])]
      simp [hlen]
    refine ⟨_, Cube_GroupBy_eq c hc, by simp; omega, hfront, hlast, ?_, ?_⟩
    · intro pos hp
      by_cases hl : pos + 1 = 2 ^ c.length
      · have : pos = 2 ^ c.length - 1 := by omega
        subst this
        rw [hlast, hl, Nat.mod_self]
        simp [maskSubset, maskIndices_zero]
      · have := hfront (pos + 1) (by omega) (by omega)
        rw [Nat.mod_eq_of_lt (by omega)]
        simpa using this
    · intro p
      obtain ⟨k, hk, hbits⟩ := mask_exists c.length p
      have hposOf : ∀ q, q < 2 ^ c.length → (q + 1) % 2 ^ c.length < 2 ^ c.length :=
        fun q _ => Nat.mod_lt _ (by omega)
      by_cases hk0 : k = 0
      · refine ⟨2 ^ c.length - 1, ⟨by omega, ?_⟩, ?_⟩
        · have : 2 ^ c.length - 1 + 1 = 2 ^ c.length := by omega
          rw [this, Nat.mod_self, maskIndices_eq_iff]
          intro i hi
          rw [← hbits i hi, hk0]
        · rintro q ⟨hq, hq2⟩
          rw [maskIndices_eq_iff] at hq2
          have := mask_unique c.length _ k (hposOf q hq) hk
            (fun i hi => by rw [hq2 i hi, hbits i hi])
          rw [hk0] at this
          by_contra hne
          rw [Nat.mod_eq_of_lt (by omega)] at this
          omega
      · refine ⟨k - 1, ⟨by omega, ?_⟩, ?_⟩
        · have : k - 1 + 1 = k := by omega
          rw [this, Nat.mod_eq_of_lt hk, maskIndices_eq_iff]
          exact hbits
        · rintro q ⟨hq, hq2⟩
          rw [maskIndices_eq_iff] at hq2
          have := mask_unique c.length _ k (hposOf q hq) hk
            (fun i hi => by rw [hq2 i hi, hbits i hi])
          by_cases hl : q + 1 = 2 ^ c.length
          · rw [hl, Nat.mod_self] at this
            omega
          · rw [Nat.mod_eq_of_lt (by omega)] at this
            omega
  · intro hc
    unfold Cube.GroupBy
    simp only
    have hb := wrapInt_two_pow_large c.length hc
    have hfuel : (wrapInt (2 ^ c.length) - 1).toNat = 0 := by omega
    rw [hfuel]
    rfl

/-- C9 at three columns. -/
theorem Cube_GroupBy_subsets_witness :
    (3 ≤ 62) ∧ ∃ sets, Cube.GroupBy ["a", "b", "c"] = .ok sets ∧ sets.length = 2 ^ 3 :=
  ⟨by decide,
   match (Cube_GroupBy_subsets ["a", "b", "c"]).1 (by decide) with
   | ⟨sets, h1, h2, _⟩ => ⟨sets, h1, h2⟩⟩

/-- C10: on the empty table with the column `c` (what `Where` leaves of a
table when no row matches), `GroupBy(Ident(c))` gives no key row and no
bucket, `Select` with its single spec then takes the key table itself for a
bucket, `CountAll` returns one count for it, and storing that count in the
first of zero output rows panics; on a table with rows the counts are
returned. -/
theorem countByGroup_empty_table :
    Table.Where { Columns := ["c"], Data := [[.num 1]] }
        (Equals (Ident.Variable "c") (Literal.Variable (.num 2))) =
      { Columns := ["c"], Data := [] } ∧
    Table.GroupBy { Columns := ["c"], Data := [] } [Ident.GroupBy "c"] =
      .ok { Source := { Columns := ["c"], Data := [] }, Grouped := [] } ∧
    countByGroup { Columns := ["c"], Data := [] } (Ident.GroupBy "c") =
      .error .indexOutOfRange ∧
    countByGroup { Columns := ["c"], Data := [[.num 1], [.num 2], [.num 1]] }
        (Ident.GroupBy "c") =
      .ok { Source := { Columns := ["c"], Data := [[.num 1], [.num 2]] }
            Grouped := [{ Columns := ["c"], Data := [[.num 1], [.num 1]] },
                        { Columns := ["c"], Data := [[.num 2]] }]
            Selected := { Columns := ["count"], Data := [[.num 2], [.num 1]] } } := by
  decide

/-- The first rows of a list that starts with `d`. -/
theorem firstRows_cons (key : Row → String) (d : Row) (ds : List Row) :
    firstRows key (d :: ds) =
      d :: (firstRows key ds).filter fun e => decide (key e ≠ key d) := rfl

/-- The first rows are rows of the list. -/
theorem firstRows_subset (key : Row → String) (l : List Row) :
    ∀ f ∈ firstRows key l, f ∈ l := by
  induction l with
  | nil => intro f hf; exact hf
  | cons d ds ih =>
    intro f hf
    simp only [firstRows, List.mem_cons, List.mem_filter] at hf
    rcases hf with rfl | ⟨hf, -⟩
    · exact List.mem_cons_self _ _
    · exact List.mem_cons_of_mem _ (ih f hf)

/-- Every row of the list shares its key with one of the first rows. -/
theorem firstRows_covers (key : Row → String) (l : List Row) :
    ∀ e ∈ l, ∃ f ∈ firstRows key l, key f = key e := by
  induction l with
  | nil => intro e he; cases he
  | cons d ds ih =>
    intro e he
    by_cases hk : key e = key d
    · exact ⟨d, by simp [firstRows], hk.symm⟩
    · rcases List.mem_cons.1 he with rfl | he'
      · exact absurd rfl hk
      · obtain ⟨f, hf, hfk⟩ := ih e he'
        refine ⟨f, ?_, hfk⟩
        simp only [firstRows, List.mem_cons, List.mem_filter]
        right
        exact ⟨hf, by simp [hfk, hk]⟩

/-- The keys of the first rows are pairwise distinct. -/
theorem firstRows_nodup (key : Row → String) (l : List Row) :
    ((firstRows key l).map key).Nodup := by
  induction l with
  | nil => exact List.nodup_nil
  | cons d ds ih =>
    simp only [firstRows, List.map_cons, List.nodup_cons]
    constructor
    · intro hmem
      obtain ⟨f, hf, hfk⟩ := List.mem_map.1 hmem
      have := (List.mem_filter.1 hf).2
      simp [hfk] at this
    · exact (ih.sublist ((List.filter_sublist _).map key))

/-- A row with a new key is one more first row. -/
theorem firstRows_append_new (key : Row → String) (d : Row) :
    ∀ pre : List Row, (∀ e ∈ pre, key e ≠ key d) →
      firstRows key (pre ++ [d]) = firstRows key pre ++ [d] := by
  intro pre
  induction pre with
  | nil => intro _; rfl
  | cons x xs ih =>
    intro h
    have hx : key x ≠ key d := h x (List.mem_cons_self _ _)
    rw [List.cons_append, firstRows_cons, firstRows_cons]
    rw [ih (fun e he => h e (List.mem_cons_of_mem _ he)), List.filter_append]
    simp [List.filter_cons, Ne.symm hx]

/-- A row with a key already met leaves the first rows as they are. -/
theorem firstRows_append_old (key : Row → String) (d : Row) :
    ∀ pre : List Row, (∃ e ∈ pre, key e = key d) →
      firstRows key (pre ++ [d]) = firstRows key pre := by
  intro pre
  induction pre with
  | nil => rintro ⟨e, he, -⟩; cases he
  | cons x xs ih =>
    intro h
    rw [List.cons_append, firstRows_cons, firstRows_cons]
    congr 1
    by_cases hxs : ∃ e ∈ xs, key e = key d
    · rw [ih hxs]
    · have hnew : ∀ e ∈ xs, key e ≠ key d := fun e he hk => hxs ⟨e, he, hk⟩
      have hx : key x = key d := by
        obtain ⟨e, he, hk⟩ := h
        rcases List.mem_cons.1 he with rfl | he'
        · exact hk
        · exact absurd hk (hnew e he')
      rw [firstRows_append_new key d xs hnew, List.filter_append]
      simp [List.filter_cons, hx]

/-- A write at the position of `f` in a list with pairwise distinct keys changes
the image of the elements with the key of `f`. -/
theorem set_map_of_nodup {α β : Type} (key : α → String) (g : α → β) (v : β) :
    ∀ (F : List α) (p : Nat) (f : α), F[p]? = some f → (F.map key).Nodup →
      (F.map g).set p v = F.map fun x => if key x = key f then v else g x := by
  intro F
  induction F with
  | nil => intro p f h; simp at h
  | cons x xs ih =>
    intro p f h hnd
    simp only [List.map_cons, List.nodup_cons] at hnd
    cases p with
    | zero =>
      simp only [List.getElem?_cons_zero, Option.some.injEq] at h
      subst h
      simp only [List.map_cons, List.set_cons_zero, if_true]
      congr 1
      apply List.map_congr_left
      intro y hy
      have : key y ≠ key x := fun hk => hnd.1 (hk ▸ List.mem_map_of_mem key hy)
      rw [if_neg this]
    | succ q =>
      simp only [List.getElem?_cons_succ] at h
      have hf : f ∈ xs := by
        obtain ⟨hq, rfl⟩ := List.getElem?_eq_some.1 h
        exact List.getElem_mem _
      have : key x ≠ key f := fun hk => hnd.1 (hk ▸ List.mem_map_of_mem key hf)
      simp only [List.map_cons, List.set_cons_succ, if_neg this]
      rw [ih q f h hnd.2]



/-- An identifier that matches one source column reads the row at that
position. -/
theorem Ident_Variable_unique (c : String) (columns : List String) (d : Row)
    (h : (matching c columns).length = 1) :
    Ident.Variable c { Source := { Columns := columns, Values := d } } =
      .ok (readValue d (((matching c columns).headD 0 : Nat) : Int)) := by
  unfold matching at h ⊢
  unfold Ident.Variable
  simp only
  rw [identScan_spec]
  match hM : matchPositions c columns 0, h with
  | [j], _ =>
    have hj : ¬ ((j : Nat) : Int) < 0 := by omega
    simp only [ne_eq, not_true_eq_false, if_false, hj, List.headD_cons]

/-- The key loop of `groupByColumns` appends the key tuple of the row. -/
theorem uniqueLoop_spec (t : Table) (d : Row) :
    ∀ (cols : List String) (unique : Row),
      (∀ c ∈ cols, (matching c t.Columns).length = 1) →
      uniqueLoop t d cols unique = .ok (unique ++ keyRow t cols d) := by
  intro cols
  induction cols with
  | nil => intro unique _; simp [uniqueLoop, keyRow]
  | cons c cs ih =>
    intro unique h
    unfold uniqueLoop
    rw [Ident_Variable_unique c t.Columns d (h c (List.mem_cons_self _ _))]
    simp only
    rw [ih _ (fun c' hc' => h c' (List.mem_cons_of_mem _ hc'))]
    simp [keyRow]

/-- A row joins the bucket of its key. -/
theorem bucketOf_append_same (t : Table) (cols : List String) (pre : List Row) (d f : Row)
    (h : keyText t cols f = keyText t cols d) :
    bucketOf t cols (pre ++ [d]) f =
      { bucketOf t cols pre f with Data := (bucketOf t cols pre f).Data ++ [d] } := by
  simp [bucketOf, List.filter_append, List.filter_cons, h]

/-- A row leaves the buckets of the other keys as they are. -/
theorem bucketOf_append_other (t : Table) (cols : List String) (pre : List Row) (d f : Row)
    (h : keyText t cols f ≠ keyText t cols d) :
    bucketOf t cols (pre ++ [d]) f = bucketOf t cols pre f := by
  simp [bucketOf, List.filter_append, List.filter_cons, Ne.symm h]

/-- The bucket of a row with a new key holds that row alone. -/
theorem bucketOf_new (t : Table) (cols : List String) (pre : List Row) (d : Row)
    (h : ∀ e ∈ pre, keyText t cols e ≠ keyText t cols d) :
    bucketOf t cols (pre ++ [d]) d = { Columns := t.Columns, Data := [d] } := by
  have : pre.filter (fun e => decide (keyText t cols e = keyText t cols d)) = [] := by
    rw [List.filter_eq_nil_iff]
    intro e he
    simp [h e he]
  simp [bucketOf, List.filter_append, List.filter_cons, this]

/-- The row loop of `groupByColumns` turns the grouping of the rows it has
passed into the grouping of all the rows, the map sending each key text to
the position of its key row. -/
theorem groupLoop_spec (t : Table) (cols : List String)
    (hres : ∀ c ∈ cols, (matching c t.Columns).length = 1) :
    ∀ (rest pre : List Row) (m : List (String × Nat)),
      (∀ b, m.lookup b = none → ∀ f ∈ firstRows (keyText t cols) pre, keyText t cols f ≠ b) →
      (∀ b p, m.lookup b = some p →
        ∃ f, (firstRows (keyText t cols) pre)[p]? = some f ∧ keyText t cols f = b) →
      groupLoop t cols rest (groupedOf t cols pre) m = groupedOf t cols (pre ++ rest) := by
  intro rest
  induction rest with
  | nil => intro pre m _ _; simp [groupLoop]
  | cons d ds ih =>
    intro pre m hnone hsome
    unfold groupLoop
    rw [uniqueLoop_spec t d cols [] hres]
    simp only [List.nil_append]
    have hb : marshalRow (keyRow t cols d) = keyText t cols d := rfl
    rw [hb]
    have happ : pre ++ d :: ds = (pre ++ [d]) ++ ds := by simp
    cases hl : m.lookup (keyText t cols d) with
    | none =>
      simp only
      have hnew : ∀ e ∈ pre, keyText t cols e ≠ keyText t cols d := by
        intro e he hk
        obtain ⟨f, hf, hfk⟩ := firstRows_covers (keyText t cols) pre e he
        exact hnone _ hl f hf (hfk.trans hk)
      have hF := firstRows_append_new (keyText t cols) d pre hnew
      have hout : ({ groupedOf t cols pre with
            Source := { (groupedOf t cols pre).Source with
              Data := (groupedOf t cols pre).Source.Data ++ [keyRow t cols d] }
            Grouped := (groupedOf t cols pre).Grouped ++
              [{ Columns := t.Columns, Data := [d] }] } : GroupedTable) =
          groupedOf t cols (pre ++ [d]) := by
        simp only [groupedOf, hF, List.map_append, List.map_cons, List.map_nil]
        rw [bucketOf_new t cols pre d hnew]
        congr 2
        apply List.map_congr_left
        intro f hf
        have hfk : keyText t cols f ≠ keyText t cols d :=
          hnew f (firstRows_subset _ _ f hf)
        rw [bucketOf_append_other t cols pre d f hfk]
      rw [hout, happ]
      have hlen : (groupedOf t cols pre).Source.Data.length =
          (firstRows (keyText t cols) pre).length := by simp [groupedOf]
      apply ih
      · intro b hbn f hf
        rw [List.lookup_cons] at hbn
        by_cases hbk : b = keyText t cols d
        · subst hbk
          simp at hbn
        · have hbeq : (b == keyText t cols d) = false := by simpa using hbk
          rw [hbeq] at hbn
          rw [hF] at hf
          rcases List.mem_append.1 hf with hf' | hf'
          · exact hnone b hbn f hf'
          · simp only [List.mem_singleton] at hf'
            subst hf'
            exact fun hk => hbk hk.symm
      · intro b p hbs
        rw [List.lookup_cons] at hbs
        by_cases hbk : b = keyText t cols d
        · subst hbk
          simp only [beq_self_eq_true, Option.some.injEq] at hbs
          refine ⟨d, ?_, rfl⟩
          rw [hF, ← hbs, hlen]
          simp
        · have hbeq : (b == keyText t cols d) = false := by simpa using hbk
          rw [hbeq] at hbs
          obtain ⟨f, hf, hfk⟩ := hsome b p hbs
          refine ⟨f, ?_, hfk⟩
          rw [hF]
          have hp : p < (firstRows (keyText t cols) pre).length := by
            obtain ⟨hp, -⟩ := List.getElem?_eq_some.1 hf
            exact hp
          rw [List.getElem?_append_left hp]
          exact hf
    | some p =>
      simp only
      obtain ⟨f, hf, hfk⟩ := hsome _ p hl
      have hfmem : f ∈ firstRows (keyText t cols) pre := by
        obtain ⟨hp, rfl⟩ := List.getElem?_eq_some.1 hf
        exact List.getElem_mem _
      have hF := firstRows_append_old (keyText t cols) d pre
        ⟨f, firstRows_subset _ _ f hfmem, hfk⟩
      have hidx : index ((firstRows (keyText t cols) pre).map (bucketOf t cols pre)) p =
          bucketOf t cols pre f := by
        unfold index
        obtain ⟨hp, hpf⟩ := List.getElem?_eq_some.1 hf
        rw [List.getD_eq_getElem _ _ (by simpa using hp)]
        simp [hpf]
      have hout : ({ groupedOf t cols pre with
            Grouped := appendToBucket (groupedOf t cols pre).Grouped p d } : GroupedTable) =
          groupedOf t cols (pre ++ [d]) := by
        simp only [groupedOf, hF, appendToBucket]
        rw [hidx]
        rw [set_map_of_nodup (keyText t cols) (bucketOf t cols pre) _ _ p f hf
          (firstRows_nodup _ _)]
        congr 1
        apply List.map_congr_left
        intro x _
        by_cases hx : keyText t cols x = keyText t cols f
        · rw [if_pos hx, bucketOf_append_same t cols pre d x (hx.trans hfk)]
          simp [bucketOf, hx]
        · rw [if_neg hx, bucketOf_append_other t cols pre d x (fun h => hx (h.trans hfk.symm))]
      rw [hout, happ]
      apply ih
      · intro b hbn g hg
        rw [hF] at hg
        exact hnone b hbn g hg
      · intro b q hbs
        rw [hF]
        exact hsome b q hbs

/-- Among pairwise distinct keys, a key is met once or not at all. -/
theorem indicator_sum (key : Row → String) (k : String) :
    ∀ F : List Row, (F.map key).Nodup →
      (F.map fun f => if key f = k then 1 else 0).sum = if k ∈ F.map key then 1 else 0 := by
  intro F
  induction F with
  | nil => intro _; simp
  | cons x xs ih =>
    intro hnd
    simp only [List.map_cons, List.nodup_cons] at hnd
    simp only [List.map_cons, List.sum_cons, List.mem_cons]
    rw [ih hnd.2]
    by_cases hx : key x = k
    · subst hx
      simp [hnd.1]
    · have : ¬ k = key x := fun h => hx h.symm
      simp [hx, this]

/-- The sizes of the buckets add up to the number of rows. -/
theorem bucket_sizes_sum (t : Table) (cols : List String) (rows : List Row) :
    ((firstRows (keyText t cols) rows).map fun f =>
      (bucketOf t cols rows f).Data.length).sum = rows.length := by
  induction rows using List.reverseRecOn with
  | nil => simp [firstRows]
  | append_singleton pre d ih =>
    by_cases hex : ∃ e ∈ pre, keyText t cols e = keyText t cols d
    · rw [firstRows_append_old _ d pre hex]
      have hpt : ∀ f, (bucketOf t cols (pre ++ [d]) f).Data.length =
          (bucketOf t cols pre f).Data.length +
            (if keyText t cols f = keyText t cols d then 1 else 0) := by
        intro f
        by_cases hf : keyText t cols f = keyText t cols d
        · rw [bucketOf_append_same t cols pre d f hf]
          simp [hf]
        · rw [bucketOf_append_other t cols pre d f hf]
          simp [hf]
      simp only [hpt, List.sum_map_add, ih]
      rw [indicator_sum _ _ _ (firstRows_nodup _ _)]
      obtain ⟨e, he, hek⟩ := hex
      obtain ⟨f, hf, hfk⟩ := firstRows_covers (keyText t cols) pre e he
      have : keyText t cols d ∈ (firstRows (keyText t cols) pre).map (keyText t cols) :=
        List.mem_map.2 ⟨f, hf, hfk.trans hek⟩
      simp [this]
    · have hnew : ∀ e ∈ pre, keyText t cols e ≠ keyText t cols d :=
        fun e he hk => hex ⟨e, he, hk⟩
      rw [firstRows_append_new _ d pre hnew]
      simp only [List.map_append, List.map_cons, List.map_nil, List.sum_append, List.sum_cons,
        List.sum_nil]
      rw [bucketOf_new t cols pre d hnew]
      have : ((firstRows (keyText t cols) pre).map fun f =>
          (bucketOf t cols (pre ++ [d]) f).Data.length) =
          (firstRows (keyText t cols) pre).map fun f =>
            (bucketOf t cols pre f).Data.length := by
        apply List.map_congr_left
        intro f hf
        rw [bucketOf_append_other t cols pre d f (hnew f (firstRows_subset _ _ f hf))]
      rw [this, ih]
      simp

/-- Grouping by a non-empty list of columns, each of which resolves to one
column of the table, partitions the rows: the key rows are the key tuples of
the rows that are the first with their key text, in that order, so their
texts are pairwise distinct; bucket `i` has the full columns and holds
exactly the rows whose key text is that of key row `i`, in their order;
every row is in a bucket and the sizes of the buckets add up to the number of
rows, as do the values `CountAll.Select` reads off the grouping. -/
theorem groupByColumns_partition (t : Table) (cols : List String) (hcols : cols ≠ [])
    (hres : ∀ c ∈ cols, (matching c t.Columns).length = 1) :
    groupByColumns t cols = groupedOf t cols t.Data ∧
    ((groupedOf t cols t.Data).Source.Data.map marshalRow).Nodup ∧
    (groupedOf t cols t.Data).Grouped.length = (groupedOf t cols t.Data).Source.Data.length ∧
    (∀ (i : Nat) (u : Row), (groupedOf t cols t.Data).Source.Data[i]? = some u →
      (groupedOf t cols t.Data).Grouped[i]? = some
        ({ Columns := t.Columns
           Data := t.Data.filter fun e => decide (keyText t cols e = marshalRow u) } : Table)) ∧
    (∀ d ∈ t.Data, ∃ u ∈ (groupedOf t cols t.Data).Source.Data,
      marshalRow u = keyText t cols d) ∧
    ((groupedOf t cols t.Data).Grouped.map fun g => g.Data.length).sum = t.Data.length ∧
    CountAll.Select { Source := (groupedOf t cols t.Data).Source,
                      Grouped := (groupedOf t cols t.Data).Grouped } =
      .ok ("count", (groupedOf t cols t.Data).Grouped.map fun g => Value.num g.Data.length) := by
  refine ⟨?_, ?_, ?_, ?_, ?_, ?_, rfl⟩
  · unfold groupByColumns
    have hlen : ¬ cols.length = 0 := fun h => hcols (List.length_eq_zero.1 h)
    rw [if_neg hlen]
    have := groupLoop_spec t cols hres t.Data [] []
      (by intro b _ f hf; cases hf) (by intro b p h; simp at h)
    simpa [groupedOf, firstRows] using this
  · have := firstRows_nodup (keyText t cols) t.Data
    simpa [groupedOf, keyText, List.map_map, Function.comp_def] using this
  · simp [groupedOf]
  · intro i u hu
    simp only [groupedOf, List.getElem?_map] at hu ⊢
    cases hf : (firstRows (keyText t cols) t.Data)[i]? with
    | none => simp [hf] at hu
    | some f =>
      simp only [hf, Option.map_some', Option.some.injEq] at hu ⊢
      subst hu
      rfl
  · intro d hd
    obtain ⟨f, hf, hfk⟩ := firstRows_covers (keyText t cols) t.Data d hd
    exact ⟨keyRow t cols f, by simp only [groupedOf]; exact List.mem_map_of_mem _ hf, hfk⟩
  · have := bucket_sizes_sum t cols t.Data
    simpa [groupedOf, List.map_map, Function.comp_def] using this

/-- The character of a digit below ten is a decimal digit. -/
theorem digitChar_digit (n : Nat) (h : n < 10) :
    48 ≤ (Nat.digitChar n).toNat ∧ (Nat.digitChar n).toNat ≤ 57 := by
  interval_cases n <;> decide

/-- The digits of a number start with a decimal digit. -/
theorem toDigitsCore_digit (fuel : Nat) :
    ∀ (n : Nat) (ds : List Char), startsWithDigit ds ∨ 1 ≤ fuel →
      startsWithDigit (Nat.toDigitsCore 10 fuel n ds) := by
  induction fuel with
  | zero =>
    intro n ds h
    rcases h with h | h
    · exact h
    · omega
  | succ fuel ih =>
    intro n ds _
    have hd : startsWithDigit (Nat.digitChar (n % 10) :: ds) :=
      ⟨_, _, rfl, digitChar_digit _ (Nat.mod_lt _ (by decide))⟩
    unfold Nat.toDigitsCore
    simp only
    split
    · exact hd
    · exact ih _ _ (Or.inl hd)

/-- The numeral of a natural number starts with a decimal digit. -/
theorem repr_digit (n : Nat) : startsWithDigit (Nat.repr n).data := by
  unfold Nat.repr Nat.toDigits
  exact toDigitsCore_digit _ _ _ (Or.inr (by omega))

/-- The canonical text of a number starts with a digit or with the minus
sign. -/
theorem marshal_num_head (n : Int) :
    ∃ c rest, (marshal (.num n)).data = c :: rest ∧
      ((48 ≤ c.toNat ∧ c.toNat ≤ 57) ∨ c.toNat = 45) := by
  cases n with
  | ofNat m =>
    obtain ⟨c, rest, h1, h2⟩ := repr_digit m
    exact ⟨c, rest, h1, Or.inl h2⟩
  | negSucc m =>
    refine ⟨Char.ofNat 45, (Nat.repr (m + 1)).data, ?_, Or.inr (by decide)⟩
    show ("-" ++ Nat.repr (Nat.succ m)).data = _
    rw [String.data_append]
    rfl

/-- The type gjson reads off the canonical text of a value. -/
theorem gjsonType_marshal (v : Value) : gjsonType (marshal v) = valueType v := by
  cases v with
  | null => decide
  | bool b => cases b <;> decide
  | num n =>
    obtain ⟨c, rest, h1, h2⟩ := marshal_num_head n
    unfold gjsonType valueType
    rw [h1]
    simp only
    rcases h2 with ⟨h3, h4⟩ | h3
    · rw [if_neg (by omega), if_neg (by omega), if_neg (by omega), if_neg (by omega),
        if_neg (by omega)]
    · rw [if_neg (by omega), if_neg (by omega), if_neg (by omega), if_neg (by omega),
        if_neg (by omega)]
  | str s =>
    unfold gjsonType valueType marshal quote
    simp only [String.data_append]
    rfl
  | arr vs =>
    unfold gjsonType valueType marshal
    simp only [String.data_append]
    rfl
  | obj kvs =>
    unfold gjsonType valueType marshal
    simp only [String.data_append]
    rfl
  | literal w =>
    unfold gjsonType valueType marshal
    simp only [String.data_append]
    rfl

/-- The canonical text is `null` for the null value only. -/
theorem marshal_eq_null_iff (v : Value) : marshal v = null ↔ v = Value.null := by
  constructor
  · intro h
    have ht : valueType v = .Null := by
      rw [← gjsonType_marshal, h]
      decide
    cases v with
    | null => rfl
    | bool b => cases b <;> simp [valueType] at ht
    | num n => simp [valueType] at ht
    | str s => simp [valueType] at ht
    | arr vs => simp [valueType] at ht
    | obj kvs => simp [valueType] at ht
    | literal w => simp [valueType] at ht
  · rintro rfl
    rfl

/-- The type gjson gives the parse of a value. -/
theorem gjsonParse_type (v : Value) : (gjsonParse v).type = valueType v :=
  gjsonType_marshal v

/-- On two values of the same type the order of gjson is the order within the
type. -/
theorem Less_same_type (a b : Value) (h : valueType a = valueType b) :
    (gjsonParse a).Less (gjsonParse b) = valueLess a b := by
  unfold Result.Less
  rw [gjsonParse_type, gjsonParse_type, h]
  simp only [lt_self_iff_false, if_false, gt_iff_lt]
  rcases a with _ | ⟨_ | _⟩ | n | s | vs | kvs | w <;>
    rcases b with _ | ⟨_ | _⟩ | m | t | ws | kws | w' <;>
    simp [valueType] at h <;>
    simp [valueType, valueLess, gjsonParse]

/-- No value is less than itself. -/
theorem valueLess_irrefl (a : Value) : valueLess a a = false := by
  cases a <;> simp [valueLess]

/-- C16: for operands that evaluate without error, `Less` and `Greater` both
return false without error when either value is null; when both are non-null
and of different types (as a boolean, a number and a string are of each
other), `Less` fails with the type-mismatch error and `Greater` returns false
without error.  So `Less[null, 1]` is false and `Less["a", 1]` is a
type-mismatch error. -/
theorem Less_Greater_null_and_types (e0 e1 : Variable) (record : GroupedRecord)
    (v0 v1 : Value)
    (h0 : e0 { Source := record.Source, Grouped := record.Grouped } = .ok v0)
    (h1 : e1 { Source := record.Source, Grouped := record.Grouped } = .ok v1) :
    ((v0 = Value.null ∨ v1 = Value.null) →
      Less e0 e1 record = .ok false ∧ Greater e0 e1 record = .ok false) ∧
    (v0 ≠ Value.null → v1 ≠ Value.null → valueType v0 ≠ valueType v1 →
      Less e0 e1 record = .error (.cannotCompare (valueType v0) (valueType v1)) ∧
      Greater e0 e1 record = .ok false) ∧
    (∀ (b : Bool) (n : Int) (s : String),
      valueType (.bool b) ≠ valueType (.num n) ∧ valueType (.bool b) ≠ valueType (.str s) ∧
      valueType (.num n) ≠ valueType (.str s)) ∧
    Less (Literal.Variable .null) (Literal.Variable (.num 1)) record = .ok false ∧
    Less (Literal.Variable (.str "a")) (Literal.Variable (.num 1)) record =
      .error (.cannotCompare .String .Number) := by
  refine ⟨?_, ?_, ?_, rfl, rfl⟩
  · intro hnull
    have hor : marshal v0 = null ∨ marshal v1 = null := by
      rcases hnull with h | h
      · exact Or.inl ((marshal_eq_null_iff v0).2 h)
      · exact Or.inr ((marshal_eq_null_iff v1).2 h)
    unfold Less Greater
    simp only [h0, h1, if_pos hor, and_self]
  · intro hn0 hn1 ht
    have hor : ¬ (marshal v0 = null ∨ marshal v1 = null) := by
      rintro (h | h)
      · exact hn0 ((marshal_eq_null_iff v0).1 h)
      · exact hn1 ((marshal_eq_null_iff v1).1 h)
    unfold Less Greater
    simp only [h0, h1, if_neg hor, gjsonParse_type, ne_eq, ht, not_false_eq_true, if_true,
      and_self]
  · intro b n s
    cases b <;> simp [valueType]

/-- C16 at the operands `"a"` and `1`. -/
theorem Less_Greater_null_and_types_witness :
    Less (Literal.Variable (.str "a")) (Literal.Variable (.num 1)) {} =
        .error (.cannotCompare .String .Number) ∧
      Greater (Literal.Variable (.str "a")) (Literal.Variable (.num 1)) {} = .ok false :=
  (Less_Greater_null_and_types (Literal.Variable (.str "a")) (Literal.Variable (.num 1)) {}
    (.str "a") (.num 1) rfl rfl).2.1 (by decide) (by decide) (by decide)

/-- C17, as stated, fails: `Less[Literal(false), Literal(true)]` does not
evaluate to true, and `Less[Literal(true), Literal(false)]` does not evaluate
to false. -/
theorem Less_booleans_not_ordered :
    Less (Literal.Variable (.bool false)) (Literal.Variable (.bool true)) {} ≠ .ok true ∧
    Less (Literal.Variable (.bool true)) (Literal.Variable (.bool false)) {} ≠ .ok false := by
  decide

/-- C17, amended: the two booleans are of different types (`False` and
`True`), so on every record `Less[Literal(false), Literal(true)]` and
`Less[Literal(true), Literal(false)]` fail with the type-mismatch error, as
every comparison across types does; `Less` on two equal booleans is false
without error. -/
theorem Less_booleans_type_mismatch (record : GroupedRecord) :
    Less (Literal.Variable (.bool false)) (Literal.Variable (.bool true)) record =
      .error (.cannotCompare .False .True) ∧
    Less (Literal.Variable (.bool true)) (Literal.Variable (.bool false)) record =
      .error (.cannotCompare .True .False) ∧
    Less (Literal.Variable (.bool false)) (Literal.Variable (.bool false)) record = .ok false ∧
    Less (Literal.Variable (.bool true)) (Literal.Variable (.bool true)) record = .ok false :=
  ⟨rfl, rfl, rfl, rfl⟩

/-- The `float64` nearest to an integer of size up to `2^53` is the
integer. -/
theorem float64_exact (n : Int) (h : n.natAbs ≤ 2 ^ 53) : float64 n = n := by
  by_cases hlt : n.natAbs < 2 ^ 53
  · unfold float64 float64Nat
    rw [if_pos hlt]
    omega
  · have he : n.natAbs = 2 ^ 53 := by omega
    have hf : float64Nat (2 ^ 53) = 2 ^ 53 := by decide
    unfold float64
    rw [he, hf]
    omega

/-- C18, as stated, fails twice.  The booleans `false` and `true` are not
compared: `Asc` on them fails with the type-mismatch error.  And the number
`2^53` is less than `2^53 + 1`, yet `Asc` returns `+1` on them, in this order
as in the other: gjson compares the two as the same `float64`. -/
theorem Asc_OrderBy_not_by_value :
    Ident.Variable "v" (valueRecord (.bool false)) = .ok (.bool false) ∧
    Ident.Variable "v" (valueRecord (.bool true)) = .ok (.bool true) ∧
    Asc.OrderBy (Ident.Variable "v") false (valueRecord (.bool false))
        (valueRecord (.bool true)) = .error (.cannotCompare .False .True) ∧
    Ident.Variable "v" (valueRecord (.num 9007199254740992)) = .ok (.num 9007199254740992) ∧
    Ident.Variable "v" (valueRecord (.num 9007199254740993)) = .ok (.num 9007199254740993) ∧
    (9007199254740992 : Int) = 2 ^ 53 ∧
    (9007199254740992 : Int) < 9007199254740993 ∧
    Asc.OrderBy (Ident.Variable "v") false (valueRecord (.num 9007199254740992))
        (valueRecord (.num 9007199254740993)) = .ok 1 ∧
    Asc.OrderBy (Ident.Variable "v") false (valueRecord (.num 9007199254740993))
        (valueRecord (.num 9007199254740992)) = .ok 1 := by
  decide

/-- C18, amended: for an expression that evaluates without error on the
records `i` and `j`, `Asc{expr, nullsLast}.OrderBy(i, j)` returns 0 when both
values are null; +1 if `nullsLast` else -1 when only the value of `i` is
null; -1 if `nullsLast` else +1 when only the value of `j` is null.  For two
non-null values of the same gjson type it returns -1 when the value of `i` is
less than that of `j` in the order of gjson and +1 otherwise, so that two
equal non-null values compare as +1 in both argument orders; for two non-null
values of different gjson types it fails with the type-mismatch error.  The
gjson types are null, false, number, string, true and JSON: `false` and
`true` are of different types.  The order of gjson takes two numbers as the
`float64` nearest to each, which is the number itself up to `2^53` in size,
and two strings character by character. -/
theorem Asc_OrderBy_cases (expr : Variable) (nullsLast : Bool) (i j : SelectedRecord)
    (vi vj : Value) (hi : expr i = .ok vi) (hj : expr j = .ok vj) :
    (vi = Value.null → vj = Value.null → Asc.OrderBy expr nullsLast i j = .ok 0) ∧
    (vi = Value.null → vj ≠ Value.null →
      Asc.OrderBy expr nullsLast i j = .ok (if nullsLast then 1 else -1)) ∧
    (vi ≠ Value.null → vj = Value.null →
      Asc.OrderBy expr nullsLast i j = .ok (if nullsLast then -1 else 1)) ∧
    (vi ≠ Value.null → vj ≠ Value.null → valueType vi = valueType vj →
      Asc.OrderBy expr nullsLast i j = .ok (if valueLess vi vj then -1 else 1)) ∧
    (vi ≠ Value.null → vj ≠ Value.null → valueType vi ≠ valueType vj →
      Asc.OrderBy expr nullsLast i j =
        .error (.cannotCompare (valueType vi) (valueType vj))) ∧
    (vi ≠ Value.null → vi = vj →
      Asc.OrderBy expr nullsLast i j = .ok 1 ∧ Asc.OrderBy expr nullsLast j i = .ok 1) ∧
    valueType (.bool false) ≠ valueType (.bool true) ∧
    (∀ n m : Int, valueType (.num n) = valueType (.num m) ∧
      valueLess (.num n) (.num m) = decide (float64 n < float64 m)) ∧
    (∀ n m : Int, n.natAbs ≤ 2 ^ 53 → m.natAbs ≤ 2 ^ 53 →
      valueLess (.num n) (.num m) = decide (n < m)) ∧
    (∀ s t : String, valueType (.str s) = valueType (.str t) ∧
      valueLess (.str s) (.str t) = decide (s.data < t.data)) := by
  have hsame : vi ≠ Value.null → vj ≠ Value.null → valueType vi = valueType vj →
      Asc.OrderBy expr nullsLast i j = .ok (if valueLess vi vj then -1 else 1) := by
    intro hni hnj ht
    unfold Asc.OrderBy
    simp only [hi, hj, if_neg (fun h => hni ((marshal_eq_null_iff vi).1 h)),
      if_neg (fun h => hnj ((marshal_eq_null_iff vj).1 h)), gjsonParse_type, ne_eq, ht,
      not_true_eq_false, if_false, Less_same_type vi vj ht]
    cases valueLess vi vj <;> rfl
  refine ⟨?_, ?_, ?_, hsame, ?_, ?_, by decide, fun _ _ => ⟨rfl, rfl⟩, ?_,
    fun _ _ => ⟨rfl, rfl⟩⟩
  · intro hni hnj
    unfold Asc.OrderBy
    simp only [hi, hj, if_pos ((marshal_eq_null_iff vi).2 hni),
      if_pos ((marshal_eq_null_iff vj).2 hnj)]
  · intro hni hnj
    unfold Asc.OrderBy
    simp only [hi, hj, if_pos ((marshal_eq_null_iff vi).2 hni),
      if_neg (fun h => hnj ((marshal_eq_null_iff vj).1 h))]
    cases nullsLast <;> rfl
  · intro hni hnj
    unfold Asc.OrderBy
    simp only [hi, hj, if_neg (fun h => hni ((marshal_eq_null_iff vi).1 h)),
      if_pos ((marshal_eq_null_iff vj).2 hnj)]
    cases nullsLast <;> rfl
  · intro hni hnj ht
    unfold Asc.OrderBy
    simp only [hi, hj, if_neg (fun h => hni ((marshal_eq_null_iff vi).1 h)),
      if_neg (fun h => hnj ((marshal_eq_null_iff vj).1 h)), gjsonParse_type, ne_eq, ht,
      not_false_eq_true, if_true]
  · intro hni heq
    subst heq
    have h1 := hsame hni hni rfl
    rw [valueLess_irrefl] at h1
    refine ⟨h1, ?_⟩
    have h2 : Asc.OrderBy expr nullsLast j i = Asc.OrderBy expr nullsLast i j := by
      unfold Asc.OrderBy
      simp only [hi, hj]
    rw [h2]
    exact h1
  · intro n m hn hm
    show decide (float64 n < float64 m) = decide (n < m)
    rw [float64_exact n hn, float64_exact m hm]

/-- C18 at the names `Alex` and `Max` of two records. -/
theorem Asc_OrderBy_cases_witness :
    Asc.OrderBy (Ident.Variable "name") false
        { Source := { Columns := ["name"], Values := [.str "Alex"] } }
        { Source := { Columns := ["name"], Values := [.str "Max"] } } =
      .ok (if valueLess (.str "Alex") (.str "Max") then -1 else 1) :=
  (Asc_OrderBy_cases (Ident.Variable "name") false
    { Source := { Columns := ["name"], Values := [.str "Alex"] } }
    { Source := { Columns := ["name"], Values := [.str "Max"] } }
    (.str "Alex") (.str "Max") rfl rfl).2.2.2.1 (by decide) (by decide) rfl

/-- C11: `t.Select()` projects the table itself, whatever the table; but
`t.GroupBy()` without specs has no grouping set to group by and returns the
grouped table without columns, rows or buckets, so that `Select()` after it
projects nothing: on the table with the column `id` and the row `[1]` the
projection has no column and no row. -/
theorem GroupBy_no_specs_drops_table :
    (∀ t : Table, t.Err = none →
      t.Select [] = .ok { Source := t, Grouped := [], Selected := t }) ∧
    (∀ t : Table, t.Err = none → groupThenSelect t = .ok {}) ∧
    Table.GroupBy { Columns := ["id"], Data := [[.num 1]] } [] = .ok {} ∧
    groupThenSelect { Columns := ["id"], Data := [[.num 1]] } =
      .ok { Selected := { Columns := [], Data := [] } } := by
  refine ⟨?_, ?_, by decide, by decide⟩
  · intro t ht
    unfold Table.Select GroupedTable.Select
    simp [ht]
  · intro t ht
    unfold groupThenSelect Table.GroupBy
    simp only [ht]
    rfl

/-- C12: `t.Select(CountAll)` takes the source for the one group, but makes
one output row for each source row and stores the one count in the first:
on the empty table the store is out of range and panics, and on a table of
two rows the projection has two rows, the count `2` and a nil row. -/
theorem countAll_rows :
    countAll { Columns := ["id"], Data := [] } = .error .indexOutOfRange ∧
    countAll { Columns := ["id"], Data := [[.num 1], [.num 2]] } =
      .ok { Source := { Columns := ["id"], Data := [[.num 1], [.num 2]] }
            Grouped := [{ Columns := ["id"], Data := [[.num 1], [.num 2]] }]
            Selected := { Columns := ["count"], Data := [[.num 2], []] } } ∧
    countAll { Columns := ["id"], Data := [[.num 7]] } =
      .ok { Source := { Columns := ["id"], Data := [[.num 7]] }
            Grouped := [{ Columns := ["id"], Data := [[.num 7]] }]
            Selected := { Columns := ["count"], Data := [[.num 1]] } } ∧
    (∀ t : Table, t.Err = none → t.Data = [] → countAll t = .error .indexOutOfRange) ∧
    (∀ t : Table, t.Err = none → t.Data ≠ [] →
      countAll t = .ok
        { Source := t, Grouped := [t]
          Selected :=
            { Columns := ["count"]
              Data := [Value.num t.Data.length] ::
                List.replicate (t.Data.length - 1) [] } }) := by
  refine ⟨by decide, by decide, by decide, ?_, ?_⟩
  · intro t ht hd
    unfold countAll Table.Select GroupedTable.Select
    simp [ht, hd, selectLoop, CountAll.Select, storeValues]
  · intro t ht hd
    obtain ⟨d, ds, hds⟩ := List.exists_cons_of_ne_nil hd
    unfold countAll Table.Select GroupedTable.Select
    cases t with
    | mk Err Columns Data =>
      simp only at ht hds
      subst ht hds
      simp [selectLoop, CountAll.Select, storeValues, index, List.replicate_succ]

/-- C13: with two select specs on an ungrouped table the source is not
taken for a group: the buckets stay empty, `CountAll` returns no value, and
the output rows stay nil.  On the table with the one row `[1]` the first
output row reads null, not `1`, at the columns `n` and `m`. -/
theorem countTwice_rows :
    countTwice { Columns := ["id"], Data := [[.num 1]] } =
      .ok { Source := { Columns := ["id"], Data := [[.num 1]] }
            Grouped := []
            Selected := { Columns := ["n", "m"], Data := [[]] } } ∧
    Ident.Variable "n" { Selected := { Columns := ["n", "m"], Values := [] } } = .ok .null ∧
    Ident.Variable "m" { Selected := { Columns := ["n", "m"], Values := [] } } = .ok .null ∧
    (∀ t : Table, t.Err = none →
      countTwice t = .ok
        { Source := t, Grouped := []
          Selected := { Columns := ["n", "m"], Data := List.replicate t.Data.length [] } }) := by
  refine ⟨by decide, by decide, by decide, ?_⟩
  intro t ht
  unfold countTwice Table.Select GroupedTable.Select
  simp [ht, selectLoop, As.Select, CountAll.Select, storeValues]

/-- The conversion `int(u)` keeps a number below `2^63`. -/
theorem toInt_small (u : Nat) (h : u < 2 ^ 63) : toInt u = (u : Int) := by
  unfold toInt wrapInt
  omega

/-- The result of `Offset` for an offset that fits the `int`. -/
theorem Offset_small (s : SelectedTable) (a : Nat) (hs : s.Err = none) (ha : a < 2 ^ 63) :
    s.Offset a =
      if a ≤ s.Selected.Data.length then
        .ok { Selected := { s.Selected with Data := s.Selected.Data.drop a } }
      else .ok { Selected := { Columns := s.Selected.Columns } } := by
  unfold SelectedTable.Offset
  have h1 : a % 2 ^ 64 = a := Nat.mod_eq_of_lt (by omega)
  simp only [hs, toInt_small a ha, h1]
  by_cases h : a ≤ s.Selected.Data.length
  · have : ¬ ((a : Int) > (s.Selected.Data.length : Int)) := by omega
    simp only [this, if_false, h, if_true]
  · have : ((a : Int) > (s.Selected.Data.length : Int)) := by omega
    simp only [this, if_true, h, if_false]

/-- C20, as stated, fails: on a table of one row, `Offset(1)` followed by
`Offset(2^63 - 1)` returns no rows under the same columns, but
`Offset(1 + (2^63 - 1))` panics, although the sum does not overflow a
`uint64`: the conversion `int(offset)` of `2^63` is negative, so the test
against the row count lets the slice expression run. -/
theorem Offset_sum_panics :
    offsetTwice { Selected := { Columns := ["id"], Data := [[.num 1]] } } 1 (2 ^ 63 - 1) =
      .ok { Selected := { Columns := ["id"], Data := [] } } ∧
    SelectedTable.Offset { Selected := { Columns := ["id"], Data := [[.num 1]] } }
        (1 + (2 ^ 63 - 1)) =
      .error .sliceBoundsOutOfRange ∧
    1 + (2 ^ 63 - 1) < 2 ^ 64 := by
  decide

/-- C20, amended: for an error-free selected table and offsets whose sum
fits the `int` (is below `2^63`), `Offset(a)` followed by `Offset(b)` is
`Offset(a + b)`: the rows from position `a + b` on under the same columns, and
no rows under the same columns when `a + b` exceeds the row count. -/
theorem Offset_Offset (s : SelectedTable) (a b : Nat) (hs : s.Err = none)
    (hab : a + b < 2 ^ 63) :
    offsetTwice s a b = s.Offset (a + b) ∧
    (a + b ≤ s.Selected.Data.length →
      s.Offset (a + b) =
        .ok { Selected := { s.Selected with Data := s.Selected.Data.drop (a + b) } }) ∧
    (s.Selected.Data.length < a + b →
      s.Offset (a + b) = .ok { Selected := { Columns := s.Selected.Columns, Data := [] } }) := by
  have hsum := Offset_small s (a + b) hs hab
  refine ⟨?_, ?_, ?_⟩
  · unfold offsetTwice
    rw [hsum, Offset_small s a hs (by omega)]
    by_cases ha : a ≤ s.Selected.Data.length
    · simp only [ha, if_true]
      rw [Offset_small _ b rfl (by omega)]
      simp only [List.length_drop, List.drop_drop]
      by_cases hb : b ≤ s.Selected.Data.length - a
      · have : a + b ≤ s.Selected.Data.length := by omega
        simp only [hb, this, if_true]
      · have : ¬ a + b ≤ s.Selected.Data.length := by omega
        simp only [hb, this, if_false]
    · have : ¬ a + b ≤ s.Selected.Data.length := by omega
      simp only [ha, this, if_false]
      rw [Offset_small _ b rfl (by omega)]
      by_cases hb : b ≤ 0
      · have : b = 0 := by omega
        subst this
        rfl
      · simp [hb]
  · intro h
    rw [hsum, if_pos h]
  · intro h
    rw [hsum, if_neg (by omega)]

/-- C20 at a table of three rows and the offsets one and one. -/
theorem Offset_Offset_witness :
    offsetTwice { Selected := { Columns := ["id"], Data := [[.num 1], [.num 2], [.num 3]] } }
        1 1 =
      SelectedTable.Offset
        { Selected := { Columns := ["id"], Data := [[.num 1], [.num 2], [.num 3]] } } (1 + 1) :=
  (Offset_Offset { Selected := { Columns := ["id"], Data := [[.num 1], [.num 2], [.num 3]] } }
    1 1 rfl (by decide)).1

/-- The flag `found` of `Record.Set` is raised when the column is among the
columns of the record. -/
theorem setLoop_found (column : String) (value : Value) :
    ∀ (cols : List String) (i : Nat) (values : Row) (found : Bool),
      (setLoop column value cols i values found).2 = (found || decide (column ∈ cols)) := by
  intro cols
  induction cols with
  | nil => intro i values found; simp [setLoop]
  | cons c cs ih =>
    intro i values found
    unfold setLoop
    by_cases hc : c = column
    · simp only [hc, if_true]
      rw [ih]
      simp
    · rw [if_neg hc, ih]
      have : ¬ column = c := fun h => hc h.symm
      simp [this]

/-- A record with an error stays as it is under `Set`. -/
theorem Set_err (r : Record) (c : String) (v : Value) (e : Error) (h : r.Err = some e) :
    r.Set c v = { Err := some e } := by
  unfold Record.Set
  rw [h]

/-- The method `Set` keeps a record error-free, with its columns, when the
column is one of them. -/
theorem Set_ok (r : Record) (c : String) (v : Value) (h : r.Err = none) (hc : c ∈ r.Columns) :
    (r.Set c v).Err = none ∧ (r.Set c v).Columns = r.Columns := by
  unfold Record.Set
  rw [h]
  simp only [setLoop_found, Bool.false_or, hc, decide_True, Bool.not_true, Bool.false_eq_true,
    if_false, and_self]

/-- The method `Set` fails with the column-not-found error when the column
is none of the columns of the record. -/
theorem Set_missing (r : Record) (c : String) (v : Value) (h : r.Err = none)
    (hc : c ∉ r.Columns) : r.Set c v = { Err := some (.columnNotFound c) } := by
  unfold Record.Set
  rw [h]
  simp only [setLoop_found, Bool.false_or, hc, decide_False, Bool.not_false, if_true]

/-- The loop over the columns of the given record keeps an error. -/
theorem setColumns_err (record : Record) (e : Error) :
    ∀ (cs : List String) (i : Nat) (n : Record), n.Err = some e →
      (setColumns record cs i n).Err = some e := by
  intro cs
  induction cs with
  | nil => intro i n h; exact h
  | cons c cs ih =>
    intro i n h
    unfold setColumns
    split
    · apply ih
      rw [Set_err n c _ e h]
    · exact ih _ _ h

/-- The loop over the columns of the given record keeps the record
error-free, with its columns, when every column named with a value is one of
them. -/
theorem setColumns_ok (record : Record) (columns : List String) :
    ∀ (cs : List String) (i : Nat) (n : Record), n.Err = none → n.Columns = columns →
      (∀ c ∈ cs.take (record.Values.length - i), c ∈ columns) →
      (setColumns record cs i n).Err = none ∧ (setColumns record cs i n).Columns = columns := by
  intro cs
  induction cs with
  | nil => intro i n h1 h2 _; exact ⟨h1, h2⟩
  | cons c cs ih =>
    intro i n h1 h2 hall
    unfold setColumns
    by_cases hi : i < record.Values.length
    · rw [if_pos hi]
      have hlen : record.Values.length - i = (record.Values.length - (i + 1)) + 1 := by omega
      rw [hlen, List.take_succ_cons] at hall
      have hc : c ∈ n.Columns := by rw [h2]; exact hall c (List.mem_cons_self _ _)
      obtain ⟨h3, h4⟩ := Set_ok n c (index record.Values i) h1 hc
      exact ih _ _ h3 (h4.trans h2) (fun c' hc' => hall c' (List.mem_cons_of_mem _ hc'))
    · rw [if_neg hi]
      have hlen : record.Values.length - (i + 1) = 0 := by omega
      exact ih _ _ h1 h2 (by rw [hlen]; intro c' hc'; simp at hc')

/-- The loop over the columns of the given record fails with the
column-not-found error for a column named with a value that is none of the
columns. -/
theorem setColumns_fail (record : Record) (columns : List String) :
    ∀ (cs : List String) (i : Nat) (n : Record), n.Err = none → n.Columns = columns →
      (∃ c ∈ cs.take (record.Values.length - i), c ∉ columns) →
      ∃ c ∈ cs.take (record.Values.length - i), c ∉ columns ∧
        (setColumns record cs i n).Err = some (.columnNotFound c) := by
  intro cs
  induction cs with
  | nil =>
    intro i n _ _ h
    obtain ⟨c, hc, -⟩ := h
    simp at hc
  | cons c cs ih =>
    intro i n h1 h2 hex
    unfold setColumns
    by_cases hi : i < record.Values.length
    · rw [if_pos hi]
      have hlen : record.Values.length - i = (record.Values.length - (i + 1)) + 1 := by omega
      rw [hlen, List.take_succ_cons] at hex ⊢
      by_cases hc : c ∈ columns
      · obtain ⟨h3, h4⟩ := Set_ok n c (index record.Values i) h1 (by rw [h2]; exact hc)
        have hex' : ∃ c' ∈ cs.take (record.Values.length - (i + 1)), c' ∉ columns := by
          obtain ⟨c', hc', hn⟩ := hex
          rcases List.mem_cons.1 hc' with rfl | hc''
          · exact absurd hc hn
          · exact ⟨c', hc'', hn⟩
        obtain ⟨c', hc', hn, herr⟩ := ih (i + 1) _ h3 (h4.trans h2) hex'
        exact ⟨c', List.mem_cons_of_mem _ hc', hn, herr⟩
      · refine ⟨c, List.mem_cons_self _ _, hc, ?_⟩
        apply setColumns_err
        rw [Set_missing n c _ h1 (by rw [h2]; exact hc)]
    · obtain ⟨c', hc', -⟩ := hex
      have hlen : record.Values.length - i = 0 := by omega
      rw [hlen] at hc'
      simp at hc'

/-- C14, as stated, fails: a record that lists the unknown column `zzz`
without a value is inserted without error, as a row of nulls. -/
theorem Insert_unvalued_column :
    Table.Insert { Columns := ["id"], Data := [[.num 1]] }
        { Columns := ["zzz"], Values := [] } =
      { Columns := ["id"], Data := [[.num 1], [.null]] } := by
  decide

/-- C14, amended: on an error-free table, `Insert` fails with the
column-not-found error when the record names with a value a column that is
not among the columns of the table, and does not fail, appending one row,
when every column it names with a value exists; a column listed without a
corresponding value is passed over. -/
theorem Insert_column_not_found (t : Table) (record : Record) (ht : t.Err = none) :
    ((∃ c ∈ valued record, c ∉ t.Columns) →
      ∃ c ∈ valued record, c ∉ t.Columns ∧
        t.Insert record = { Err := some (.columnNotFound c) }) ∧
    ((∀ c ∈ valued record, c ∈ t.Columns) →
      ∃ row, t.Insert record = { Columns := t.Columns, Data := t.Data ++ [row] }) := by
  constructor
  · intro hex
    obtain ⟨c, hc, hn, herr⟩ := setColumns_fail record t.Columns record.Columns 0
      { Columns := t.Columns, Values := List.replicate t.Columns.length Value.null }
      rfl rfl hex
    refine ⟨c, hc, hn, ?_⟩
    unfold Table.Insert
    simp only [ht, herr]
  · intro hall
    obtain ⟨h1, _⟩ := setColumns_ok record t.Columns record.Columns 0
      { Columns := t.Columns, Values := List.replicate t.Columns.length Value.null }
      rfl rfl hall
    refine ⟨(setColumns record record.Columns 0
      { Columns := t.Columns, Values := List.replicate t.Columns.length Value.null }).Values, ?_⟩
    unfold Table.Insert
    simp only [ht, h1]

/-- C14 at the record that gives the value `C` to the unknown column `zzz`. -/
theorem Insert_column_not_found_witness :
    ∃ c, Table.Insert { Columns := ["id"], Data := [[.num 1]] }
        { Columns := ["zzz"], Values := [.str "C"] } = { Err := some (.columnNotFound c) } :=
  match (Insert_column_not_found { Columns := ["id"], Data := [[.num 1]] }
    { Columns := ["zzz"], Values := [.str "C"] } rfl).1 (by decide) with
  | ⟨c, _, _, h⟩ => ⟨c, h⟩

/-- The read after the write `values[i] = value` on values extended with
nils up to `i`. -/
theorem pad_set_read (values : Row) (i : Nat) (v : Value) (j : Nat) :
    (((if values.length ≤ i then values ++ List.replicate (i - values.length + 1) Value.null
        else values).set i v).getD j Value.null) =
      if j = i then v else values.getD j Value.null := by
  rw [List.getD_eq_getElem?_getD, List.getElem?_set]
  by_cases hji : j = i
  · subst hji
    simp only [if_true]
    by_cases hl : values.length ≤ j
    · have : j < values.length + (j - values.length + 1) := by omega
      simp [hl, this]
    · have : j < values.length := by omega
      simp [hl, this]
  · have hij : ¬ i = j := fun h => hji h.symm
    simp only [hij, hji, if_false]
    by_cases hl : values.length ≤ i
    · simp only [hl, if_true]
      by_cases hj : j < values.length
      · rw [List.getElem?_append_left hj, List.getD_eq_getElem?_getD]
      · rw [List.getElem?_append_right (by omega), List.getD_eq_default _ _ (by omega)]
        by_cases hk : j - values.length < i - values.length + 1
        · rw [List.getElem?_eq_getElem (by simpa using hk)]
          simp
        · rw [List.getElem?_eq_none (by simp; omega)]
          rfl
    · simp only [hl, if_false]
      rw [List.getD_eq_getElem?_getD]

/-- Without the column among the columns the loop of `Set` leaves the values
as they are. -/
theorem setLoop_absent (column : String) (value : Value) :
    ∀ (cs : List String) (i : Nat) (values : Row) (found : Bool), column ∉ cs →
      (setLoop column value cs i values found).1 = values := by
  intro cs
  induction cs with
  | nil => intro i values found _; rfl
  | cons c cs ih =>
    intro i values found h
    unfold setLoop
    have hc : ¬ c = column := fun e => h (e ▸ List.mem_cons_self _ _)
    rw [if_neg hc]
    exact ih _ _ _ (fun hm => h (List.mem_cons_of_mem _ hm))

/-- With distinct columns the loop of `Set` writes the value at the position
of the column and nowhere else. -/
theorem setLoop_read (column : String) (value : Value) (j : Nat) :
    ∀ (cs : List String) (i : Nat) (values : Row) (found : Bool), cs.Nodup → column ∈ cs →
      (setLoop column value cs i values found).1.getD j Value.null =
        if j = i + cs.indexOf column then value else values.getD j Value.null := by
  intro cs
  induction cs with
  | nil => intro i values found _ h; cases h
  | cons c cs ih =>
    intro i values found hnd hmem
    have hnd' := List.nodup_cons.1 hnd
    unfold setLoop
    by_cases hc : c = column
    · subst hc
      simp only [if_true]
      rw [setLoop_absent _ _ _ _ _ _ hnd'.1, pad_set_read]
      simp
    · rw [if_neg hc]
      have hmem' : column ∈ cs := by
        rcases List.mem_cons.1 hmem with h | h
        · exact absurd h.symm hc
        · exact h
      rw [ih _ _ _ hnd'.2 hmem', List.indexOf_cons_ne _ hc]
      have : i + 1 + cs.indexOf column = i + (cs.indexOf column + 1) := by omega
      rw [this]

/-- On a record with distinct columns, `Set` writes the value at the
position of the column and leaves the other positions as they read. -/
theorem Set_read (r : Record) (c : String) (v : Value) (j : Nat) (h : r.Err = none)
    (hnd : r.Columns.Nodup) (hc : c ∈ r.Columns) :
    (r.Set c v).Values.getD j Value.null =
      if j = r.Columns.indexOf c then v else r.Values.getD j Value.null := by
  unfold Record.Set
  rw [h]
  simp only [setLoop_found, Bool.false_or, hc, decide_True, Bool.not_true, Bool.false_eq_true,
    if_false]
  rw [setLoop_read c v j r.Columns 0 r.Values false hnd hc, Nat.zero_add]

/-- The value the entries give a column, entry by entry. -/
theorem assignedFrom_cons (c k : String) (v : Value) (es : List (String × Value))
    (acc : Option Value) :
    assignedFrom c ((k, v) :: es) acc = assignedFrom c es (if k = c then some v else acc) :=
  rfl

/-- The entries after the first decide the assigned value when one of them
names the column. -/
theorem assignedFrom_acc (c : String) :
    ∀ (es : List (String × Value)) (acc : Option Value),
      assignedFrom c es acc =
        match assignedFrom c es none with
        | some v => some v
        | none => acc := by
  intro es
  induction es with
  | nil => intro acc; rfl
  | cons e es ih =>
    intro acc
    obtain ⟨k, v⟩ := e
    rw [assignedFrom_cons, assignedFrom_cons]
    rw [ih (if k = c then some v else acc), ih (if k = c then some v else none)]
    cases assignedFrom c es none with
    | some x => rfl
    | none =>
      by_cases hk : k = c
      · simp [hk]
      · simp [hk]

/-- Past the values of the given record the loop over its columns does
nothing. -/
theorem setColumns_skip (record : Record) :
    ∀ (cs : List String) (i : Nat) (n : Record), record.Values.length ≤ i →
      setColumns record cs i n = n := by
  intro cs
  induction cs with
  | nil => intro i n _; rfl
  | cons c cs ih =>
    intro i n h
    unfold setColumns
    rw [if_neg (by omega)]
    exact ih _ _ (by omega)

/-- After the loop over the columns of the given record, a position of the
row reads the value the record assigns to its column, or what it read
before. -/
theorem setColumns_read (record : Record) (columns : List String) (hnd : columns.Nodup)
    (j : Nat) (hj : j < columns.length) :
    ∀ (cs : List String) (i : Nat) (n : Record), n.Err = none → n.Columns = columns →
      (∀ c ∈ cs.take (record.Values.length - i), c ∈ columns) →
      (setColumns record cs i n).Values.getD j Value.null =
        match assignedFrom columns[j] (cs.zip (record.Values.drop i)) none with
        | some v => v
        | none => n.Values.getD j Value.null := by
  intro cs
  induction cs with
  | nil => intro i n _ _ _; simp [setColumns, assignedFrom]
  | cons c cs ih =>
    intro i n h1 h2 hall
    by_cases hi : i < record.Values.length
    · have hlen : record.Values.length - i = (record.Values.length - (i + 1)) + 1 := by omega
      rw [hlen, List.take_succ_cons] at hall
      have hc : c ∈ columns := hall c (List.mem_cons_self _ _)
      have hcn : c ∈ n.Columns := by rw [h2]; exact hc
      obtain ⟨h3, h4⟩ := Set_ok n c (index record.Values i) h1 hcn
      have hdrop : record.Values.drop i = index record.Values i :: record.Values.drop (i + 1) := by
        rw [List.drop_eq_getElem_cons hi]
        congr 1
        unfold index
        rw [List.getD_eq_getElem _ _ hi]
      unfold setColumns
      rw [if_pos hi, ih (i + 1) _ h3 (h4.trans h2)
        (fun c' hc' => hall c' (List.mem_cons_of_mem _ hc')), hdrop, List.zip_cons_cons,
        assignedFrom_cons,
        assignedFrom_acc columns[j] (cs.zip (record.Values.drop (i + 1)))
          (if c = columns[j] then some (index record.Values i) else none)]
      cases assignedFrom columns[j] (cs.zip (record.Values.drop (i + 1))) none with
      | some x => rfl
      | none =>
        simp only
        rw [Set_read n c _ j h1 (by rw [h2]; exact hnd) hcn, h2]
        by_cases hcj : c = columns[j]
        · subst hcj
          rw [if_pos rfl, if_pos (List.indexOf_getElem hnd j hj).symm]
        · rw [if_neg hcj]
          have : ¬ j = columns.indexOf c := by
            intro e
            apply hcj
            subst e
            exact (List.getElem_indexOf hj).symm
          rw [if_neg this]
    · rw [setColumns_skip record _ _ _ (by omega), List.drop_of_length_le (by omega)]
      simp [assignedFrom]


/-- The loop of `Update` replaces each row it passes by what `Update` leaves at
its place, when the condition raises no error and every column the record
names with a value is a column of the table. -/
theorem updateLoop_spec (columns : List String) (record : Record) (cond : Condition)
    (hex : ∀ c ∈ valued record, c ∈ columns) :
    ∀ (k i : Nat) (data : List Row), i + k = data.length →
      (∀ d ∈ data.drop i, ∃ b, cond (rowRecord columns d) = .ok b) →
      updateLoop columns record cond k i data =
        .ok (data.take i ++ (data.drop i).map (updateRow columns record cond)) := by
  intro k
  induction k with
  | zero =>
    intro i data hik _
    unfold updateLoop
    rw [List.drop_of_length_le (by omega), List.take_of_length_le (by omega)]
    simp
  | succ k ih =>
    intro i data hik hc
    have hi : i < data.length := by omega
    have hd : data.drop i = data[i] :: data.drop (i + 1) := List.drop_eq_getElem_cons hi
    obtain ⟨hidx, -, -⟩ := index_eq_of_drop data i _ _ hd
    have hmem : data[i] ∈ data.drop i := by
      rw [hd]
      exact List.mem_cons_self _ _
    obtain ⟨b, hb⟩ := hc data[i] hmem
    have hb' : cond { Source := { Columns := columns, Values := data[i] } } = .ok b := hb
    have hrest : ∀ d ∈ data.drop (i + 1), ∃ b, cond (rowRecord columns d) = .ok b := by
      intro d hdm
      exact hc d (by rw [hd]; exact List.mem_cons_of_mem _ hdm)
    unfold updateLoop
    simp only [hidx]
    rw [hb']
    cases b with
    | true =>
      simp only [if_true]
      have hrec : Table.Record { Columns := columns, Data := data } i =
          { Columns := columns, Values := data[i] } := by
        unfold Table.Record
        simp only [hi, if_true, hidx]
      rw [hrec]
      obtain ⟨herr, -⟩ := setColumns_ok record columns record.Columns 0
        { Columns := columns, Values := data[i] } rfl rfl hex
      simp only [herr]
      have hdrop : (data.set i (updatedRow columns record data[i])).drop (i + 1) =
          data.drop (i + 1) := List.drop_set_of_lt _ _ (by omega)
      have := ih (i + 1) (data.set i (updatedRow columns record data[i]))
        (by simp; omega) (by rw [hdrop]; exact hrest)
      unfold updatedRow at this hdrop
      rw [this, hdrop, take_succ_set _ _ _ hi, hd, List.map_cons]
      have hu : updateRow columns record cond data[i] =
          (setColumns record record.Columns 0 { Columns := columns, Values := data[i] }).Values := by
        unfold updateRow updatedRow
        rw [if_pos hb]
      rw [hu]
      simp only [List.append_assoc, List.singleton_append]
    | false =>
      simp only [Bool.false_eq_true, if_false]
      rw [ih (i + 1) data (by omega) hrest, hd, List.map_cons]
      have hu : updateRow columns record cond data[i] = data[i] := by
        unfold updateRow
        rw [if_neg (by rw [hb]; simp)]
      have htake : data.take (i + 1) = data.take i ++ [data[i]] := by
        rw [List.take_succ, List.getElem?_eq_getElem hi]
        rfl
      rw [hu, htake]
      simp only [List.append_assoc, List.singleton_append]

/-- Entries that do not name the column assign it nothing. -/
theorem assignedFrom_none (c : String) :
    ∀ es : List (String × Value), (∀ e ∈ es, e.1 ≠ c) → assignedFrom c es none = none := by
  intro es
  induction es with
  | nil => intro _; rfl
  | cons e es ihe =>
    intro h
    obtain ⟨k, w⟩ := e
    rw [assignedFrom_cons, if_neg (h (k, w) (List.mem_cons_self _ _))]
    exact ihe (fun e he => h e (List.mem_cons_of_mem _ he))

/-- Distinct names with their values assign each name its value. -/
theorem assignedFrom_zip_nodup :
    ∀ (cs : List String) (vs : Row) (i : Nat) (hi : i < cs.length) (hv : i < vs.length),
      cs.Nodup → assignedFrom cs[i] (cs.zip vs) none = some vs[i] := by
  intro cs
  induction cs with
  | nil => intro vs i hi; simp at hi
  | cons c cs ih =>
    intro vs i hi hv hnd
    cases vs with
    | nil => simp at hv
    | cons v vs =>
      have hnd' := List.nodup_cons.1 hnd
      rw [List.zip_cons_cons, assignedFrom_cons, assignedFrom_acc]
      cases i with
      | zero =>
        simp only [List.getElem_cons_zero, if_true]
        have : assignedFrom c (cs.zip vs) none = none := by
          apply assignedFrom_none
          intro e he hk
          apply hnd'.1
          rw [← hk]
          exact (List.of_mem_zip he).1
        rw [this]
      | succ i =>
        simp only [List.getElem_cons_succ]
        rw [ih vs i (by simpa using hi) (by simpa using hv) hnd'.2]

/-- The value a record with distinct names gives a column it names with a
value. -/
theorem assigned_nodup (record : Record) (hnd : record.Columns.Nodup) (i : Nat)
    (hi : i < record.Columns.length) (hv : i < record.Values.length) :
    assigned record record.Columns[i] = some record.Values[i] :=
  assignedFrom_zip_nodup record.Columns record.Values i hi hv hnd

/-- C15: for an error-free table with distinct columns, a record whose
columns named with a value all exist in the table, and a condition that
raises no error, `Update` is error-free and has the same columns, the same
number of rows and the same row order as the table: the row at each position
is the old row when the condition is false on it and, when the condition is
true, a row that reads at every column the value the record gives that column
(the last one if the record should name the column twice) and the old value
at every column the record does not name with a value.  For a record with
distinct names the value it gives a column it names is the value at the
position of the name. -/
theorem Update_frame (t : Table) (record : Record) (cond : Condition) (ht : t.Err = none)
    (hnd : t.Columns.Nodup) (hex : ∀ c ∈ valued record, c ∈ t.Columns)
    (hc : ∀ d ∈ t.Data, ∃ b, cond (rowRecord t.Columns d) = .ok b) :
    ∃ data, t.Update record cond = { Columns := t.Columns, Data := data } ∧
      data.length = t.Data.length ∧
      (∀ (k : Nat) (hk : k < t.Data.length), ∃ row, data[k]? = some row ∧
        (cond (rowRecord t.Columns t.Data[k]) = .ok false → row = t.Data[k]) ∧
        (cond (rowRecord t.Columns t.Data[k]) = .ok true →
          ∀ (j : Nat) (hj : j < t.Columns.length),
            readValue row (j : Int) =
              match assigned record t.Columns[j] with
              | some v => v
              | none => readValue t.Data[k] (j : Int))) ∧
      (record.Columns.Nodup → ∀ (i : Nat) (hi : i < record.Columns.length)
        (hv : i < record.Values.length),
        assigned record record.Columns[i] = some record.Values[i]) := by
  have hloop := updateLoop_spec t.Columns record cond hex t.Data.length 0 t.Data (by simp)
    (by simpa using hc)
  simp only [List.take_zero, List.drop_zero, List.nil_append] at hloop
  refine ⟨t.Data.map (updateRow t.Columns record cond), ?_, by simp, ?_, ?_⟩
  · unfold Table.Update
    simp only [ht, hloop]
  · intro k hk
    refine ⟨updateRow t.Columns record cond t.Data[k], by simp [hk], ?_, ?_⟩
    · intro hf
      unfold updateRow
      rw [if_neg (by rw [hf]; simp)]
    · intro htrue j hj
      unfold updateRow
      rw [if_pos htrue, readValue_natCast, readValue_natCast]
      unfold updatedRow assigned
      have := setColumns_read record t.Columns hnd j hj record.Columns 0
        { Columns := t.Columns, Values := t.Data[k] } rfl rfl hex
      simpa using this
  · intro hrn i hi hv
    exact assigned_nodup record hrn i hi hv

/-- C15 at the scenario of the specification: the rows `(1, A)`, `(2, B)` and
the record that gives the name `Z` where the id is two. -/
theorem Update_frame_witness :
    ∃ data,
      Table.Update
          { Columns := ["id", "name"], Data := [[.num 1, .str "A"], [.num 2, .str "B"]] }
          { Columns := ["name"], Values := [.str "Z"] }
          (Equals (Ident.Variable "id") (Literal.Variable (.num 2))) =
        { Columns := ["id", "name"], Data := data } ∧
      data.length = 2 :=
  match Update_frame
      { Columns := ["id", "name"], Data := [[.num 1, .str "A"], [.num 2, .str "B"]] }
      { Columns := ["name"], Values := [.str "Z"] }
      (Equals (Ident.Variable "id") (Literal.Variable (.num 2))) rfl (by decide) (by decide)
      (by decide) with
  | ⟨data, h, hl, _⟩ => ⟨data, h, hl⟩

/-- The read at the place after the list `L`. -/
theorem index_append_length {α : Type} [Inhabited α] (L : List α) (x : α) (T : List α) :
    index (L ++ x :: T) L.length = x := by
  unfold index
  induction L with
  | nil => rfl
  | cons a L ih => simpa using ih

/-- The write at the place after the list `L`. -/
theorem set_append_length {α : Type} (L : List α) (x v : α) (T : List α) :
    (L ++ x :: T).set L.length v = L ++ v :: T := by
  induction L with
  | nil => rfl
  | cons a L ih => simp [ih]

/-- The swap of two neighbours. -/
theorem swap_adjacent (st : SortState) (L : List SelectedRecord) (y x : SelectedRecord)
    (T : List SelectedRecord) (h : st.arr = L ++ y :: x :: T) :
    swap st (L.length + 1) L.length = { st with arr := L ++ x :: y :: T } := by
  unfold swap
  have h1 : index st.arr L.length = y := by rw [h]; exact index_append_length L y (x :: T)
  have h2 : index st.arr (L.length + 1) = x := by
    rw [h]
    have := index_append_length (L ++ [y]) x T
    simpa using this
  rw [h1, h2, h]
  have h3 : (L ++ y :: x :: T).set (L.length + 1) y = L ++ y :: y :: T := by
    simp
  rw [h3, set_append_length]

/-- An answer yes of the closure comes without error. -/
theorem lessLoop_true (a b : SelectedRecord) :
    ∀ orders : List OrderBy, (lessLoop a b orders).1 = true → (lessLoop a b orders).2 = none := by
  intro orders
  induction orders with
  | nil => intro h; simp [lessLoop] at h
  | cons o orders ih =>
    intro h
    unfold lessLoop at h ⊢
    cases ho : o a b with
    | error e => simp [ho] at h
    | ok comp =>
      simp only [ho] at h ⊢
      by_cases hc : comp = 0
      · simp only [hc, if_true] at h ⊢
        exact ih h
      · simp only [hc, if_false] at h ⊢

/-- After an error the closure answers no and the array stays as it is. -/
theorem insertDown_err (orders : List OrderBy) (e : Error) :
    ∀ (j : Nat) (st : SortState), st.err = some e → insertDown orders j st = st := by
  intro j st h
  cases j with
  | zero => rfl
  | succ j =>
    unfold insertDown less
    simp [h]

/-- A chain stays a chain when an element is put between two parts of it
that it is in order with. -/
theorem chain_insert {α : Type} (R : α → α → Prop) (L1 L2 : List α) (x : α)
    (h : List.Chain' R (L1 ++ L2)) (h1 : ∀ a, L1.getLast? = some a → R a x)
    (h2 : ∀ b, L2.head? = some b → R x b) : List.Chain' R (L1 ++ x :: L2) := by
  rw [List.chain'_append] at h ⊢
  refine ⟨h.1, ?_, ?_⟩
  · rw [List.chain'_cons']
    exact ⟨fun y hy => h2 y hy, h.2.1⟩
  · intro a ha b hb
    simp only [List.head?_cons, Option.mem_def, Option.some.injEq] at hb
    subst hb
    exact h1 a ha

/-- The inner loop of the insertion sort moves the element at place `j` down
past the elements it is less than, and stops before one it is not less
than. -/
theorem insertDown_spec (orders : List OrderBy) :
    ∀ (j : Nat) (L : List SelectedRecord) (x : SelectedRecord) (T : List SelectedRecord)
      (st : SortState), st.arr = L ++ x :: T → L.length = j → st.err = none →
      ((insertDown orders j st).err = none →
        ∃ L1 L2, L = L1 ++ L2 ∧ (insertDown orders j st).arr = L1 ++ x :: (L2 ++ T) ∧
          (∀ a, L1.getLast? = some a → inOrder orders a x) ∧
          (∀ b, L2.head? = some b → inOrder orders x b)) ∧
      (insertDown orders j st).arr.Perm st.arr := by
  intro j
  induction j with
  | zero =>
    intro L x T st harr hlen _
    have hL : L = [] := List.length_eq_zero.1 hlen
    subst hL
    refine ⟨fun _ => ⟨[], [], rfl, by simpa [insertDown] using harr, ?_, ?_⟩, List.Perm.refl _⟩
    · intro a ha; simp at ha
    · intro b hb; simp at hb
  | succ j ih =>
    intro L x T st harr hlen herr
    have hne : L ≠ [] := by
      intro h
      rw [h] at hlen
      simp at hlen
    obtain ⟨L', y, rfl⟩ : ∃ L' y, L = L' ++ [y] :=
      ⟨L.dropLast, L.getLast hne, (List.dropLast_append_getLast hne).symm⟩
    have hlen' : L'.length = j := by simpa using hlen
    have harr' : st.arr = L' ++ y :: x :: T := by rw [harr]; simp
    have hx : index st.arr (j + 1) = x := by
      rw [harr, ← hlen]
      exact index_append_length _ x T
    have hy : index st.arr j = y := by
      rw [harr', ← hlen']
      exact index_append_length _ y (x :: T)
    unfold insertDown
    have hless : less orders st (j + 1) j =
        ((lessLoop x y orders).1, { st with err := (lessLoop x y orders).2 }) := by
      unfold less
      rw [herr]
      simp only [hx, hy]
    rw [hless]
    simp only
    cases hr : (lessLoop x y orders).1 with
    | true =>
      simp only [if_true]
      have hnone := lessLoop_true x y orders hr
      rw [hnone]
      have hsw := swap_adjacent { st with err := none } L' y x T harr'
      rw [hlen'] at hsw
      rw [hsw]
      obtain ⟨h1, h2⟩ := ih L' x (y :: T) { st with arr := L' ++ x :: y :: T, err := none }
        rfl hlen' rfl
      constructor
      · intro hok
        obtain ⟨L1, L2, hL, ha, hl, hh⟩ := h1 hok
        refine ⟨L1, L2 ++ [y], by rw [hL]; simp, by rw [ha]; simp, hl, ?_⟩
        intro b hb
        cases L2 with
        | nil =>
          simp only [List.nil_append, List.head?_cons, Option.some.injEq] at hb
          subst hb
          right
          rw [← hnone]
          rw [← hr]
        | cons z zs =>
          simp only [List.cons_append, List.head?_cons, Option.some.injEq] at hb
          exact hh b (by simp [hb])
      · refine h2.trans ?_
        rw [harr']
        exact List.Perm.append_left _ (List.Perm.swap _ _ _)
    | false =>
      simp only [Bool.false_eq_true, if_false]
      refine ⟨?_, List.Perm.refl _⟩
      intro hok
      refine ⟨L' ++ [y], [], by simp, by simpa using harr, ?_, ?_⟩
      · intro a ha
        have hay : a = y := by
          simpa using ha.symm
        subst hay
        left
        rw [← hok, ← hr]
      · intro b hb; simp at hb

/-- The outer loop of the insertion sort: the part before place `i` is a
chain of the relation `inOrder`, and grows by one place a round. -/
theorem insertionSort_spec (orders : List OrderBy) :
    ∀ (k i : Nat) (st : SortState), i + k = st.arr.length →
      (st.err = none → List.Chain' (inOrder orders) (st.arr.take i)) →
      ((insertionSort orders k i st).err = none →
        List.Chain' (inOrder orders) (insertionSort orders k i st).arr) ∧
      (insertionSort orders k i st).arr.Perm st.arr := by
  intro k
  induction k with
  | zero =>
    intro i st hlen hinv
    refine ⟨?_, List.Perm.refl _⟩
    intro hok
    have := hinv hok
    rwa [List.take_of_length_le (by omega)] at this
  | succ k ih =>
    intro i st hlen hinv
    unfold insertionSort
    cases herr : st.err with
    | some e =>
      rw [insertDown_err orders e i st herr]
      exact ih (i + 1) st (by omega) (fun h => by rw [herr] at h; cases h)
    | none =>
      have hi : i < st.arr.length := by omega
      have harr : st.arr = st.arr.take i ++ st.arr[i] :: st.arr.drop (i + 1) := by
        rw [← List.drop_eq_getElem_cons hi, List.take_append_drop]
      obtain ⟨h1, h2⟩ := insertDown_spec orders i (st.arr.take i) st.arr[i]
        (st.arr.drop (i + 1)) st harr (by rw [List.length_take]; omega) herr
      have hl : (i + 1) + k = (insertDown orders i st).arr.length := by
        rw [h2.length_eq]; omega
      obtain ⟨h3, h4⟩ := ih (i + 1) (insertDown orders i st) hl (by
        intro hok
        obtain ⟨L1, L2, hL, ha, hlast, hhead⟩ := h1 hok
        have hlen12 : (L1 ++ st.arr[i] :: L2).length = i + 1 := by
          have : (L1 ++ L2).length = i := by
            rw [← hL, List.length_take]; omega
          simp only [List.length_append, List.length_cons] at this ⊢
          omega
        have htake : (insertDown orders i st).arr.take (i + 1) = L1 ++ st.arr[i] :: L2 := by
          rw [ha]
          have : L1 ++ st.arr[i] :: (L2 ++ st.arr.drop (i + 1)) =
              (L1 ++ st.arr[i] :: L2) ++ st.arr.drop (i + 1) := by simp
          rw [this]
          exact List.take_left' hlen12
        rw [htake]
        refine chain_insert _ L1 L2 _ ?_ hlast hhead
        rw [← hL]
        exact hinv herr)
      exact ⟨h3, h4.trans h2⟩

/-- The sort of `OrderBy` on at most twelve elements: when the closure has
met no error, every two neighbours of the sorted array are in order, and the
sorted array is a reordering of the array. -/
theorem sortSlice_spec (pdqsort : Sorter) (orders : List OrderBy) (st : SortState)
    (hlen : st.arr.length ≤ 12) :
    ((sortSlice pdqsort orders st).err = none →
      List.Chain' (inOrder orders) (sortSlice pdqsort orders st).arr) ∧
    (sortSlice pdqsort orders st).arr.Perm st.arr := by
  unfold sortSlice
  rw [if_pos hlen]
  cases harr : st.arr with
  | nil =>
    simp only [List.length_nil, Nat.zero_sub]
    unfold insertionSort
    rw [harr]
    exact ⟨fun _ => List.chain'_nil, List.Perm.refl _⟩
  | cons a l =>
    have h := insertionSort_spec orders ((a :: l).length - 1) 1 st
      (by rw [harr]; simp; omega) (by
        intro _
        rw [harr]
        simp)
    rw [harr] at h
    exact h

/-- `Asc` on two non-null values of one type. -/
theorem Asc_same_type (expr : Variable) (nullsLast : Bool) (i j : SelectedRecord)
    (vi vj : Value) (hi : expr i = .ok vi) (hj : expr j = .ok vj)
    (hni : vi ≠ Value.null) (hnj : vj ≠ Value.null) (ht : valueType vi = valueType vj) :
    Asc.OrderBy expr nullsLast i j = .ok (if valueLess vi vj then -1 else 1) := by
  unfold Asc.OrderBy
  simp only [hi, hj, if_neg (fun h => hni ((marshal_eq_null_iff vi).1 h)),
    if_neg (fun h => hnj ((marshal_eq_null_iff vj).1 h)), gjsonParse_type, ne_eq, ht,
    not_true_eq_false, if_false, Less_same_type vi vj ht]
  cases valueLess vi vj <;> rfl

/-- The order within a type is asymmetric. -/
theorem valueLess_asymm (a b : Value) (h : valueLess a b = true) : valueLess b a = false := by
  cases a <;> cases b <;> simp only [valueLess, decide_eq_true_eq, decide_eq_false_iff_not] at h ⊢ <;>
    exact lt_asymm h

/-- Two records the closure of `OrderBy(Asc)` has put in order have their
keys in order. -/
theorem inOrder_Asc (expr : Variable) (nullsLast : Bool) (a b : SelectedRecord)
    (va vb : Value) (h : inOrder [Asc.OrderBy expr nullsLast] a b)
    (ha : expr a = .ok va) (hb : expr b = .ok vb)
    (hna : va ≠ Value.null) (hnb : vb ≠ Value.null) (ht : valueType va = valueType vb) :
    valueLess vb va = false := by
  rcases h with h | h
  · unfold lessLoop at h
    rw [Asc_same_type expr nullsLast b a vb va hb ha hnb hna ht.symm] at h
    cases hv : valueLess vb va with
    | false => rfl
    | true =>
      rw [hv] at h
      simp at h
  · unfold lessLoop at h
    rw [Asc_same_type expr nullsLast a b va vb ha hb hna hnb ht] at h
    cases hv : valueLess va vb with
    | true => exact valueLess_asymm va vb hv
    | false =>
      rw [hv] at h
      simp at h

/-- The reads of all places of a list give the list. -/
theorem range_map_index {α : Type} [Inhabited α] (l : List α) (f : α) :
    (List.range l.length).map (fun i => if i < l.length then index l i else f) = l := by
  apply List.ext_getElem
  · simp
  · intro n h1 h2
    simp only [List.getElem_map, List.getElem_range]
    rw [if_pos h2]
    unfold index
    simp [List.getD_eq_getElem, h2]

/-- The projected rows of the records of a selected table are its rows. -/
theorem recordsOf_values (s : SelectedTable) :
    (recordsOf s).map (fun r => r.Selected.Values) = s.Selected.Data := by
  unfold recordsOf
  rw [List.map_map]
  exact range_map_index s.Selected.Data []

/-- The records of a selected table carry its column lists. -/
theorem mem_recordsOf (s : SelectedTable) (r : SelectedRecord) (h : r ∈ recordsOf s) :
    r.Source.Columns = s.Source.Columns ∧ r.Selected.Columns = s.Selected.Columns := by
  unfold recordsOf at h
  obtain ⟨i, _, rfl⟩ := List.mem_map.1 h
  exact ⟨rfl, rfl⟩

/-- `Ident` on a record where the name matches no source column and one
output column. -/
theorem Ident_Variable_selected (c : String) (r : SelectedRecord) (p : Nat)
    (h0 : matching c r.Source.Columns = []) (h1 : matching c r.Selected.Columns = [p]) :
    Ident.Variable c r = .ok (readValue r.Selected.Values p) := by
  unfold Ident.Variable
  unfold matching at h0 h1
  rw [identScan_spec, h0]
  simp only
  rw [if_pos (by decide), identScan_spec, h1]
  simp only [ne_eq, not_true_eq_false, if_false]
  rw [if_neg (by omega)]

/-- `OrderBy` on an error-free selected table, through the sort. -/
theorem OrderBy_eq (s : SelectedTable) (pdqsort : Sorter) (orders : List OrderBy)
    (hs : s.Err = none) :
    s.OrderBy pdqsort orders =
      match (sortSlice pdqsort orders { arr := recordsOf s, err := none }).err with
      | some e => { Err := some e }
      | none =>
        { Selected :=
            { Columns := s.Selected.Columns
              Data := (sortSlice pdqsort orders { arr := recordsOf s, err := none }).arr.map
                fun r => r.Selected.Values } } := by
  unfold SelectedTable.OrderBy
  rw [hs]
  rfl

/-- A list of characters has no dot, or has a last dot. -/
theorem last_dot_cases (l : List Char) :
    (∀ ch ∈ l, ch.toNat ≠ 46) ∨
    ∃ (a : List Char) (dot : Char) (b : List Char),
      l = a ++ dot :: b ∧ dot.toNat = 46 ∧ ∀ ch ∈ b, ch.toNat ≠ 46 := by
  induction l with
  | nil => left; intro ch h; cases h
  | cons x xs ih =>
    rcases ih with h | ⟨a, dot, b, rfl, hdot, hb⟩
    · by_cases hx : x.toNat = 46
      · right
        exact ⟨[], x, xs, rfl, hx, h⟩
      · left
        intro ch hch
        rcases List.mem_cons.1 hch with rfl | hmem
        · exact hx
        · exact h ch hmem
    · right
      exact ⟨x :: a, dot, b, rfl, hdot, hb⟩

/-- The slice after the last dot of a text without a dot is the text. -/
theorem afterLastDot_no_dot (c : String) (h : ∀ ch ∈ c.data, ch.toNat ≠ 46) :
    afterLastDot c = c := by
  unfold afterLastDot lastIndexDot
  rw [lastIndexFrom_no_dot _ _ _ h]
  rfl

/-- The slice after the last dot is what follows that dot. -/
theorem afterLastDot_dot (a b : List Char) (dot : Char) (hdot : dot.toNat = 46)
    (hb : ∀ ch ∈ b, ch.toNat ≠ 46) :
    afterLastDot (String.mk (a ++ dot :: b)) = String.mk b := by
  unfold afterLastDot lastIndexDot
  rw [lastIndexFrom_dot a b dot hdot hb, Nat.zero_add]
  have : (((a.length : Nat) : Int) + 1).toNat = a.length + 1 := by omega
  rw [this]
  congr 1
  have : a ++ dot :: b = (a ++ [dot]) ++ b := by simp
  rw [this]
  exact List.drop_left' (by simp)

/-- The slice after the last dot has no dot. -/
theorem afterLastDot_free (c : String) : ∀ ch ∈ (afterLastDot c).data, ch.toNat ≠ 46 := by
  rcases last_dot_cases c.data with h | ⟨a, dot, b, hc, hdot, hb⟩
  · rw [afterLastDot_no_dot c h]
    exact h
  · have : c = String.mk (a ++ dot :: b) := by rw [← hc]
    rw [this, afterLastDot_dot a b dot hdot hb]
    exact hb

/-- An alias put before the slice after the last dot leaves that slice the
slice after the last dot. -/
theorem afterLastDot_alias (name c : String) :
    afterLastDot (name ++ "." ++ afterLastDot c) = afterLastDot c := by
  have h := afterLastDot_dot name.data (afterLastDot c).data '.' (by decide)
    (afterLastDot_free c)
  have e : name ++ "." ++ afterLastDot c =
      String.mk (name.data ++ '.' :: (afterLastDot c).data) := by
    apply String.ext
    simp [String.data_append]
  rw [e]
  exact h

/-- C21, as stated, fails: on the table with the one column `id`, the alias
`u` followed by the empty alias leaves the column `u.id`, whereas the empty
alias alone leaves the column `id`. -/
theorem As_then_empty_alias :
    idTable.Err = none ∧
    (idTable.As "u").As "" = { Columns := ["u.id"], Data := [[.num 1]] } ∧
    idTable.As "" = { Columns := ["id"], Data := [[.num 1]] } ∧
    (idTable.As "u").As "" ≠ idTable.As "" := by
  decide

/-- C21, amended: for an error-free table `t` and aliases `a` and `b`, when
`b` is not empty `t.As(a).As(b)` is `t.As(b)` (also for the empty `a`); the
empty alias changes nothing, so that `t.As(a).As("")` is `t.As(a)` and
`t.As("")` is `t`. -/
theorem As_As (t : Table) (a b : String) (ht : t.Err = none) :
    (b ≠ "" → (t.As a).As b = t.As b) ∧
    (t.As a).As "" = t.As a ∧
    t.As "" = t ∧
    (a = "" → (t.As a).As b = t.As b) := by
  have hempty : ∀ u : Table, u.Err = none → u.As "" = u := by
    intro u hu
    unfold Table.As
    rw [hu]
    cases u
    simp only at hu
    subst hu
    simp
  have herr : ∀ name : String, (t.As name).Err = none := by
    intro name
    unfold Table.As
    rw [ht]
  refine ⟨?_, hempty _ (herr a), hempty t ht, ?_⟩
  · intro hb
    unfold Table.As
    simp only [ht, if_neg hb, List.map_map]
    congr 1
    apply List.map_congr_left
    intro c _
    by_cases ha : a = ""
    · simp only [Function.comp, if_pos ha]
    · simp only [Function.comp, if_neg ha]
      rw [afterLastDot_alias]
  · intro ha
    subst ha
    rw [hempty t ht]

/-- C21 at the table with the column `id` and the aliases `u` and `v`. -/
theorem As_As_witness :
    idTable.Err = none ∧ (idTable.As "u").As "v" = idTable.As "v" :=
  ⟨rfl, (As_As idTable "u" "v" rfl).1 (by decide)⟩

/-- The canonical text of a `Literal` is longer than that of its value. -/
theorem marshal_literal_length (v : Value) :
    (marshal (.literal v)).length = (marshal v).length + 10 := by
  rw [marshal]
  simp only [String.length_append]
  have h1 : (quote "Value").length = 7 := by decide
  have h2 : ("\x7b" : String).length = 1 := by decide
  have h3 : (":" : String).length = 1 := by decide
  have h4 : ("\x7d" : String).length = 1 := by decide
  rw [h1, h2, h3, h4]
  omega

/-- C22: `Literal(v).Select` returns the name `literal` and one value for
each source row, but the value is the `Literal` that holds `v`, not `v`, the
value `Literal(v).Variable` returns: its canonical text is an object with the
field `Value`, so it is never the text of `v`.  On a source of one row
`Literal(1).Select` returns the one value `Literal(1)`, of the text
`\x7b"Value":1\x7d`. -/
theorem Literal_Select_stores_struct :
    (∀ (v : Value) (table : SelectedTable),
      Literal.Select v table =
        .ok ("literal", List.replicate table.Source.Data.length (Value.literal v))) ∧
    (∀ (v : Value) (record : SelectedRecord), Literal.Variable v record = .ok v) ∧
    (∀ v : Value, Value.literal v ≠ v ∧ marshal (Value.literal v) ≠ marshal v) ∧
    Literal.Select (.num 1) { Source := idTable } = .ok ("literal", [Value.literal (.num 1)]) ∧
    marshal (Value.literal (.num 1)) = "\x7b\x22Value\x22:1\x7d" ∧
    marshal (.num 1) = "1" := by
  refine ⟨fun _ _ => rfl, fun _ _ => rfl, ?_, by decide, by decide, by decide⟩
  intro v
  have hm : marshal (Value.literal v) ≠ marshal v := by
    intro h
    have := marshal_literal_length v
    rw [h] at this
    omega
  exact ⟨fun h => hm (by rw [h]), hm⟩

/-- The inner loop fills the next slots with the concatenations of `a`. -/
theorem cartInner_spec (a : List String) :
    ∀ (bb : List (List String)) (done : List (List String)) (k : Nat), bb.length ≤ k →
      cartInner a bb done.length (done ++ List.replicate k []) =
        .ok (done ++ bb.map (fun b => a ++ b) ++ List.replicate (k - bb.length) [],
          done.length + bb.length) := by
  intro bb
  induction bb with
  | nil => intro done k _; simp [cartInner]
  | cons b bb ih =>
    intro done k hk
    simp only [List.length_cons] at hk
    obtain ⟨k', rfl⟩ : ∃ k', k = k' + 1 := ⟨k - 1, by omega⟩
    unfold cartInner
    rw [if_pos (by simp)]
    have hset : (done ++ List.replicate (k' + 1) ([] : List String)).set done.length (a ++ b) =
        (done ++ [a ++ b]) ++ List.replicate k' [] := by
      rw [List.replicate_succ, set_append_length]
      simp
    rw [hset]
    have := ih (done ++ [a ++ b]) k' (by omega)
    simp only [List.length_append, List.length_singleton] at this
    rw [this]
    have e1 : k' + 1 - (bb.length + 1) = k' - bb.length := by omega
    have e2 : done.length + 1 + bb.length = done.length + (bb.length + 1) := by omega
    simp only [List.map_cons, List.length_cons, List.append_assoc, List.singleton_append,
      List.cons_append, List.nil_append, e1, e2]

/-- The outer loop fills the slots with the concatenations, in the order of
`gs` and within it of `bb`. -/
theorem cartOuter_spec (bb : List (List String)) :
    ∀ (gs : List (List String)) (done : List (List String)) (k : Nat),
      gs.length * bb.length ≤ k →
      cartOuter bb gs done.length (done ++ List.replicate k []) =
        .ok (done ++ GroupingSets.Cart gs bb ++
          List.replicate (k - gs.length * bb.length) []) := by
  intro gs
  induction gs with
  | nil => intro done k _; simp [cartOuter, GroupingSets.Cart]
  | cons a gs ih =>
    intro done k hk
    have hmul : (a :: gs).length * bb.length = bb.length + gs.length * bb.length := by
      simp only [List.length_cons, Nat.succ_mul]
      omega
    rw [hmul] at hk ⊢
    unfold cartOuter
    rw [cartInner_spec a bb done k (by omega)]
    simp only
    have := ih (done ++ bb.map (fun b => a ++ b)) (k - bb.length) (by omega)
    simp only [List.length_append, List.length_map] at this
    rw [this]
    have e1 : k - bb.length - gs.length * bb.length = k - (bb.length + gs.length * bb.length) := by
      omega
    simp only [GroupingSets.Cart, List.flatMap_cons, List.append_assoc, e1]

/-- The element of `Cart` at the position `i * |bb| + j`. -/
theorem Cart_getElem (bb : List (List String)) :
    ∀ (gs : List (List String)) (i j : Nat) (hi : i < gs.length) (hj : j < bb.length),
      (GroupingSets.Cart gs bb)[i * bb.length + j]? = some (gs[i] ++ bb[j]) := by
  intro gs
  induction gs with
  | nil => intro i j hi; simp at hi
  | cons a gs ih =>
    intro i j hi hj
    simp only [GroupingSets.Cart, List.flatMap_cons]
    cases i with
    | zero =>
      simp only [Nat.zero_mul, Nat.zero_add, List.getElem_cons_zero]
      rw [List.getElem?_append_left (by simpa using hj)]
      simp [hj]
    | succ i =>
      simp only [List.length_cons, Nat.add_lt_add_iff_right] at hi
      rw [List.getElem?_append_right (by simp [Nat.succ_mul]; omega)]
      have : (i + 1) * bb.length + j - (bb.map fun b => a ++ b).length = i * bb.length + j := by
        simp only [List.length_map, Nat.succ_mul]
        omega
      rw [this]
      simpa [GroupingSets.Cart] using ih i j hi hj

/-- The number of elements of `Cart`. -/
theorem Cart_length (bb : List (List String)) :
    ∀ gs : List (List String), (GroupingSets.Cart gs bb).length = gs.length * bb.length := by
  intro gs
  induction gs with
  | nil => simp [GroupingSets.Cart]
  | cons a gs ih =>
    simp only [GroupingSets.Cart, List.flatMap_cons, List.length_append, List.length_map,
      List.length_cons, Nat.succ_mul] at ih ⊢
    rw [ih]
    omega

/-- The first loop of `Table.GroupBy` after the first spec folds the sets
of the specs with `Cart`. -/
theorem groupingSetsLoop_fold :
    ∀ (gss : List GroupingSets) (i : Nat) (acc : GroupingSets),
      groupingSetsLoop (gss.map GroupingSets.GroupBy) (i + 1) acc =
        .ok (gss.foldl GroupingSets.Cart acc) := by
  intro gss
  induction gss with
  | nil => intro i acc; rfl
  | cons g gss ih =>
    intro i acc
    simp only [List.map_cons, List.foldl_cons]
    unfold groupingSetsLoop
    simp only [GroupingSets.GroupBy, Nat.add_one_ne_zero, if_false]
    exact ih (i + 1) (acc.Cart g)

/-- C25: for grouping sets `gs` and `bb` (whose product of lengths is a
length, below `2^63`), `gs.Cart(bb)` returns, without a panic, exactly
`|gs| * |bb|` elements, the one at position `i * |bb| + j` being `gs[i]`
followed by `bb[j]`, nothing left out and nothing dropped as a duplicate;
`Table.GroupBy` folds the sets of its specs from the left with `Cart`, so
that `GroupBy(s1, s2)` is the grouping by the one spec
`s1.GroupBy().Cart(s2.GroupBy())`, whose sets the second loop takes one after
the other in their order. -/
theorem Cart_product (gs bb : GroupingSets) (h : gs.length * bb.length < 2 ^ 63) :
    GroupingSets.cartSlots gs bb = .ok (gs.Cart bb) ∧
    (gs.Cart bb).length = gs.length * bb.length ∧
    (∀ (i j : Nat) (hi : i < gs.length) (hj : j < bb.length),
      (gs.Cart bb)[i * bb.length + j]? = some (gs[i] ++ bb[j])) ∧
    (∀ t : Table,
      Table.GroupBy t [GroupingSets.GroupBy gs, GroupingSets.GroupBy bb] =
        Table.GroupBy t [GroupingSets.GroupBy (gs.Cart bb)]) ∧
    (∀ (t : Table) (rest : List GroupingSets),
      Table.GroupBy t ((gs :: bb :: rest).map GroupingSets.GroupBy) =
        Table.GroupBy t
          [GroupingSets.GroupBy ((bb :: rest).foldl GroupingSets.Cart gs)]) ∧
    (∀ t : Table, t.Err = none →
      Table.GroupBy t [GroupingSets.GroupBy gs, GroupingSets.GroupBy bb] =
        match unionLoop t (gs.Cart bb) 0 {} with
        | .error p => .error p
        | .ok union =>
          match union.Err with
          | some e => .ok { Err := some e }
          | none => .ok { Source := union.Source, Grouped := union.Grouped }) := by
  have hfold : ∀ (g : GroupingSets) (rest : List GroupingSets),
      groupingSetsLoop ((g :: rest).map GroupingSets.GroupBy) 0 [] =
        .ok (rest.foldl GroupingSets.Cart g) := by
    intro g rest
    simp only [List.map_cons]
    unfold groupingSetsLoop
    simp only [GroupingSets.GroupBy, if_true]
    exact groupingSetsLoop_fold rest 0 g
  have hrest : ∀ (t : Table) (rest : List GroupingSets),
      Table.GroupBy t ((gs :: bb :: rest).map GroupingSets.GroupBy) =
        Table.GroupBy t
          [GroupingSets.GroupBy ((bb :: rest).foldl GroupingSets.Cart gs)] := by
    intro t rest
    unfold Table.GroupBy
    rw [hfold gs (bb :: rest)]
    have := hfold ((bb :: rest).foldl GroupingSets.Cart gs) []
    simp only [List.map_cons, List.map_nil, List.foldl_nil] at this
    rw [this]
  refine ⟨?_, Cart_length bb gs, Cart_getElem bb gs, fun t => hrest t [], hrest, ?_⟩
  · unfold GroupingSets.cartSlots
    have hcast : ((gs.length : Int) * (bb.length : Int)) = ((gs.length * bb.length : Nat) : Int) := by
      push_cast
      rfl
    have hw : wrapInt ((gs.length : Int) * (bb.length : Int)) =
        ((gs.length * bb.length : Nat) : Int) := by
      rw [hcast]
      unfold wrapInt
      omega
    simp only [hw]
    rw [if_neg (by omega)]
    have := cartOuter_spec bb gs [] (gs.length * bb.length) (Nat.le_refl _)
    simpa using this
  · intro t ht
    unfold Table.GroupBy
    have := hfold gs [bb]
    simp only [List.map_cons, List.map_nil, List.foldl_cons, List.foldl_nil] at this
    rw [ht]
    simp only [this]

/-- C25 at the sets `[a], [b]` and `[x], [y]`. -/
theorem Cart_product_witness :
    GroupingSets.cartSlots [["a"], ["b"]] [["x"], ["y"]] =
      .ok [["a", "x"], ["a", "y"], ["b", "x"], ["b", "y"]] ∧
    (GroupingSets.Cart [["a"], ["b"]] [["x"], ["y"]]).length = 2 * 2 :=
  ⟨(Cart_product [["a"], ["b"]] [["x"], ["y"]] (by decide)).1,
    (Cart_product [["a"], ["b"]] [["x"], ["y"]] (by decide)).2.1⟩

/-- C24: on a table whose error slot holds `e`, `As`, `Copy`, `Where`,
`Insert`, `Update`, `Delete`, `GroupBy` and `Select` return the stage that
holds `e` and nothing else, whatever their arguments; so do `Having` and
`Select` on a grouped table and `Distinct`, `OrderBy`, `Limit` and `Offset`
on a selected table.  `Join` returns the table itself, rows and columns
included, and `UnionAll` does not look at the error slot: it keeps `e` but
appends the columns and rows of the other table.  On the failed table
without data, `UnionAll` with the table of the column `id` and the row `[1]`
returns that column and that row under the error, and `Join` after it keeps
them. -/
theorem error_stages (e : Error) :
    (∀ t : Table, t.Err = some e →
      (∀ name, t.As name = { Err := some e }) ∧
      t.Copy = .ok { Err := some e } ∧
      (∀ cond, t.Where cond = { Err := some e }) ∧
      (∀ record, t.Insert record = { Err := some e }) ∧
      (∀ record cond, t.Update record cond = { Err := some e }) ∧
      (∀ cond, t.Delete cond = .ok { Err := some e }) ∧
      (∀ groups, t.GroupBy groups = .ok { Err := some e }) ∧
      (∀ selects, t.Select selects = .ok { Err := some e }) ∧
      (∀ joins, t.Join joins = t) ∧
      (∀ table : Table,
        (t.UnionAll table).Err = some e ∧
        (t.UnionAll table).Data.length = t.Data.length + table.Data.length)) ∧
    (∀ g : GroupedTable, g.Err = some e →
      (∀ cond, g.Having cond = { Err := some e }) ∧
      (∀ selects, g.Select selects = .ok { Err := some e })) ∧
    (∀ s : SelectedTable, s.Err = some e →
      (∀ rangeOrder, s.Distinct rangeOrder = { Err := some e }) ∧
      (∀ pdqsort orders, s.OrderBy pdqsort orders = { Err := some e }) ∧
      (∀ limit, s.Limit limit = .ok { Err := some e }) ∧
      (∀ offset, s.Offset offset = .ok { Err := some e })) ∧
    failedTable.UnionAll idTable =
      { Err := some (.identNotFound "x"), Columns := ["id"], Data := [[.num 1]] } ∧
    (failedTable.UnionAll idTable).Join [] =
      { Err := some (.identNotFound "x"), Columns := ["id"], Data := [[.num 1]] } ∧
    (failedTable.UnionAll idTable).Join [] ≠ { Err := some (.identNotFound "x") } := by
  refine ⟨?_, ?_, ?_, by decide, by decide, by decide⟩
  · intro t ht
    refine ⟨?_, ?_, ?_, ?_, ?_, ?_, ?_, ?_, ?_, ?_⟩
    · intro name; unfold Table.As; rw [ht]
    · unfold Table.Copy; rw [ht]
    · intro cond; unfold Table.Where; rw [ht]
    · intro record; unfold Table.Insert; rw [ht]
    · intro record cond; unfold Table.Update; rw [ht]
    · intro cond; unfold Table.Delete; rw [ht]
    · intro groups; unfold Table.GroupBy; rw [ht]
    · intro selects; unfold Table.Select GroupedTable.Select; simp only [ht]
    · intro joins; unfold Table.Join; rw [ht]
    · intro table
      unfold Table.UnionAll
      refine ⟨ht, ?_⟩
      simp
  · intro g hg
    refine ⟨?_, ?_⟩
    · intro cond; unfold GroupedTable.Having; rw [hg]
    · intro selects; unfold GroupedTable.Select; rw [hg]
  · intro s hs
    refine ⟨?_, ?_, ?_, ?_⟩
    · intro rangeOrder; unfold SelectedTable.Distinct; rw [hs]
    · intro pdqsort orders; unfold SelectedTable.OrderBy; rw [hs]
    · intro limit; unfold SelectedTable.Limit; rw [hs]
    · intro offset; unfold SelectedTable.Offset; rw [hs]

/-- A character is the character of its number. -/
theorem char_of_toNat (c : Char) (n : Nat) (h : c.toNat = n) : c = Char.ofNat n := by
  rw [← h, Char.ofNat_toNat]

/-- What `UnquoteChar` reads off the text `json.Marshal` writes for a
character below 93: the character. -/
theorem unquoteChar_escape_low (n : Nat) (h : n < 93) (rest : List Char) :
    ∃ (a : Char) (t : List Char), (escapeChar (Char.ofNat n)).data = a :: t ∧
      a.toNat ≠ 34 ∧ a.toNat ≠ 10 ∧
      unquoteChar (Char.ofNat 34) (a :: (t ++ rest)) = some (Char.ofNat n, rest) := by
  interval_cases n <;> exact ⟨_, _, rfl, by decide, by decide, rfl⟩

/-- What `UnquoteChar` reads off the text `json.Marshal` writes for a
character: the character. -/
theorem unquoteChar_escape (c : Char) (rest : List Char) :
    ∃ (a : Char) (t : List Char), (escapeChar c).data = a :: t ∧
      a.toNat ≠ 34 ∧ a.toNat ≠ 10 ∧
      unquoteChar (Char.ofNat 34) (a :: (t ++ rest)) = some (c, rest) := by
  by_cases hlow : c.toNat < 93
  · have hc := char_of_toNat c c.toNat rfl
    rw [hc]
    exact unquoteChar_escape_low c.toNat hlow rest
  · by_cases h1 : c.toNat = 8232
    · rw [char_of_toNat c 8232 h1]
      exact ⟨_, _, rfl, by decide, by decide, rfl⟩
    · by_cases h2 : c.toNat = 8233
      · rw [char_of_toNat c 8233 h2]
        exact ⟨_, _, rfl, by decide, by decide, rfl⟩
      · have he : escapeChar c = String.mk [c] := by
          unfold escapeChar
          rw [if_neg (by omega), if_neg (by omega), if_neg (by omega), if_neg (by omega),
            if_neg (by omega), if_neg (by omega), if_neg (by omega), if_neg (by omega),
            if_neg h1, if_neg h2]
        refine ⟨c, [], by rw [he], by omega, by omega, ?_⟩
        unfold unquoteChar
        have hq : ¬ (c = Char.ofNat 34 ∧
            ((Char.ofNat 34).toNat = 39 ∨ (Char.ofNat 34).toNat = 34)) := by
          intro h
          have : c.toNat = 34 := by rw [h.1]; decide
          omega
        simp only [List.nil_append]
        rw [if_neg hq, if_pos (by omega)]

/-- The characters of a text appended by a fold. -/
theorem foldl_append_data (l : List String) :
    ∀ acc : String, (l.foldl (fun r s => r ++ s) acc).data =
      acc.data ++ l.flatMap fun s => s.data := by
  induction l with
  | nil => intro acc; simp
  | cons x l ih =>
    intro acc
    simp only [List.foldl_cons, List.flatMap_cons]
    rw [ih, String.data_append, List.append_assoc]

/-- The characters of a quoted JSON string. -/
theorem quote_data (s : String) :
    (quote s).data =
      Char.ofNat 34 :: ((s.data.flatMap fun c => (escapeChar c).data) ++ [Char.ofNat 34]) := by
  unfold quote String.join
  rw [String.data_append, String.data_append, foldl_append_data, List.flatMap_map]
  rfl

/-- The loop of `Unquote` reads the characters back off their escaped
text. -/
theorem unquoteLoop_escapes :
    ∀ (cs buf : List Char) (fuel : Nat), cs.length + 1 ≤ fuel →
      unquoteLoop fuel ((cs.flatMap fun c => (escapeChar c).data) ++ [Char.ofNat 34]) buf =
        .ok (String.mk (buf ++ cs)) := by
  intro cs
  induction cs with
  | nil =>
    intro buf fuel hf
    obtain ⟨f, rfl⟩ : ∃ f, fuel = f + 1 := ⟨fuel - 1, by omega⟩
    simp [unquoteLoop]
  | cons c cs ih =>
    intro buf fuel hf
    simp only [List.length_cons] at hf
    obtain ⟨f, rfl⟩ : ∃ f, fuel = f + 1 := ⟨fuel - 1, by omega⟩
    obtain ⟨a, t, he, h34, h10, hu⟩ := unquoteChar_escape c
      ((cs.flatMap fun c => (escapeChar c).data) ++ [Char.ofNat 34])
    simp only [List.flatMap_cons, he, List.cons_append, List.append_assoc]
    unfold unquoteLoop
    rw [if_neg h34, if_neg h10, hu]
    simp only
    rw [ih (buf ++ [c]) f (by omega)]
    simp

/-- The escaped text of a list of characters is no shorter than the list. -/
theorem escape_length (cs : List Char) :
    cs.length ≤ (cs.flatMap fun c => (escapeChar c).data).length := by
  induction cs with
  | nil => simp
  | cons c cs ih =>
    obtain ⟨a, t, he, _⟩ := unquoteChar_escape c []
    simp only [List.flatMap_cons, he, List.length_cons, List.length_append]
    omega

/-- `Unquote` reads a string back off its quoted JSON text. -/
theorem Unquote_quote (s : String) : Unquote (quote s) = .ok s := by
  unfold Unquote
  rw [quote_data]
  simp only
  have hl := escape_length s.data
  rw [if_pos (by decide), unquoteLoop_escapes s.data [] _ (by
    simp only [List.length_append, List.length_singleton]
    omega)]
  rfl

/-- The canonical text of a value starts with a double quote when the value
is a string and only then, and with a single quote or a back quote never. -/
theorem marshal_head (v : Value) :
    ∃ (c : Char) (rest : List Char), (marshal v).data = c :: rest ∧
      c.toNat ≠ 39 ∧ c.toNat ≠ 96 ∧ (c.toNat = 34 ↔ ∃ s, v = .str s) := by
  cases v with
  | null => exact ⟨Char.ofNat 110, _, rfl, by decide, by decide, by simp⟩
  | bool b =>
    cases b
    · exact ⟨Char.ofNat 102, _, rfl, by decide, by decide, by simp⟩
    · exact ⟨Char.ofNat 116, _, rfl, by decide, by decide, by simp⟩
  | num n =>
    obtain ⟨c, rest, h1, h2⟩ := marshal_num_head n
    refine ⟨c, rest, h1, by omega, by omega, ?_⟩
    simp only [reduceCtorEq, exists_false, iff_false]
    omega
  | str s =>
    refine ⟨Char.ofNat 34,
      (s.data.flatMap fun c => (escapeChar c).data) ++ [Char.ofNat 34], ?_,
      by decide, by decide, by simp⟩
    · rw [marshal, quote_data]
  | arr vs =>
    refine ⟨Char.ofNat 91,
      (String.intercalate "," (marshalList vs)).data ++ ("]" : String).data, ?_,
      by decide, by decide, by simp⟩
    · rw [marshal, String.data_append, String.data_append]
      rfl
  | obj kvs =>
    refine ⟨Char.ofNat 123,
      (joinFields (sortFields (marshalFields kvs))).data ++ ("\x7d" : String).data, ?_,
      by decide, by decide, by simp⟩
    · rw [marshal, String.data_append, String.data_append]
      rfl
  | literal w =>
    refine ⟨Char.ofNat 123,
      (quote "Value").data ++ (":" : String).data ++ (marshal w).data ++
        ("\x7d" : String).data, ?_,
      by decide, by decide, by simp⟩
    · rw [marshal]
      simp only [String.data_append, List.append_assoc]
      rfl

/-- `Unquote` fails on the canonical text of a value that is no string. -/
theorem Unquote_not_string (v : Value) (h : ∀ s, v ≠ .str s) :
    Unquote (marshal v) = .error .invalidSyntax := by
  obtain ⟨c, rest, h1, _, _, h4⟩ := marshal_head v
  unfold Unquote
  rw [h1]
  simp only
  rw [if_neg]
  intro hc
  obtain ⟨s, hs⟩ := h4.1 hc
  exact h s hs

/-- The loop of `Concat.Variable` on operands that evaluate without error:
the builder takes the texts when all values are strings, and the loop fails
with the syntax error of `Unquote` otherwise. -/
theorem concatLoop_spec (record : SelectedRecord) :
    ∀ (c : List Variable) (vs : List Value) (b : String),
      List.Forall₂ (fun v x => v record = .ok x) c vs →
      concatLoop record c b =
        match textsOf vs with
        | some ss => .ok (.str (ss.foldl (fun r s => r ++ s) b))
        | none => .error .invalidSyntax := by
  intro c vs b h
  induction h generalizing b with
  | nil => rfl
  | @cons v x c vs hv _ ih =>
    unfold concatLoop
    rw [hv]
    simp only
    by_cases hs : ∃ s, x = .str s
    · obtain ⟨s, rfl⟩ := hs
      rw [marshal, Unquote_quote]
      simp only [textsOf]
      rw [ih]
      cases textsOf vs <;> rfl
    · have hx : ∀ s, x ≠ .str s := fun s hxs => hs ⟨s, hxs⟩
      rw [Unquote_not_string x hx]
      cases x with
      | str s => exact absurd rfl (hx s)
      | _ => rfl

/-- C23: on operands that evaluate without error, `Concat.Variable` succeeds
only when every value is a string, and then returns the concatenation of the
strings; as soon as one value is a number or a boolean (or anything but a
string) it fails with the syntax error of `strconv.Unquote`, which the
canonical text of such a value, having no quotes, cannot pass.
`Concat[Literal("a"), Literal(1)]` is that error, not `a1`; so is `Concat` of
any one number or boolean; `Concat[Literal("a"), Literal("1")]` is `a1`. -/
theorem Concat_Variable_strings_only :
    (∀ (c : List Variable) (record : SelectedRecord) (vs : List Value),
      List.Forall₂ (fun v x => v record = .ok x) c vs →
      Concat.Variable c record =
        match textsOf vs with
        | some ss => .ok (.str (String.join ss))
        | none => .error .invalidSyntax) ∧
    (∀ record : SelectedRecord,
      Concat.Variable [Literal.Variable (.str "a"), Literal.Variable (.num 1)] record =
        .error .invalidSyntax) ∧
    (∀ (n : Int) (record : SelectedRecord),
      Concat.Variable [Literal.Variable (.num n)] record = .error .invalidSyntax) ∧
    (∀ (b : Bool) (record : SelectedRecord),
      Concat.Variable [Literal.Variable (.bool b)] record = .error .invalidSyntax) ∧
    (∀ record : SelectedRecord,
      Concat.Variable [Literal.Variable (.str "a"), Literal.Variable (.str "1")] record =
        .ok (.str "a1")) := by
  have hgen : ∀ (c : List Variable) (record : SelectedRecord) (vs : List Value),
      List.Forall₂ (fun v x => v record = .ok x) c vs →
      Concat.Variable c record =
        match textsOf vs with
        | some ss => .ok (.str (String.join ss))
        | none => .error .invalidSyntax := by
    intro c record vs h
    unfold Concat.Variable
    rw [concatLoop_spec record c vs "" h]
    rfl
  refine ⟨hgen, ?_, ?_, ?_, ?_⟩
  · intro record
    exact hgen _ record [.str "a", .num 1]
      (List.Forall₂.cons rfl (List.Forall₂.cons rfl List.Forall₂.nil))
  · intro n record
    exact hgen _ record [.num n] (List.Forall₂.cons rfl List.Forall₂.nil)
  · intro b record
    exact hgen _ record [.bool b] (List.Forall₂.cons rfl List.Forall₂.nil)
  · intro record
    exact hgen _ record [.str "a", .str "1"]
      (List.Forall₂.cons rfl (List.Forall₂.cons rfl List.Forall₂.nil))

/-- A character is a dot when its number is 46. -/
theorem dot_iff (ch : Char) : ch.toNat = 46 ↔ ch = '.' := by
  constructor
  · intro h
    rw [char_of_toNat ch 46 h]
  · intro h
    rw [h]
    rfl

/-- A text has one decomposition at its last dot. -/
theorem last_dot_unique :
    ∀ (a a' b b' : List Char), a ++ '.' :: b = a' ++ '.' :: b' →
      (∀ ch ∈ b, ch ≠ '.') → (∀ ch ∈ b', ch ≠ '.') → a = a' ∧ b = b' := by
  intro a
  induction a with
  | nil =>
    intro a' b b' h hb hbd
    cases a' with
    | nil => simpa using h
    | cons x xs =>
      simp only [List.nil_append, List.cons_append, List.cons.injEq] at h
      exact absurd rfl (hb '.' (by rw [h.2]; simp))
  | cons y ys ih =>
    intro a' b b' h hb hbd
    cases a' with
    | nil =>
      simp only [List.nil_append, List.cons_append, List.cons.injEq] at h
      exact absurd rfl (hbd '.' (by rw [← h.2]; simp))
    | cons x xs =>
      simp only [List.cons_append, List.cons.injEq] at h
      obtain ⟨h1, h2⟩ := ih xs b b' h.2 hb hbd
      exact ⟨by rw [h.1, h1], h2⟩

/-- The slice of the code up to the last dot equals `s` exactly when `s` is
the prefix of the claim. -/
theorem uptoLastDot_claim (s c : String) : (uptoLastDot c == s) = claimPrefix s c := by
  unfold claimPrefix
  rcases last_dot_cases c.data with h | ⟨a, dot, b, hc, hdot, hb⟩
  · have hall : c.data.all (fun ch => ch != '.') = true := by
      rw [List.all_eq_true]
      intro ch hch
      have := h ch hch
      simp only [bne_iff_ne, ne_eq]
      exact fun he => this ((dot_iff ch).2 he)
    rw [uptoLastDot_spec.1 c h, if_pos hall]
    cases hs : s.data with
    | nil =>
      have : s = "" := String.ext hs
      subst this
      rfl
    | cons x xs =>
      have : ¬ ("" = s) := by
        intro he
        rw [← he] at hs
        cases hs
      simp [this]
  · have hd : dot = '.' := (dot_iff dot).1 hdot
    subst hd
    have hbd : ∀ ch ∈ b, ch ≠ '.' := fun ch hch he => hb ch hch ((dot_iff ch).2 he)
    have hcs : c = String.mk (a ++ '.' :: b) := String.ext hc
    have hnall : ¬ (c.data.all (fun ch => ch != '.') = true) := by
      rw [List.all_eq_true]
      intro hall
      have := hall '.' (by rw [hc]; simp)
      simp at this
    rw [if_neg hnall, hcs, uptoLastDot_spec.2 a b '.' hdot hb]
    by_cases hs : s.data = a ++ ['.']
    · have hse : s = String.mk (a ++ ['.']) := String.ext hs
      rw [hse]
      simp only [beq_self_eq_true, List.getLast?_append, List.getLast?_singleton,
        Option.or_some, List.length_append, List.length_singleton, Bool.true_and]
      symm
      rw [Bool.and_eq_true]
      constructor
      · simp [List.isPrefixOf_iff_prefix]
      · have : List.drop (a.length + 1) (a ++ '.' :: b) = b := by
          have : a ++ '.' :: b = (a ++ ['.']) ++ b := by simp
          rw [this]
          exact List.drop_left' (by simp)
        rw [this, List.all_eq_true]
        intro ch hch
        simpa using hbd ch hch
    · have hne : (String.mk (a ++ ['.']) == s) = false := by
        rw [beq_eq_false_iff_ne]
        intro he
        exact hs (by rw [← he])
      rw [hne]
      symm
      rw [Bool.eq_false_iff]
      intro hall
      simp only [Bool.and_eq_true, beq_iff_eq, List.all_eq_true, bne_iff_ne, ne_eq] at hall
      obtain ⟨⟨hlast, hpre⟩, hrest⟩ := hall
      rw [List.isPrefixOf_iff_prefix] at hpre
      obtain ⟨t, ht⟩ := hpre
      have hdrop : List.drop s.data.length (a ++ '.' :: b) = t := by
        rw [← ht]
        exact List.drop_left' rfl
      rw [hdrop] at hrest
      have hsne : s.data ≠ [] := by
        intro he
        rw [he] at hlast
        simp at hlast
      have hsplit := List.dropLast_append_getLast? '.' hlast
      have ht2 : s.data.dropLast ++ '.' :: t = a ++ '.' :: b := by
        rw [← ht]
        conv_rhs => rw [← hsplit]
        simp
      obtain ⟨h1, _⟩ := last_dot_unique _ _ _ _ ht2 hrest hbd
      exact hs (by rw [← hsplit, h1])

/-- The match test of the code is the rule of the claim. -/
theorem identMatch_claim (s c : String) : identMatch s c = claimMatch s c := by
  unfold identMatch claimMatch
  rw [uptoLastDot_claim]

/-- The positions the loop of `Ident` meets a match at. -/
theorem matchPositions_filter (s : String) :
    ∀ (cols : List String) (j : Nat),
      matchPositions s cols j =
        ((List.range cols.length).filter fun k => claimMatch s (cols.getD k "")).map
          fun k => k + j := by
  intro cols
  induction cols with
  | nil => intro j; rfl
  | cons c cs ih =>
    intro j
    unfold matchPositions
    rw [ih (j + 1), identMatch_claim]
    simp only [List.length_cons, List.range_succ_eq_map, List.filter_cons, List.getD_cons_zero,
      List.filter_map, List.map_map]
    have hshift : ∀ l : List Nat,
        List.map (fun k => k + j) (List.map Nat.succ l) = List.map (fun k => k + (j + 1)) l := by
      intro l
      rw [List.map_map]
      apply List.map_congr_left
      intro k _
      simp only [Function.comp, Nat.succ_eq_add_one]
      omega
    have hf : ((fun k => claimMatch s ((c :: cs).getD k "")) ∘ Nat.succ) =
        fun k => claimMatch s (cs.getD k "") := by
      funext k
      simp
    rw [hf]
    cases hm : claimMatch s c
    · simp only [Bool.false_eq_true, if_false, hshift]
    · simp only [if_true, List.map_cons, Nat.zero_add, hshift]

/-- The matching positions of the code are the set `M` of the claim. -/
theorem matching_claim (s : String) (cols : List String) :
    matching s cols = claimMatching s cols := by
  unfold matching claimMatching
  rw [matchPositions_filter]
  simp

/-- C6: `Ident(s).Variable` resolves against the source columns first.  With
`M` the source columns `c` such that `c` equals `s` or the prefix of `c` up to
and including its last dot (empty when `c` has no dot) equals `s`, the call
fails as ambiguous when `M` has more than one element, returns the source
value at the matched position (null when the row is shorter) when it has
one, and only when it has none applies the same rule to the selected
columns, failing as not found when those match nothing either. -/
theorem Ident_Variable_resolution (s : String) (record : SelectedRecord) :
    (1 < (claimMatching s record.Source.Columns).length →
      Ident.Variable s record = .error (.identAmbiguous s)) ∧
    (∀ j, claimMatching s record.Source.Columns = [j] →
      Ident.Variable s record = .ok (record.Source.Values.getD j Value.null)) ∧
    (claimMatching s record.Source.Columns = [] →
      (1 < (claimMatching s record.Selected.Columns).length →
        Ident.Variable s record = .error (.identAmbiguous s)) ∧
      (∀ j, claimMatching s record.Selected.Columns = [j] →
        Ident.Variable s record = .ok (record.Selected.Values.getD j Value.null)) ∧
      (claimMatching s record.Selected.Columns = [] →
        Ident.Variable s record = .error (.identNotFound s))) := by
  rw [← matching_claim, ← matching_claim]
  exact Ident_Variable_matching s record

/-- C6 at a record with the source columns `users.name`, `accounts.id` and
the identifier `users.`, the prefix of the first column up to and including
its last dot. -/
theorem Ident_Variable_resolution_witness :
    claimMatching "users." ["users.name", "accounts.id"] = [0] ∧
    Ident.Variable "users."
        { Source := { Columns := ["users.name", "accounts.id"],
                      Values := [.str "Max", .num 7] } } =
      .ok (.str "Max") :=
  ⟨by decide,
   (Ident_Variable_resolution "users."
      { Source := { Columns := ["users.name", "accounts.id"],
                    Values := [.str "Max", .num 7] } }).2.1 0 (by decide)⟩

/-- The records of a selected table are as many as its projected rows. -/
theorem recordsOf_length (s : SelectedTable) :
    (recordsOf s).length = s.Selected.Data.length := by
  unfold recordsOf
  simp

/-- C19, the claim as worded fails: in the projection
`Select(As\x7b"a", Ident("b")\x7d)` of the rows `(a, b) = (2, 1), (1, 2)` the
output column `a` reads 1, 2; `OrderBy(Asc\x7bIdent("a")\x7d)` succeeds and
returns the rows `[2], [1]`, an adjacent pair of numbers whose second is less
than its first: the sort has read the source column `a`. -/
theorem OrderBy_Asc_shadowed_column :
    Table.Select shadowSource [As.Select "a" (Ident.Select "b")] = .ok shadowSelected ∧
    shadowSelected.Err = none ∧
    (∀ pdqsort : Sorter,
      shadowSelected.OrderBy pdqsort [Asc.OrderBy (Ident.Variable "a") false] =
        { Selected := { Columns := ["a"], Data := [[.num 2], [.num 1]] } }) ∧
    valueLess (.num 1) (.num 2) = true := by
  refine ⟨by decide, rfl, fun _ => of_decide_eq_true rfl, by decide⟩

/-- C19, amended: for an error-free selected table `s` of at most twelve
rows (which the library sorts by insertion) and a name `c`, if
`s.OrderBy(Asc\x7bIdent(c), nullsLast\x7d)` succeeds, then its output keeps the
output columns and its rows are the projected rows of a reordering `recs` of
the records of `s`, hence a reordering of the projected rows of `s`; every
two neighbours of `recs` are in ascending order of their sort keys, the
values `Ident(c)` resolves to on the records (source columns first): when
both keys are non-null and of one gjson type, the second is not less than the
first in the order of gjson (numbers as the nearest `float64`).  When `c`
matches no source column and exactly one output column, the keys are the
values of that output column, and every two neighbouring output rows are in
ascending order there. -/
theorem OrderBy_Asc_keys (pdqsort : Sorter) (s : SelectedTable) (c : String)
    (nullsLast : Bool) (hs : s.Err = none) (hrows : s.Selected.Data.length ≤ 12)
    (hok : (s.OrderBy pdqsort [Asc.OrderBy (Ident.Variable c) nullsLast]).Err = none) :
    ∃ recs : List SelectedRecord,
      recs.Perm (recordsOf s) ∧
      s.OrderBy pdqsort [Asc.OrderBy (Ident.Variable c) nullsLast] =
        { Selected :=
            { Columns := s.Selected.Columns
              Data := recs.map fun r => r.Selected.Values } } ∧
      (s.OrderBy pdqsort [Asc.OrderBy (Ident.Variable c) nullsLast]).Selected.Data.Perm
        s.Selected.Data ∧
      List.Chain' (keyOrdered c) recs ∧
      (∀ p : Nat, claimMatching c s.Source.Columns = [] →
        claimMatching c s.Selected.Columns = [p] →
        List.Chain' (placeOrdered p)
          (s.OrderBy pdqsort [Asc.OrderBy (Ident.Variable c) nullsLast]).Selected.Data) := by
  obtain ⟨hchain, hperm⟩ := sortSlice_spec pdqsort [Asc.OrderBy (Ident.Variable c) nullsLast]
    { arr := recordsOf s, err := none } (by rw [recordsOf_length]; exact hrows)
  rw [OrderBy_eq s pdqsort _ hs] at hok ⊢
  cases herr : (sortSlice pdqsort [Asc.OrderBy (Ident.Variable c) nullsLast]
      { arr := recordsOf s, err := none }).err with
  | some e =>
    rw [herr] at hok
    cases hok
  | none =>
    simp only
    have hkeys : List.Chain' (keyOrdered c)
        (sortSlice pdqsort [Asc.OrderBy (Ident.Variable c) nullsLast]
          { arr := recordsOf s, err := none }).arr := by
      refine (hchain herr).imp ?_
      intro a b hab va vb ha hb hna hnb ht
      exact inOrder_Asc (Ident.Variable c) nullsLast a b va vb hab ha hb hna hnb ht
    refine ⟨_, hperm, rfl, ?_, hkeys, ?_⟩
    · rw [← recordsOf_values s]
      exact hperm.map _
    · intro p h0 h1
      rw [← matching_claim] at h0 h1
      rw [List.chain'_map]
      rw [List.Chain'.iff_mem] at hkeys
      refine hkeys.imp ?_
      intro a b hab
      obtain ⟨hma, hmb, hab⟩ := hab
      obtain ⟨ha0, ha1⟩ := mem_recordsOf s a (hperm.subset hma)
      obtain ⟨hb0, hb1⟩ := mem_recordsOf s b (hperm.subset hmb)
      intro hna hnb ht
      exact hab _ _
        (Ident_Variable_selected c a p (by rw [ha0]; exact h0) (by rw [ha1]; exact h1))
        (Ident_Variable_selected c b p (by rw [hb0]; exact h0) (by rw [hb1]; exact h1))
        hna hnb ht

/-- C19 at a selected table of the three rows 3, 1, 2 in the output column
`v`. -/
theorem OrderBy_Asc_keys_witness :
    sortedSample.Err = none ∧ sortedSample.Selected.Data.length ≤ 12 ∧
    (sortedSample.OrderBy (fun _ st => st)
      [Asc.OrderBy (Ident.Variable "v") false]).Err = none ∧
    ∃ recs : List SelectedRecord,
      recs.Perm (recordsOf sortedSample) ∧
      sortedSample.OrderBy (fun _ st => st) [Asc.OrderBy (Ident.Variable "v") false] =
        { Selected :=
            { Columns := sortedSample.Selected.Columns
              Data := recs.map fun r => r.Selected.Values } } ∧
      (sortedSample.OrderBy (fun _ st => st)
        [Asc.OrderBy (Ident.Variable "v") false]).Selected.Data.Perm
        sortedSample.Selected.Data ∧
      List.Chain' (keyOrdered "v") recs ∧
      (∀ p : Nat, claimMatching "v" sortedSample.Source.Columns = [] →
        claimMatching "v" sortedSample.Selected.Columns = [p] →
        List.Chain' (placeOrdered p)
          (sortedSample.OrderBy (fun _ st => st)
            [Asc.OrderBy (Ident.Variable "v") false]).Selected.Data) :=
  ⟨rfl, by decide, by decide,
    OrderBy_Asc_keys (fun _ st => st) sortedSample "v" false rfl (by decide) (by decide)⟩

/-- Arrays added to the memory leave the elements of a slice as they are. -/
theorem values_grow (m : Memory) (s : Slice) (h : s.whole m) (ext : Memory) :
    s.values (m ++ ext) = s.values m := by
  unfold Slice.whole at h
  unfold Slice.values at h ⊢
  by_cases ha : s.arr < m.length
  · rw [List.getD_append _ _ _ _ ha]
  · rw [List.getD_eq_default m _ (by omega)] at h ⊢
    simp only [List.drop_nil, List.take_nil, List.length_nil] at h
    rw [← h]
    simp

/-- Arrays added to the memory leave a slice within its array. -/
theorem whole_grow (m : Memory) (s : Slice) (h : s.whole m) (ext : Memory) :
    s.whole (m ++ ext) := by
  unfold Slice.whole
  rw [values_grow m s h ext]
  exact h

/-- The store of an array into its own place leaves the memory as it is. -/
theorem set_getD_self (m : Memory) (i : Nat) : m.set i (m.getD i []) = m := by
  by_cases h : i < m.length
  · rw [List.getD_eq_getElem m [] h]
    apply List.ext_getElem (by simp)
    intro n h1 h2
    rw [List.getElem_set]
    split
    · rename_i he
      subst he
      rfl
    · rfl
  · exact List.set_eq_of_length_le (by omega)

/-- `append` on a slice without spare capacity: the memory only grows, and the
result holds the elements followed by the values. -/
theorem goAppend_whole (spare : Nat → Nat → Nat) (m : Memory) (s : Slice) (vals : Row)
    (hcap : s.cap = s.len) (h : s.whole m) :
    ∃ ext : Memory, (goAppend spare m s vals).1 = m ++ ext ∧
      (goAppend spare m s vals).2.values (m ++ ext) = s.values m ++ vals ∧
      (goAppend spare m s vals).2.whole (m ++ ext) := by
  cases vals with
  | nil =>
    refine ⟨[], ?_, ?_, ?_⟩
    · unfold goAppend
      rw [if_pos (by simp [hcap])]
      simp only [writeAt, List.append_nil]
      exact set_getD_self m s.arr
    · unfold goAppend
      rw [if_pos (by simp [hcap])]
      simp only [List.length_nil, Nat.add_zero, List.append_nil]
    · unfold goAppend
      rw [if_pos (by simp [hcap])]
      simp only [List.length_nil, Nat.add_zero, List.append_nil]
      exact h
  | cons v vs =>
    have hval : (goAppend spare m s (v :: vs)).2.values
        (m ++ [s.values m ++ (v :: vs) ++
          List.replicate (spare s.cap (s.len + (v :: vs).length)) Value.null]) =
        s.values m ++ (v :: vs) := by
      unfold goAppend
      rw [if_neg (by simp only [List.length_cons, hcap]; omega)]
      unfold Slice.values
      simp only [List.drop_zero]
      rw [List.getD_append_right _ _ _ _ (Nat.le_refl _)]
      simp only [Nat.sub_self, List.getD_cons_zero]
      unfold Slice.whole Slice.values at h
      exact List.take_left' (by rw [List.length_append, h])
    refine ⟨[s.values m ++ (v :: vs) ++
      List.replicate (spare s.cap (s.len + (v :: vs).length)) Value.null], ?_, hval, ?_⟩
    · unfold goAppend
      rw [if_neg (by simp only [List.length_cons, hcap]; omega)]
    · unfold Slice.whole
      rw [hval]
      unfold Slice.whole at h
      unfold goAppend
      rw [if_neg (by simp only [List.length_cons, hcap]; omega)]
      simp [h]

/-- The inner loop of the left join on slices, for a left row without spare
capacity: the memory only grows, and the rows added read as the left row
followed by each right row the loop finds matching. -/
theorem joinInnerMem_spec (spare : Nat → Nat → Nat) (onCond : Condition)
    (columns : List String) (dl : Slice) (hcap : dl.cap = dl.len) :
    ∀ (rs : List Slice) (m : Memory) (data : List Slice) (found : Bool),
      dl.whole m → (∀ dr ∈ rs, dr.whole m) →
      (∀ dr ∈ rs, ∃ b, onCond (rowRecord columns (dl.values m ++ dr.values m)) = .ok b) →
      ∃ (ext : Memory) (news : List Slice),
        joinInnerMem spare onCond columns dl rs m data found =
          .ok (m ++ ext, data ++ news,
            found || decide ((matchingRows onCond columns (dl.values m)
              (rs.map fun d => d.values m)).length ≠ 0)) ∧
        news.map (fun d => d.values (m ++ ext)) =
          (matchingRows onCond columns (dl.values m) (rs.map fun d => d.values m)).map
            (fun dr => dl.values m ++ dr) ∧
        (∀ d ∈ news, d.whole (m ++ ext)) := by
  intro rs
  induction rs with
  | nil =>
    intro m data found _ _ _
    refine ⟨[], [], ?_, ?_, ?_⟩
    · simp [joinInnerMem, matchingRows]
    · simp [matchingRows]
    · intro d hd
      cases hd
  | cons dr rest ih =>
    intro m data found hd hrs hc
    obtain ⟨e1, h1m, h1v, _⟩ := goAppend_whole spare m dl (dr.values m) hcap hd
    obtain ⟨b, hb⟩ := hc dr (List.mem_cons_self _ _)
    have hb' : onCond { Source := { Columns := columns, Values := dl.values m ++ dr.values m } } =
        .ok b := hb
    have hdr : dr.whole m := hrs dr (List.mem_cons_self _ _)
    have hrest : ∀ d ∈ rest, d.whole m := fun d hd => hrs d (List.mem_cons_of_mem _ hd)
    have hcrest : ∀ d ∈ rest,
        ∃ b, onCond (rowRecord columns (dl.values m ++ d.values m)) = .ok b :=
      fun d hd => hc d (List.mem_cons_of_mem _ hd)
    unfold joinInnerMem
    simp only
    rw [h1m, h1v, hb']
    cases b with
    | true =>
      simp only [if_true]
      rw [values_grow m dr hdr e1]
      obtain ⟨e2, h2m, h2v, h2w⟩ := goAppend_whole spare (m ++ e1) dl (dr.values m)
        hcap (whole_grow m dl hd e1)
      rw [values_grow m dl hd e1] at h2v
      rw [h2m]
      have hd2 : dl.whole (m ++ e1 ++ e2) := by
        rw [List.append_assoc]
        exact whole_grow m dl hd _
      have hv2 : ∀ s : Slice, s.whole m → s.values (m ++ e1 ++ e2) = s.values m := by
        intro s hs
        rw [List.append_assoc]
        exact values_grow m s hs _
      have hrest2 : ∀ d ∈ rest, d.whole (m ++ e1 ++ e2) := by
        intro d hdm
        rw [List.append_assoc]
        exact whole_grow m d (hrest d hdm) _
      have hmap2 : (rest.map fun d => d.values (m ++ e1 ++ e2)) =
          rest.map fun d => d.values m :=
        List.map_congr_left (fun d hdm => hv2 d (hrest d hdm))
      obtain ⟨ext, news, hres, hnews, hwhole⟩ := ih (m ++ e1 ++ e2)
        (data ++ [(goAppend spare (m ++ e1) dl (dr.values m)).2]) true hd2 hrest2 (by
          intro d hdm
          rw [hv2 dl hd, hv2 d (hrest d hdm)]
          exact hcrest d hdm)
      rw [hv2 dl hd, hmap2] at hres hnews
      refine ⟨e1 ++ e2 ++ ext,
        (goAppend spare (m ++ e1) dl (dr.values m)).2 :: news, ?_, ?_, ?_⟩
      · rw [hres]
        have hdec : decide (onCond (rowRecord columns (dl.values m ++ dr.values m)) = .ok true) =
            true := by simp [hb]
        simp [matchingRows, List.filter_cons, hdec, List.append_assoc]
      · have hdec : decide (onCond (rowRecord columns (dl.values m ++ dr.values m)) = .ok true) =
            true := by simp [hb]
        have hassoc : m ++ (e1 ++ e2 ++ ext) = m ++ e1 ++ e2 ++ ext := by
          simp [List.append_assoc]
        rw [hassoc]
        simp only [List.map_cons, matchingRows, List.filter_cons, hdec, if_true]
        rw [values_grow _ _ h2w ext, h2v]
        unfold matchingRows at hnews
        rw [hnews]
      · have hassoc : m ++ (e1 ++ e2 ++ ext) = m ++ e1 ++ e2 ++ ext := by
          simp [List.append_assoc]
        rw [hassoc]
        intro d hdm
        rcases List.mem_cons.1 hdm with rfl | hdm
        · exact whole_grow _ _ h2w ext
        · exact hwhole d hdm
    | false =>
      simp only [Bool.false_eq_true, if_false]
      have hd1 : dl.whole (m ++ e1) := whole_grow m dl hd e1
      have hrest1 : ∀ d ∈ rest, d.whole (m ++ e1) :=
        fun d hdm => whole_grow m d (hrest d hdm) e1
      have hmap1 : (rest.map fun d => d.values (m ++ e1)) = rest.map fun d => d.values m :=
        List.map_congr_left (fun d hdm => values_grow m d (hrest d hdm) e1)
      obtain ⟨ext, news, hres, hnews, hwhole⟩ := ih (m ++ e1) data found hd1 hrest1 (by
        intro d hdm
        rw [values_grow m dl hd e1, values_grow m d (hrest d hdm) e1]
        exact hcrest d hdm)
      rw [values_grow m dl hd e1, hmap1] at hres hnews
      have hdec : decide (onCond (rowRecord columns (dl.values m ++ dr.values m)) = .ok true) =
          false := by simp [hb]
      refine ⟨e1 ++ ext, news, ?_, ?_, ?_⟩
      · rw [hres]
        simp [matchingRows, List.filter_cons, hdec, List.append_assoc]
      · rw [← List.append_assoc]
        simp only [matchingRows, List.map_cons, List.filter_cons, hdec]
        unfold matchingRows at hnews
        rw [hnews]
        simp
      · rw [← List.append_assoc]
        exact hwhole

/-- The outer loop of the left join on slices, for left rows without spare
capacity: the memory only grows, and the rows added read, left row by left
row, as the rows the loop owes to it. -/
theorem joinOuterMem_spec (spare : Nat → Nat → Nat) (onCond : Condition)
    (columns : List String) (r : SliceTable) :
    ∀ (ls : List Slice) (m : Memory) (data : List Slice),
      (∀ dl ∈ ls, dl.whole m ∧ dl.cap = dl.len) → (∀ dr ∈ r.Data, dr.whole m) →
      (∀ dl ∈ ls, ∀ dr ∈ r.Data,
        ∃ b, onCond (rowRecord columns (dl.values m ++ dr.values m)) = .ok b) →
      ∃ (ext : Memory) (news : List Slice),
        joinOuterMem spare onCond columns r ls m data = .ok (m ++ ext, data ++ news) ∧
        news.map (fun d => d.values (m ++ ext)) =
          (ls.map fun d => d.values m).flatMap (rowsFor onCond columns (r.table m)) ∧
        (∀ d ∈ news, d.whole (m ++ ext)) := by
  intro ls
  induction ls with
  | nil =>
    intro m data _ _ _
    refine ⟨[], [], ?_, ?_, ?_⟩
    · simp [joinOuterMem]
    · simp
    · intro d hd
      cases hd
  | cons dl rest ih =>
    intro m data hls hr hc
    obtain ⟨hdw, hcap⟩ := hls dl (List.mem_cons_self _ _)
    have hrestw : ∀ d ∈ rest, d.whole m ∧ d.cap = d.len :=
      fun d hd => hls d (List.mem_cons_of_mem _ hd)
    obtain ⟨e1, news1, hin, hnews1, hwhole1⟩ := joinInnerMem_spec spare onCond columns dl hcap
      r.Data m data false hdw hr (hc dl (List.mem_cons_self _ _))
    have hgrow : ∀ (ext : Memory),
        (∀ d ∈ rest, d.whole (m ++ ext) ∧ d.cap = d.len) ∧ (∀ d ∈ r.Data, d.whole (m ++ ext)) ∧
        (∀ d ∈ rest, ∀ dr ∈ r.Data,
          ∃ b, onCond (rowRecord columns (d.values (m ++ ext) ++ dr.values (m ++ ext))) =
            .ok b) ∧
        ((rest.map fun d => d.values (m ++ ext)) = rest.map fun d => d.values m) ∧
        r.table (m ++ ext) = r.table m := by
      intro ext
      refine ⟨fun d hd => ⟨whole_grow m d (hrestw d hd).1 ext, (hrestw d hd).2⟩,
        fun d hd => whole_grow m d (hr d hd) ext, ?_, ?_, ?_⟩
      · intro d hd dr hdr
        rw [values_grow m d (hrestw d hd).1 ext, values_grow m dr (hr dr hdr) ext]
        exact hc d (List.mem_cons_of_mem _ hd) dr hdr
      · exact List.map_congr_left (fun d hd => values_grow m d (hrestw d hd).1 ext)
      · unfold SliceTable.table
        congr 1
        exact List.map_congr_left (fun d hd => values_grow m d (hr d hd) ext)
    have hdata : (r.Data.map fun d => d.values m) = (r.table m).Data := rfl
    unfold joinOuterMem
    rw [hin]
    simp only [Bool.false_or]
    by_cases hm : (matchingRows onCond columns (dl.values m)
        (r.Data.map fun d => d.values m)).length = 0
    · have hnil : matchingRows onCond columns (dl.values m) (r.Data.map fun d => d.values m) =
          [] := List.length_eq_zero.1 hm
      have hnews1nil : news1 = [] := by
        rw [hnil] at hnews1
        simpa using hnews1
      subst hnews1nil
      simp only [hm, ne_eq, not_true_eq_false, decide_False, Bool.not_false, if_true,
        List.append_nil]
      obtain ⟨e3, h3m, h3v, h3w⟩ := goAppend_whole spare (m ++ e1) dl
        (List.replicate r.Columns.length Value.null) hcap (whole_grow m dl hdw e1)
      rw [values_grow m dl hdw e1] at h3v
      rw [h3m]
      obtain ⟨g1, g2, g3, g4, g5⟩ := hgrow (e1 ++ e3)
      rw [← List.append_assoc] at g1 g2 g3 g4 g5
      obtain ⟨ext, news, hres, hnews, hwhole⟩ := ih (m ++ e1 ++ e3)
        (data ++ [(goAppend spare (m ++ e1) dl
          (List.replicate r.Columns.length Value.null)).2]) g1 g2 g3
      rw [g4, g5] at hnews
      refine ⟨e1 ++ e3 ++ ext,
        (goAppend spare (m ++ e1) dl (List.replicate r.Columns.length Value.null)).2 :: news,
        ?_, ?_, ?_⟩
      · rw [hres]
        simp [List.append_assoc]
      · have hassoc : m ++ (e1 ++ e3 ++ ext) = m ++ e1 ++ e3 ++ ext := by
          simp [List.append_assoc]
        rw [hassoc]
        simp only [List.map_cons, List.flatMap_cons]
        rw [values_grow _ _ h3w ext, h3v, hnews]
        have hrow : rowsFor onCond columns (r.table m) (dl.values m) =
            [dl.values m ++ List.replicate r.Columns.length Value.null] := by
          unfold rowsFor
          rw [← hdata, if_pos hm]
          rfl
        rw [hrow]
        rfl
      · have hassoc : m ++ (e1 ++ e3 ++ ext) = m ++ e1 ++ e3 ++ ext := by
          simp [List.append_assoc]
        rw [hassoc]
        intro d hdm
        rcases List.mem_cons.1 hdm with rfl | hdm
        · exact whole_grow _ _ h3w ext
        · exact hwhole d hdm
    · simp only [hm, ne_eq, not_false_eq_true, decide_True, Bool.not_true, Bool.false_eq_true,
        if_false]
      obtain ⟨g1, g2, g3, g4, g5⟩ := hgrow e1
      obtain ⟨ext, news, hres, hnews, hwhole⟩ := ih (m ++ e1) (data ++ news1) g1 g2 g3
      rw [g4, g5] at hnews
      refine ⟨e1 ++ ext, news1 ++ news, ?_, ?_, ?_⟩
      · rw [hres]
        simp [List.append_assoc]
      · rw [← List.append_assoc]
        simp only [List.map_append, List.map_cons, List.flatMap_cons]
        rw [hnews]
        have h1 : (news1.map fun d => d.values (m ++ e1 ++ ext)) =
            news1.map fun d => d.values (m ++ e1) :=
          List.map_congr_left (fun d hd => values_grow _ d (hwhole1 d hd) ext)
        rw [h1, hnews1]
        have hrow : rowsFor onCond columns (r.table m) (dl.values m) =
            (matchingRows onCond columns (dl.values m) (r.Data.map fun d => d.values m)).map
              fun dr => dl.values m ++ dr := by
          unfold rowsFor
          rw [← hdata, if_neg hm]
        rw [hrow]
      · rw [← List.append_assoc]
        intro d hdm
        rcases List.mem_append.1 hdm with h | h
        · exact whole_grow _ _ (hwhole1 d h) ext
        · exact hwhole d h

/-- A row as long as the left columns reads through them as itself. -/
theorem aligned_self (n : Nat) (dl : Row) (h : dl.length = n) :
    (List.range n).map (fun (j : Nat) => readValue dl (j : Int)) = dl := by
  apply List.ext_getElem
  · simp [h]
  · intro k h1 h2
    simp only [List.getElem_map, List.getElem_range, readValue_natCast]
    exact List.getD_eq_getElem dl Value.null h2

/-- For a left row as long as the left columns, the right rows the loop finds
matching are the matching right rows. -/
theorem matchingRows_pairs (onCond : Condition) (lcols rcols : List String) (dl : Row)
    (rdata : List Row) (h : dl.length = lcols.length) :
    matchingRows onCond (lcols ++ rcols) dl rdata =
      matchingPairs onCond lcols rcols dl rdata := by
  unfold matchingRows matchingPairs alignedPair
  rw [aligned_self lcols.length dl h]

/-- For a left row as long as the left columns, the rows the loop owes to it
are the rows the join owes to it. -/
theorem rowsFor_owed (onCond : Condition) (lcols : List String) (r : Table) (dl : Row)
    (h : dl.length = lcols.length) :
    rowsFor onCond (lcols ++ r.Columns) r dl = owedRows onCond lcols r.Columns r.Data dl := by
  unfold rowsFor owedRows
  rw [matchingRows_pairs onCond lcols r.Columns dl r.Data h]

/-- The left join on slices without spare capacity in the left rows. -/
theorem joinMem_rows (spare : Nat → Nat → Nat) (onCond : Condition) (m : Memory)
    (l r : SliceTable) (hl : l.Err = none) (hr : r.Err = none) (hne : r.Columns ≠ [])
    (hlw : ∀ dl ∈ l.Data, dl.whole m ∧ dl.cap = dl.len) (hrw : ∀ dr ∈ r.Data, dr.whole m)
    (hc : ∀ dl ∈ l.Data, ∀ dr ∈ r.Data,
      ∃ b, onCond (rowRecord (l.Columns ++ r.Columns) (dl.values m ++ dr.values m)) = .ok b) :
    joinResult spare onCond m l r =
      { Columns := l.Columns ++ r.Columns
        Data := (l.table m).Data.flatMap
          (rowsFor onCond (l.Columns ++ r.Columns) (r.table m)) } := by
  obtain ⟨ext, news, hres, hnews, _⟩ := joinOuterMem_spec spare onCond
    (l.Columns ++ r.Columns) r l.Data m [] hlw hrw hc
  have hlen : ¬ r.Columns.length = 0 := fun h => hne (List.length_eq_zero.1 h)
  unfold joinResult LeftJoin.joinMem
  simp only [hl, hr, hlen, if_false, hres, List.nil_append]
  unfold SliceTable.table
  simp only [hnews]
  rfl

/-- A left row is owed one row, or as many as it has matching right rows. -/
theorem length_owedRows (onCond : Condition) (lcols rcols : List String) (rdata : List Row)
    (dl : Row) :
    (owedRows onCond lcols rcols rdata dl).length =
      max 1 (matchingPairs onCond lcols rcols dl rdata).length := by
  unfold owedRows
  by_cases hm : (matchingPairs onCond lcols rcols dl rdata).length = 0
  · simp [hm]
  · simp only [hm, if_false, List.length_map]
    omega

/-- Two functions that agree on the elements of a list give it the same
concatenation. -/
theorem flatMap_congr_mem {α β : Type} (f g : α → List β) :
    ∀ l : List α, (∀ a ∈ l, f a = g a) → l.flatMap f = l.flatMap g := by
  intro l
  induction l with
  | nil => intro _; rfl
  | cons x xs ih =>
    intro h
    simp only [List.flatMap_cons]
    rw [h x (List.mem_cons_self _ _), ih (fun a ha => h a (List.mem_cons_of_mem _ ha))]

/-- C4, as stated, fails.  With a right table that has no column and two
rows, and a condition that is always true, the one left row has two matching
right rows, yet the join returns the left table, one row.  Beyond that: a
left row longer than the left columns, emitted without match, shows its own
extra value, not null, at the right column; and a left row with spare
capacity has its two output rows in the one backing array, where the second
overwrites the first, so that both read the last right row. -/
theorem LeftJoin_no_right_columns :
    (joinResult (fun _ _ => 0) always [[.num 1]]
        { Columns := ["id"], Data := [sliceOf 0 1 1] }
        { Columns := [], Data := [sliceOf 0 0 0, sliceOf 0 0 0] }).Data.length = 1 ∧
    (matchingPairs always ["id"] [] [.num 1] [[], []]).length = 2 ∧
    joinResult (fun _ _ => 0) always [[.num 1, .num 7]]
        { Columns := ["id"], Data := [sliceOf 0 2 2] }
        { Columns := ["k"], Data := [] } =
      { Columns := ["id", "k"], Data := [[.num 1, .num 7, .null]] } ∧
    Ident.Variable "k"
        { Source := { Columns := ["id", "k"], Values := [.num 1, .num 7, .null] } } =
      .ok (.num 7) ∧
    joinResult (fun _ _ => 0) always spareMemory
        { Columns := ["a"], Data := [sliceOf 0 1 2] }
        { Columns := ["b"], Data := [sliceOf 1 1 1, sliceOf 2 1 1] } =
      { Columns := ["a", "b"], Data := [[.num 1, .num 6], [.num 1, .num 6]] } ∧
    owedRows always ["a"] ["b"] [[.num 5], [.num 6]] [.num 1] =
      [[.num 1, .num 5], [.num 1, .num 6]] := by
  decide

/-- C4, amended: for error-free tables whose rows lie within their arrays,
whose left rows are as long as the left columns and have no spare capacity,
and for a condition that raises no error on the pairs of a left and a right
row, a left join with a right table without columns returns the left table;
with a right table that has a column, the result has the columns of both and
its rows are, left row by left row and right row by right row, the rows each
left row is owed (the left row followed by each matching right row), so their
number is the sum over the left rows of the larger of one and the number of
matching right rows; a left row without match is owed one row, which reads
the row's own values at the left columns and null at every right column.  On
such tables the join on lists, `LeftJoin.Join`, returns the same table. -/
theorem LeftJoin_left_preserving (spare : Nat → Nat → Nat) (onCond : Condition)
    (m : Memory) (l r : SliceTable) (hl : l.Err = none) (hr : r.Err = none)
    (hlw : ∀ dl ∈ l.Data, dl.whole m) (hrw : ∀ dr ∈ r.Data, dr.whole m)
    (hlen : ∀ dl ∈ l.Data, dl.len = l.Columns.length)
    (hcap : ∀ dl ∈ l.Data, dl.cap = dl.len)
    (hc : ∀ dl ∈ l.Data, ∀ dr ∈ r.Data,
      ∃ b, onCond (alignedPair l.Columns r.Columns (dl.values m) (dr.values m)) = .ok b) :
    (r.Columns = [] → joinResult spare onCond m l r = l.table m) ∧
    (r.Columns ≠ [] →
      joinResult spare onCond m l r =
        { Columns := l.Columns ++ r.Columns
          Data := (l.table m).Data.flatMap
            (owedRows onCond l.Columns r.Columns (r.table m).Data) } ∧
      (joinResult spare onCond m l r).Data.length =
        ((l.table m).Data.map fun dl =>
          max 1 (matchingPairs onCond l.Columns r.Columns dl (r.table m).Data).length).sum ∧
      joinResult spare onCond m l r =
        LeftJoin.Join { Right := r.table m, On := onCond } (l.table m)) ∧
    (∀ dl ∈ (l.table m).Data,
      matchingPairs onCond l.Columns r.Columns dl (r.table m).Data = [] →
      owedRows onCond l.Columns r.Columns (r.table m).Data dl =
        [dl ++ List.replicate r.Columns.length Value.null] ∧
      (∀ j, j < l.Columns.length →
        readValue (dl ++ List.replicate r.Columns.length Value.null) (j : Int) =
          readValue dl (j : Int)) ∧
      (∀ k, k < r.Columns.length →
        readValue (dl ++ List.replicate r.Columns.length Value.null)
          ((l.Columns.length + k : Nat) : Int) = Value.null)) := by
  have hvlen : ∀ dl ∈ (l.table m).Data, dl.length = l.Columns.length := by
    intro dl hdl
    obtain ⟨d, hd, rfl⟩ := List.mem_map.1 hdl
    rw [hlw d hd]
    exact hlen d hd
  have hc1 : ∀ dl ∈ l.Data, ∀ dr ∈ r.Data,
      ∃ b, onCond (rowRecord (l.Columns ++ r.Columns) (dl.values m ++ dr.values m)) =
        .ok b := by
    intro dl hdl dr hdr
    obtain ⟨b, hb⟩ := hc dl hdl dr hdr
    unfold alignedPair at hb
    rw [aligned_self _ _ (hvlen _ (List.mem_map.2 ⟨dl, hdl, rfl⟩))] at hb
    exact ⟨b, hb⟩
  have hc2 : ∀ dl ∈ (l.table m).Data, ∀ dr ∈ (r.table m).Data,
      ∃ b, onCond (rowRecord (l.Columns ++ r.Columns) (dl ++ dr)) = .ok b := by
    intro dl hdl dr hdr
    obtain ⟨d, hd, rfl⟩ := List.mem_map.1 hdl
    obtain ⟨e, he, rfl⟩ := List.mem_map.1 hdr
    exact hc1 d hd e he
  have howed : (l.table m).Data.flatMap (rowsFor onCond (l.Columns ++ r.Columns) (r.table m)) =
      (l.table m).Data.flatMap (owedRows onCond l.Columns r.Columns (r.table m).Data) :=
    flatMap_congr_mem _ _ _ (fun dl hdl => rowsFor_owed onCond l.Columns (r.table m) dl
      (hvlen dl hdl))
  refine ⟨?_, ?_, ?_⟩
  · intro h0
    unfold joinResult LeftJoin.joinMem
    simp [hl, hr, h0]
  · intro hne
    have key := joinMem_rows spare onCond m l r hl hr hne
      (fun dl hdl => ⟨hlw dl hdl, hcap dl hdl⟩) hrw hc1
    rw [howed] at key
    refine ⟨key, ?_, ?_⟩
    · rw [key]
      simp only [List.length_flatMap, Function.comp_def, length_owedRows]
    · rw [key, ← howed]
      unfold LeftJoin.Join
      have hlen0 : ¬ (r.table m).Columns.length = 0 :=
        fun h => hne (List.length_eq_zero.1 h)
      have hl' : (l.table m).Err = none := hl
      have hr' : (r.table m).Err = none := hr
      simp only [hl', hr', hlen0, if_false]
      rw [joinOuter_spec onCond ((l.table m).Columns ++ (r.table m).Columns) (r.table m)
        (l.table m).Data [] hc2]
      rfl
  · intro dl hdl hm
    have hdlen := hvlen dl hdl
    refine ⟨by simp [owedRows, hm], ?_, ?_⟩
    · intro j hj
      rw [readValue_natCast, readValue_natCast]
      rw [List.getD_append _ _ _ _ (by omega)]
    · intro k hk
      rw [readValue_natCast, List.getD_append_right _ _ _ _ (by omega)]
      rw [List.getD_eq_getElem _ _ (by simp; omega)]
      simp

/-- C4 at the left row `[1]`, the right table with the columns `k`, `v` and
one row, and a condition that is never true. -/
theorem LeftJoin_left_preserving_witness :
    joinResult (fun _ _ => 0) never [[.num 1], [.num 9, .str "x"]]
        { Columns := ["id"], Data := [sliceOf 0 1 1] }
        { Columns := ["k", "v"], Data := [sliceOf 1 2 2] } =
      { Columns := ["id", "k", "v"], Data := [[.num 1, .null, .null]] } := by
  have h := ((LeftJoin_left_preserving (fun _ _ => 0) never [[.num 1], [.num 9, .str "x"]]
    { Columns := ["id"], Data := [sliceOf 0 1 1] }
    { Columns := ["k", "v"], Data := [sliceOf 1 2 2] } rfl rfl
    (by decide) (by decide) (by decide) (by decide) (by decide)).2.1 (by decide)).1
  rw [h]
  decide

end Querify
